import Mathlib

/-!
Shallow embedding of the crossword-gui engine (C++ namespace `crossword_backend`)
and proofs about the frozen claims.

Conventions of the embedding:
* `std::size_t` and small machine integers are modelled as `Nat`; `int` values
  that can be the sentinel `kNO_NUMBER = -1` are modelled as `Int`.
* A 2-D `std::array` grid is modelled as a total function `Coord → Cell`
  (only the `height × width` prefix is ever read by the embedded operations,
  matching the bounds-checked C++ accessors).
* `assert(...)` preconditions of mutating methods are modelled by guarding the
  mutation: on a violated precondition the C++ program aborts, so no state in
  which the mutation happened exists; the guarded model returns the state
  unchanged in that case.
* `std::vector` is a `List`; an `std::unordered_map` or `std::map` is an
  association list whose keys are unique (lookups take the first match, which
  agrees with the container on unique keys).
-/

/-- Atom code (word.hpp `Atom`): 0 is the empty symbol, 1..26 are A..Z. -/
abbrev Atom := Nat

/-- Atom.IsEmpty (word.hpp): code equals `kEMPTY_CODE = 0`. -/
def Atom.IsEmpty (a : Atom) : Bool := a == 0

/-- Word (word.hpp): the underlying vector of atoms. -/
abbrev Word := List Atom

/-- Coord (base.hpp). -/
structure Coord where
  row : Nat
  col : Nat
deriving DecidableEq, Repr

/-- kMAX_DIM (base.hpp). -/
def kMAX_DIM : Nat := 35

/-- kSTART_HEIGHT (base.hpp). -/
def kSTART_HEIGHT : Nat := 5

/-- kSTART_WIDTH (base.hpp). -/
def kSTART_WIDTH : Nat := 5

/-- WordDirection (base.hpp): kACROSS = 0, kDOWN = 1. -/
abbrev WordDirection := Nat

/-- kACROSS (base.hpp). -/
def kACROSS : WordDirection := 0

/-- kDOWN (base.hpp). -/
def kDOWN : WordDirection := 1

/-- kNO_NUMBER (base.hpp): the `int` sentinel -1. -/
def kNO_NUMBER : Int := -1

/-- Cell (crossword.hpp): barrier flag, lock flag and contents. -/
structure Cell where
  is_barrier : Bool
  locked : Bool
  contents : Atom
deriving DecidableEq, Repr

/-- Default-constructed cell (crossword.hpp `Cell()`): empty, non-barrier, unlocked. -/
def Cell.init : Cell := ⟨false, false, 0⟩

/-- Clue (clue.hpp): direction, start, size, coordinate list, constraint word,
clue number and locked flag. -/
structure Clue where
  direction : WordDirection
  start : Coord
  size : Nat
  coord_list : List Coord
  constraints : Word
  clue_number : Int
  locked : Bool
deriving DecidableEq, Repr

instance : Inhabited Clue := ⟨⟨0, ⟨0, 0⟩, 0, [], [], kNO_NUMBER, false⟩⟩

/-- Clue::IsFilled (clue.cpp): false for size 0, else no blank constraint. -/
def Clue.IsFilled (cl : Clue) : Bool :=
  if cl.size == 0 then false else cl.constraints.all (fun a => !a.IsEmpty)

/-- Clue::FitsWord (clue.cpp): every non-empty constraint equals the word's atom
at the same index (the C++ asserts `size_ == constraints_.size()`; indexing is
modelled with `getD`). -/
def Clue.FitsWord (cl : Clue) (w : Word) : Bool :=
  (List.range cl.size).all (fun i =>
    (cl.constraints.getD i 0).IsEmpty || (cl.constraints.getD i 0 == w.getD i 0))

/-- Clue::ToWord (clue.cpp): the constraints word. -/
def Clue.ToWord (cl : Clue) : Word := cl.constraints

/-- Clue::IndexOfCoord (clue.cpp): first index of a coordinate, kNO_NUMBER if absent. -/
def Clue.IndexOfCoord (cl : Clue) (coord : Coord) : Int :=
  match cl.coord_list.findIdx? (fun c => c == coord) with
  | some i => (i : Int)
  | none => kNO_NUMBER

/-- Clue::SetConstraint (clue.hpp) at the `int` index produced by IndexOfCoord
(the C++ caller always passes a valid index; a negative index leaves the clue
unchanged in the model). -/
def Clue.SetConstraintIdx (cl : Clue) (idx : Int) (v : Atom) : Clue :=
  if idx < 0 then cl else { cl with constraints := cl.constraints.set idx.toNat v }

/-- ClueStructure (crossword.hpp): the clue cache. `cell_mapping` holds indices
into `clues` (raw pointers in the C++). -/
structure ClueStructure where
  clues : List Clue
  numberings : Coord → Int
  cell_mapping : Coord → List Nat
  dirty : Bool

/-- CrosswordSetAction (crossword_action.hpp): records coordinate, new and old value. -/
structure SetAction where
  new_value : Atom
  old_value : Atom
  coord : Coord
deriving DecidableEq, Repr

/-- CrosswordAction (crossword_action.hpp): a single cell change or an ordered
group. The C++ tree type admits nested groups, but the program only ever builds
groups of `CrosswordSetAction`s (fill groups, ClearClue, ClearAtoms, the DFS
dummy), so groups are modelled as lists of set actions. -/
inductive CwAction where
  | set (a : SetAction)
  | group (actions : List SetAction)
deriving Repr

/-- Crossword (crossword.hpp): grid array, dimensions, clue cache and action
stack (stack vector plus head index). Hint strings, the logger and the search
flags carry no grid state and are omitted. -/
structure Crossword where
  grid : Coord → Cell
  height : Nat
  width : Nat
  clue_cache : ClueStructure
  stack : List CwAction
  stack_index : Nat

/-- Crossword::InBounds (crossword.cpp). -/
def Crossword.InBounds (cw : Crossword) (coord : Coord) : Bool :=
  coord.row < cw.height && coord.col < cw.width

/-- Crossword::Set_ (crossword.cpp): raw cell write guarded by the asserts
`InBounds(coord)` and `!Get(coord).IsBarrier()`; also updates the constraint
atom of every cached clue listed in `cell_mapping[coord]` at the index of
`coord` inside that clue. -/
def Crossword.Set_ (val : Atom) (coord : Coord) (cw : Crossword) : Crossword :=
  if cw.InBounds coord && !(cw.grid coord).is_barrier then
    { cw with
      grid := fun c => if c == coord then { cw.grid coord with contents := val } else cw.grid c
      clue_cache := { cw.clue_cache with
        clues := (cw.clue_cache.cell_mapping coord).foldl (fun cls i =>
          match cls.get? i with
          | some cl => cls.set i (cl.SetConstraintIdx (cl.IndexOfCoord coord) val)
          | none => cls) cw.clue_cache.clues } }
  else cw

/-- CrosswordSetAction::Apply (crossword_action.cpp): `Set_(new_value_, coord_)`. -/
def SetAction.Apply (a : SetAction) (cw : Crossword) : Crossword :=
  Crossword.Set_ a.new_value a.coord cw

/-- CrosswordSetAction::Invert (crossword_action.cpp): `Set_(old_value_, coord_)`. -/
def SetAction.Invert (a : SetAction) (cw : Crossword) : Crossword :=
  Crossword.Set_ a.old_value a.coord cw

/-- CrosswordActionGroup::Apply / CrosswordSetAction::Apply (crossword_action.cpp):
a group applies its members in order of addition. -/
def CwAction.Apply (a : CwAction) (cw : Crossword) : Crossword :=
  match a with
  | .set s => s.Apply cw
  | .group l => l.foldl (fun c s => s.Apply c) cw

/-- CrosswordActionGroup::Invert (crossword_action.cpp): members inverted in
reverse order of addition (rbegin..rend). -/
def CwAction.Invert (a : CwAction) (cw : Crossword) : Crossword :=
  match a with
  | .set s => s.Invert cw
  | .group l => l.foldr (fun s c => s.Invert c) cw

/-- CrosswordActionStack::Push (crossword_action.cpp): discard the redo tail,
then append and advance the head index. -/
def Crossword.PushAction (a : CwAction) (cw : Crossword) : Crossword :=
  { cw with stack := cw.stack.take cw.stack_index ++ [a], stack_index := cw.stack_index + 1 }

/-- Crossword::ApplyAction (crossword.cpp): apply then push. -/
def Crossword.ApplyAction (a : CwAction) (cw : Crossword) : Crossword :=
  (a.Apply cw).PushAction a

/-- Crossword::Undo via CrosswordActionStack::Pop (crossword_action.cpp):
if the head index is 0 do nothing, else decrement it and invert that action. -/
def Crossword.Undo (cw : Crossword) : Crossword :=
  if cw.stack_index == 0 then cw
  else
    let i := cw.stack_index - 1
    let cw2 := match cw.stack.get? i with
      | some a => a.Invert cw
      | none => cw
    { cw2 with stack_index := i }

/-- Crossword::Redo via CrosswordActionStack::Replace (crossword_action.cpp). -/
def Crossword.Redo (cw : Crossword) : Crossword :=
  if cw.stack_index < cw.stack.length then
    let cw2 := match cw.stack.get? cw.stack_index with
      | some a => a.Apply cw
      | none => cw
    { cw2 with stack_index := cw.stack_index + 1 }
  else cw

/-- Crossword::Set (crossword.cpp): the logged single-cell edit; asserts bounds
and non-barrier, records the old contents from the current grid. -/
def Crossword.Set (val : Atom) (coord : Coord) (cw : Crossword) : Crossword :=
  if cw.InBounds coord && !(cw.grid coord).is_barrier then
    cw.ApplyAction (.set ⟨val, (cw.grid coord).contents, coord⟩)
  else cw

/-! ## Claim C8: apply-then-invert restores the grid -/

/-- Set actions of an action, in application order. -/
def CwAction.sets (a : CwAction) : List SetAction :=
  match a with
  | .set s => [s]
  | .group l => l

/-- Old value of the first set action in the list that touches the coordinate. -/
def firstOldAt (l : List SetAction) (c : Coord) : Option Atom :=
  match l with
  | [] => none
  | s :: rest => if s.coord = c then some s.old_value else firstOldAt rest c

/-- Fold applying a list of set actions in order (CrosswordActionGroup::Apply). -/
def applyL (l : List SetAction) (cw : Crossword) : Crossword :=
  l.foldl (fun c s => s.Apply c) cw

/-- Fold inverting a list of set actions in reverse order (CrosswordActionGroup::Invert). -/
def invertR (l : List SetAction) (cw : Crossword) : Crossword :=
  l.foldr (fun s c => s.Invert c) cw

theorem Set__height (v : Atom) (co : Coord) (cw : Crossword) :
    (cw.Set_ v co).height = cw.height := by
  unfold Crossword.Set_; split <;> rfl

theorem Set__width (v : Atom) (co : Coord) (cw : Crossword) :
    (cw.Set_ v co).width = cw.width := by
  unfold Crossword.Set_; split <;> rfl

theorem Set__barrier (v : Atom) (co : Coord) (cw : Crossword) (c : Coord) :
    ((cw.Set_ v co).grid c).is_barrier = (cw.grid c).is_barrier := by
  unfold Crossword.Set_
  split
  · simp only
    split
    · rename_i h; rw [show c = co from by simpa using h]
    · rfl
  · rfl

theorem Set__locked (v : Atom) (co : Coord) (cw : Crossword) (c : Coord) :
    ((cw.Set_ v co).grid c).locked = (cw.grid c).locked := by
  unfold Crossword.Set_
  split
  · simp only
    split
    · rename_i h; rw [show c = co from by simpa using h]
    · rfl
  · rfl

theorem Set__grid_ne (v : Atom) (co : Coord) (cw : Crossword) (c : Coord) (h : c ≠ co) :
    (cw.Set_ v co).grid c = cw.grid c := by
  unfold Crossword.Set_
  split
  · simp only
    split
    · rename_i h2; exact absurd (by simpa using h2) h
    · rfl
  · rfl

theorem Set__grid_self (v : Atom) (co : Coord) (cw : Crossword)
    (hg : (cw.InBounds co && !(cw.grid co).is_barrier) = true) :
    (cw.Set_ v co).grid co = { cw.grid co with contents := v } := by
  unfold Crossword.Set_
  rw [if_pos hg]
  simp

theorem applyL_height (l : List SetAction) (cw : Crossword) :
    (applyL l cw).height = cw.height := by
  induction l generalizing cw with
  | nil => rfl
  | cons a rest ih => simpa [applyL, SetAction.Apply, Set__height] using ih (a.Apply cw)

theorem applyL_width (l : List SetAction) (cw : Crossword) :
    (applyL l cw).width = cw.width := by
  induction l generalizing cw with
  | nil => rfl
  | cons a rest ih => simpa [applyL, SetAction.Apply, Set__width] using ih (a.Apply cw)

theorem applyL_barrier (l : List SetAction) (cw : Crossword) (c : Coord) :
    ((applyL l cw).grid c).is_barrier = ((cw.grid c).is_barrier) := by
  induction l generalizing cw with
  | nil => rfl
  | cons a rest ih =>
    simpa [applyL, SetAction.Apply, Set__barrier] using ih (a.Apply cw)

theorem invertR_height (l : List SetAction) (cw : Crossword) :
    (invertR l cw).height = cw.height := by
  induction l with
  | nil => rfl
  | cons a rest ih => simp [invertR, SetAction.Invert, Set__height] at ih ⊢; rw [ih]

theorem invertR_width (l : List SetAction) (cw : Crossword) :
    (invertR l cw).width = cw.width := by
  induction l with
  | nil => rfl
  | cons a rest ih => simp [invertR, SetAction.Invert, Set__width] at ih ⊢; rw [ih]

theorem invertR_barrier (l : List SetAction) (cw : Crossword) (c : Coord) :
    ((invertR l cw).grid c).is_barrier = ((cw.grid c).is_barrier) := by
  induction l with
  | nil => rfl
  | cons a rest ih => simp [invertR, SetAction.Invert, Set__barrier] at ih ⊢; rw [ih]

theorem Set__contents_self (v : Atom) (co : Coord) (cw : Crossword)
    (hg : (cw.InBounds co && !(cw.grid co).is_barrier) = true) :
    ((cw.Set_ v co).grid co).contents = v := by
  rw [Set__grid_self _ _ _ hg]

theorem applyL_locked (l : List SetAction) (cw : Crossword) (c : Coord) :
    ((applyL l cw).grid c).locked = ((cw.grid c).locked) := by
  induction l generalizing cw with
  | nil => rfl
  | cons a rest ih =>
    simpa [applyL, SetAction.Apply, Set__locked] using ih (a.Apply cw)

theorem invertR_locked (l : List SetAction) (cw : Crossword) (c : Coord) :
    ((invertR l cw).grid c).locked = ((cw.grid c).locked) := by
  induction l with
  | nil => rfl
  | cons a rest ih => simp [invertR, SetAction.Invert, Set__locked] at ih ⊢; rw [ih]

theorem invertR_applyL_contents (l : List SetAction) (cw : Crossword)
    (hb : ∀ s ∈ l, cw.InBounds s.coord = true ∧ (cw.grid s.coord).is_barrier = false)
    (c : Coord) :
    ((invertR l (applyL l cw)).grid c).contents =
      match firstOldAt l c with
      | some o => o
      | none => (cw.grid c).contents := by
  induction l generalizing cw with
  | nil => rfl
  | cons a rest ih =>
    have hb_a := hb a (by simp)
    have hbrest : ∀ s ∈ rest, (a.Apply cw).InBounds s.coord = true ∧
        ((a.Apply cw).grid s.coord).is_barrier = false := by
      intro s hs
      have := hb s (by simp [hs])
      constructor
      · simpa [Crossword.InBounds, SetAction.Apply, Set__height, Set__width] using this.1
      · simpa [SetAction.Apply, Set__barrier] using this.2
    have hinv : invertR (a :: rest) (applyL (a :: rest) cw)
        = SetAction.Invert a (invertR rest (applyL rest (a.Apply cw))) := rfl
    rw [hinv]
    set X := invertR rest (applyL rest (a.Apply cw)) with hX
    have hguard1 : X.InBounds a.coord = true := by
      simp only [Crossword.InBounds, hX, invertR_height, invertR_width,
        applyL_height, applyL_width, SetAction.Apply, Set__height, Set__width]
      simpa [Crossword.InBounds] using hb_a.1
    have hguard2 : (X.grid a.coord).is_barrier = false := by
      rw [hX, invertR_barrier, applyL_barrier]
      simpa [SetAction.Apply, Set__barrier] using hb_a.2
    have hguardX : (X.InBounds a.coord && !(X.grid a.coord).is_barrier) = true := by
      simp [hguard1, hguard2]
    by_cases hc : c = a.coord
    · subst hc
      rw [show SetAction.Invert a X = X.Set_ a.old_value a.coord from rfl]
      rw [Set__contents_self _ _ _ hguardX]
      simp [firstOldAt]
    · rw [show SetAction.Invert a X = X.Set_ a.old_value a.coord from rfl]
      rw [Set__grid_ne _ _ _ _ hc]
      have hXg := ih (a.Apply cw) hbrest
      have hfirst : firstOldAt (a :: rest) c = firstOldAt rest c := by
        have hne2 : ¬a.coord = c := fun h => hc h.symm
        simp [firstOldAt, hne2]
      rw [hfirst, hXg]
      have hne : (SetAction.Apply a cw).grid c = cw.grid c := by
        rw [show (SetAction.Apply a cw) = cw.Set_ a.new_value a.coord from rfl]
        exact Set__grid_ne _ _ _ _ hc
      cases hf : firstOldAt rest c <;> simp [hf, hne]

theorem firstOldAt_matches (l : List SetAction) (cw : Crossword)
    (ho : ∀ s ∈ l, s.old_value = (cw.grid s.coord).contents) (c : Coord) (o : Atom)
    (hf : firstOldAt l c = some o) : o = (cw.grid c).contents := by
  induction l with
  | nil => simp [firstOldAt] at hf
  | cons s rest ihl =>
    by_cases hsc : s.coord = c
    · simp [firstOldAt, hsc] at hf
      rw [← hf, ho s (by simp), hsc]
    · simp [firstOldAt, hsc] at hf
      exact ihl (fun x hx => ho x (by simp [hx])) hf

/-- C8: for a SetCell action, or a group of SetCell actions, whose recorded old
values equal the grid's current contents at their coordinates, and on whose
coordinates apply is defined (in bounds and not a barrier), applying the action
and then inverting it restores the grid exactly; a group inverts its members in
reverse order of application (that is how `CwAction.Invert` is defined). -/
theorem C8_action_inversion (a : CwAction) (cw : Crossword)
    (hdef : ∀ s ∈ a.sets, cw.InBounds s.coord = true ∧ (cw.grid s.coord).is_barrier = false)
    (hold : ∀ s ∈ a.sets, s.old_value = (cw.grid s.coord).contents) :
    (a.Invert (a.Apply cw)).grid = cw.grid := by
  have main : ∀ (l : List SetAction),
      (∀ s ∈ l, cw.InBounds s.coord = true ∧ (cw.grid s.coord).is_barrier = false) →
      (∀ s ∈ l, s.old_value = (cw.grid s.coord).contents) →
      (invertR l (applyL l cw)).grid = cw.grid := by
    intro l hb ho
    funext c
    have hcontents2 : ((invertR l (applyL l cw)).grid c).contents = (cw.grid c).contents := by
      rw [invertR_applyL_contents l cw hb c]
      cases hf : firstOldAt l c with
      | none => rfl
      | some o => exact firstOldAt_matches l cw ho c o hf
    have hbar : ((invertR l (applyL l cw)).grid c).is_barrier = (cw.grid c).is_barrier :=
      (invertR_barrier l (applyL l cw) c).trans (applyL_barrier l cw c)
    have hlk : ((invertR l (applyL l cw)).grid c).locked = (cw.grid c).locked :=
      (invertR_locked l (applyL l cw) c).trans (applyL_locked l cw c)
    cases hcell : cw.grid c with
    | mk b lk ct =>
      cases hcell2 : (invertR l (applyL l cw)).grid c with
      | mk b2 lk2v ct2 =>
        rw [hcell, hcell2] at hcontents2 hbar hlk
        simp only [Cell.mk.injEq]
        exact ⟨hbar, hlk, hcontents2⟩
  cases a with
  | set s =>
    have hform : CwAction.Invert (.set s) (CwAction.Apply (.set s) cw)
        = invertR [s] (applyL [s] cw) := rfl
    rw [hform]
    exact main [s] (by simpa [CwAction.sets] using hdef) (by simpa [CwAction.sets] using hold)
  | group l =>
    have hform : CwAction.Invert (.group l) (CwAction.Apply (.group l) cw)
        = invertR l (applyL l cw) := rfl
    rw [hform]
    exact main l (by simpa [CwAction.sets] using hdef) (by simpa [CwAction.sets] using hold)

/-- Concrete crossword used by closed witnesses: an all-open 3 by 3 grid with an
empty clue cache and an empty log. -/
def witnessCw : Crossword :=
  { grid := fun _ => Cell.init
    height := 3
    width := 3
    clue_cache := ⟨[], fun _ => kNO_NUMBER, fun _ => [], false⟩
    stack := []
    stack_index := 0 }

/-- Witness for C8 at a concrete two-cell fill group on a concrete grid. -/
theorem C8_action_inversion_witness :
    ((CwAction.group [⟨1, 0, ⟨0, 0⟩⟩, ⟨2, 0, ⟨0, 1⟩⟩]).Invert
      ((CwAction.group [⟨1, 0, ⟨0, 0⟩⟩, ⟨2, 0, ⟨0, 1⟩⟩]).Apply witnessCw)).grid
      = witnessCw.grid :=
  C8_action_inversion _ witnessCw (by decide) (by decide)

/-! ## Clue enumeration and the clue cache -/

/-- Run scanner of Crossword::UnfilteredClues (crossword.cpp): walk the cells of
one line keeping a run buffer; a barrier (or the end of the line) closes the
current run. `buf` holds the current run reversed (most recent first). -/
def runsSplitGo (isBar : Coord → Cell → Bool) : List (Coord × Cell) → List (Coord × Cell) →
    List (List (Coord × Cell))
  | [], buf => if buf.isEmpty then [] else [buf.reverse]
  | x :: rest, buf =>
    if isBar x.1 x.2 then
      if buf.isEmpty then runsSplitGo isBar rest [] else buf.reverse :: runsSplitGo isBar rest []
    else runsSplitGo isBar rest (x :: buf)

/-- Maximal runs of non-barrier cells of one line, in scan order. -/
def runsSplit (isBar : Coord → Cell → Bool) (l : List (Coord × Cell)) :
    List (List (Coord × Cell)) :=
  runsSplitGo isBar l []

/-- Clue built from one run (the emit step of Crossword::UnfilteredClues): the
start is the first coordinate of the run, the constraints snapshot the cells'
contents, the number is unset and the locked flag false (the `Clue` ctor). -/
def clueOfRun (direction : WordDirection) (run : List (Coord × Cell)) : Clue :=
  { direction := direction
    start := (run.headD (⟨0, 0⟩, Cell.init)).1
    size := run.length
    coord_list := run.map (fun x => x.1)
    constraints := run.map (fun x => x.2.contents)
    clue_number := kNO_NUMBER
    locked := false }

/-- Cells of scan line `i` of the given direction, in scan order (for kDOWN the
scan walks column `i` downwards). -/
def lineCells (g : Coord → Cell) (height width : Nat) (direction : WordDirection) (i : Nat) :
    List (Coord × Cell) :=
  let kMax := if direction == kDOWN then height else width
  (List.range kMax).map (fun k =>
    let c := if direction == kDOWN then Coord.mk k i else Coord.mk i k
    (c, g c))

/-- Crossword::UnfilteredClues (crossword.cpp): all runs of every scan line,
emitted as clues in scan order, with no length filter. -/
def UnfilteredClues (g : Coord → Cell) (height width : Nat) (direction : WordDirection) :
    List Clue :=
  let iMax := if direction == kDOWN then width else height
  (List.range iMax).flatMap (fun i =>
    (runsSplit (fun _ cell => cell.is_barrier) (lineCells g height width direction i)).map
      (clueOfRun direction))

/-- Locked-flag pass of Crossword::Clues_ (cell.cpp): a clue is locked iff every
cell is locked and non-empty. -/
def setLockedFlag (g : Coord → Cell) (cl : Clue) : Clue :=
  { cl with locked := cl.coord_list.all (fun c => (g c).locked && !((g c).contents == 0)) }

/-- Numbering pass of Crossword::Clues_ (cell.cpp): scan coordinates in
row-major order; every coordinate at which at least one clue starts assigns the
next number (starting from 1) to all clues starting there. -/
def assignNumbersGo (cls : List Clue) (cn : Int) : List Coord → List Clue
  | [] => cls
  | c :: rest =>
    if cls.any (fun cl => cl.start == c) then
      assignNumbersGo
        (cls.map (fun cl => if cl.start == c then { cl with clue_number := cn } else cl))
        (cn + 1) rest
    else assignNumbersGo cls cn rest

/-- Row-major coordinates of the live grid region. -/
def rowMajorCoords (height width : Nat) : List Coord :=
  (List.range height).flatMap (fun i => (List.range width).map (fun j => Coord.mk i j))

/-- Crossword::Clues_ (cell.cpp): filtered across clues then filtered down
clues (length at least 3), locked flags from the grid, then clue numbers. -/
def Clues_ (g : Coord → Cell) (height width : Nat) : List Clue :=
  let across := (UnfilteredClues g height width kACROSS).filter (fun cl => 3 ≤ cl.size)
  let down := (UnfilteredClues g height width kDOWN).filter (fun cl => 3 ≤ cl.size)
  assignNumbersGo ((across ++ down).map (setLockedFlag g)) 1 (rowMajorCoords height width)

/-- Crossword::CluesStartingAt_ (cell.cpp): despite the name, the indices of
the clues whose coordinate list contains `coord`, one entry per matching
coordinate, in clue order (the C++ returns raw pointers into the clue list). -/
def CluesStartingAt_ (all_clues : List Clue) (coord : Coord) : List Nat :=
  all_clues.enum.flatMap (fun p =>
    (p.2.coord_list.filter (fun c => c == coord)).map (fun _ => p.1))

/-- Crossword::GetClueNumber_ (cell.cpp): among the clues containing `coord`,
the number of the one starting there, else kNO_NUMBER. -/
def GetClueNumber_ (all_clues : List Clue) (coord : Coord) : Int :=
  let idxs := CluesStartingAt_ all_clues coord
  if idxs.length == 2 then
    if ((all_clues.getD (idxs.getD 0 0) default).start == coord) then
      (all_clues.getD (idxs.getD 0 0) default).clue_number
    else if ((all_clues.getD (idxs.getD 1 0) default).start == coord) then
      (all_clues.getD (idxs.getD 1 0) default).clue_number
    else kNO_NUMBER
  else if idxs.length == 0 then kNO_NUMBER
  else if ((all_clues.getD (idxs.getD 0 0) default).start == coord) then
    (all_clues.getD (idxs.getD 0 0) default).clue_number
  else kNO_NUMBER

/-- Crossword::PopulateClueStructure (crossword.cpp): recompute the clue list
and refresh the numbering and cell-mapping arrays over the live region (the C++
writes only indices `r < height, c < width`; entries outside keep their old
values), then clear the dirty flag. -/
def Crossword.PopulateClueStructure (cw : Crossword) : Crossword :=
  let cls := Clues_ cw.grid cw.height cw.width
  { cw with clue_cache :=
    { clues := cls
      numberings := fun c =>
        if c.row < cw.height && c.col < cw.width then GetClueNumber_ cls c
        else cw.clue_cache.numberings c
      cell_mapping := fun c =>
        if c.row < cw.height && c.col < cw.width then CluesStartingAt_ cls c
        else cw.clue_cache.cell_mapping c
      dirty := false } }

/-- Crossword::DirtyClueStructure (crossword.cpp). -/
def Crossword.DirtyClueStructure (cw : Crossword) : Crossword :=
  { cw with clue_cache := { cw.clue_cache with dirty := true } }

/-- Crossword::GetRotationalPair (crossword.cpp). -/
def Crossword.GetRotationalPair (cw : Crossword) (coord : Coord) : Coord :=
  ⟨cw.height - 1 - coord.row, cw.width - 1 - coord.col⟩

/-- Crossword::SetBarrier (crossword.cpp): dirty the cache, write the barrier
bit (and its rotational pair when symmetry is requested and distinct), then
repopulate the cache before returning. -/
def Crossword.SetBarrier (val : Bool) (coord : Coord) (enforce_symmetry : Bool)
    (cw : Crossword) : Crossword :=
  let cw1 := cw.DirtyClueStructure
  let g1 := fun c => if c == coord then { cw1.grid coord with is_barrier := val }
    else cw1.grid c
  let pair := cw1.GetRotationalPair coord
  let g2 := if enforce_symmetry && !(pair == coord) then
      (fun c => if c == pair then { g1 pair with is_barrier := val } else g1 c)
    else g1
  Crossword.PopulateClueStructure { cw1 with grid := g2 }

/-- Crossword::ToggleBarrier (crossword.cpp). -/
def Crossword.ToggleBarrier (coord : Coord) (enforce_symmetry : Bool) (cw : Crossword) :
    Crossword :=
  cw.SetBarrier (!(cw.grid coord).is_barrier) coord enforce_symmetry

/-- Crossword::SetDimensions (crossword.cpp): asserts 2 < h, w ≤ kMAX_DIM
(guarded), dirties, sets the dimensions, repopulates. -/
def Crossword.SetDimensions (height width : Nat) (cw : Crossword) : Crossword :=
  if 2 < height && height ≤ kMAX_DIM && 2 < width && width ≤ kMAX_DIM then
    Crossword.PopulateClueStructure
      { cw.DirtyClueStructure with height := height, width := width }
  else cw

/-- Crossword::LockCell (crossword.cpp): guarded-by-bounds raw lock write. -/
def Crossword.LockCell (coord : Coord) (value : Bool) (cw : Crossword) : Crossword :=
  if cw.InBounds coord then
    { cw with grid := fun c => if c == coord then { cw.grid coord with locked := value }
        else cw.grid c }
  else cw

/-- Crossword::ClearAtoms (crossword.cpp): one group action that sets every
non-barrier cell of the live region to empty, recording old contents. -/
def Crossword.ClearAtoms (cw : Crossword) : Crossword :=
  cw.ApplyAction (.group ((rowMajorCoords cw.height cw.width).filterMap (fun c =>
    if !(cw.grid c).is_barrier then some ⟨0, (cw.grid c).contents, c⟩ else none)))

/-- CrosswordActionGroup fill constructor (crossword_action.cpp): one set
action per position of the clue whose current constraint is empty, recording
the old contents from the grid. -/
def mkFillGroup (cw : Crossword) (clue : Clue) (word : Word) : CwAction :=
  .group ((List.range word.length).filterMap (fun i =>
    if (clue.constraints.getD i 0).IsEmpty then
      some ⟨word.getD i 0, (cw.grid (clue.coord_list.getD i ⟨0, 0⟩)).contents,
        clue.coord_list.getD i ⟨0, 0⟩⟩
    else none))

/-- Crossword::SetClue (crossword.cpp): asserts FitsWord (guarded), then
applies the fill group. -/
def Crossword.SetClue (clue : Clue) (word : Word) (cw : Crossword) : Crossword :=
  if clue.FitsWord word then cw.ApplyAction (mkFillGroup cw clue word) else cw

/-- Crossword::ClearClue (crossword.cpp): a group clearing every coordinate of
the clue, recording old contents. -/
def Crossword.ClearClue (clue : Clue) (cw : Crossword) : Crossword :=
  cw.ApplyAction (.group ((List.range clue.size).map (fun i =>
    ⟨0, (cw.grid (clue.coord_list.getD i ⟨0, 0⟩)).contents, clue.coord_list.getD i ⟨0, 0⟩⟩)))

/-- Crossword constructor (crossword.hpp): kSTART dimensions, default cells,
freshly populated clue cache (the ClueStructure ctor starts dirty; numbering
entries start unspecified, modelled as kNO_NUMBER). -/
def initialCrossword : Crossword :=
  Crossword.PopulateClueStructure
    { grid := fun _ => Cell.init
      height := kSTART_HEIGHT
      width := kSTART_WIDTH
      clue_cache := ⟨[], fun _ => kNO_NUMBER, fun _ => [], true⟩
      stack := []
      stack_index := 0 }

/-! ## Claim C1: the end of a failed autofill iteration (solver.cpp lines 350-362) -/

/-- Repeated Undo, `for (i = 0; i < depth_reached; i++) Undo();` in Autofill. -/
def undoN : Nat → Crossword → Crossword
  | 0, cw => cw
  | n + 1, cw => undoN n cw.Undo

/-- End of one outer-loop iteration of Crossword::Autofill (solver.cpp):
`if (!found) { ... if (rollback) { depth_reached = size - initial; undo that
many times } }`. The C++ variable `rollback` is a `bool *`; the `if` tests the
pointer, so the condition is its being non-null, not the parameter's value. -/
def autofillRollbackStep (found : Bool) (rollbackPtr : Option Bool) (initial_depth : Nat)
    (cw : Crossword) : Crossword :=
  if found then cw
  else if rollbackPtr.isSome then undoN (cw.stack_index - initial_depth) cw
  else cw

/-- The call as Autofill makes it: `bool *rollback = &params.rollback;` — the
address of a struct field is never null, so the pointer argument is `some` of
the parameter's value whatever that value is. -/
def autofillIterationEnd (found : Bool) (params_rollback : Bool) (initial_depth : Nat)
    (cw : Crossword) : Crossword :=
  autofillRollbackStep found (some params_rollback) initial_depth cw

theorem Set__stack_index (v : Atom) (co : Coord) (cw : Crossword) :
    (cw.Set_ v co).stack_index = cw.stack_index := by
  unfold Crossword.Set_; split <;> rfl

theorem Invert_stack_index (a : CwAction) (cw : Crossword) :
    (a.Invert cw).stack_index = cw.stack_index := by
  cases a with
  | set s => exact Set__stack_index _ _ _
  | group l =>
    induction l generalizing cw with
    | nil => rfl
    | cons x xs ih =>
      show ((SetAction.Invert x (invertR xs cw)).stack_index) = cw.stack_index
      rw [show SetAction.Invert x (invertR xs cw)
        = (invertR xs cw).Set_ x.old_value x.coord from rfl, Set__stack_index]
      exact ih cw

theorem Undo_stack_index (cw : Crossword) :
    cw.Undo.stack_index = cw.stack_index - 1 := by
  unfold Crossword.Undo
  split
  · rename_i h
    simp only [beq_iff_eq] at h
    simp [h]
  · rfl

theorem undoN_stack_index (n : Nat) (cw : Crossword) :
    (undoN n cw).stack_index = cw.stack_index - n := by
  induction n generalizing cw with
  | zero => rfl
  | succ k ih =>
    show (undoN k cw.Undo).stack_index = cw.stack_index - (k + 1)
    rw [ih, Undo_stack_index, Nat.sub_sub, Nat.add_comm]

/-- C1 (code bug, demonstrated at the failing input): with `rollback = false`,
after a failed iteration that applied one SetCell action (log grows 0 → 1,
cell (0,0) becomes 1), the iteration end still undoes the action: the log index
returns to the initial size 0 and the cell's contents return to empty, because
the C++ tests the pointer `rollback` instead of `*rollback`. The claim (and
spec) say the action should have been left applied. -/
theorem C1_autofill_rollback_ignored :
    (Crossword.Set 1 ⟨0, 0⟩ witnessCw).stack_index = 1 ∧
    (((Crossword.Set 1 ⟨0, 0⟩ witnessCw).grid ⟨0, 0⟩).contents = 1) ∧
    (autofillIterationEnd false false 0 (Crossword.Set 1 ⟨0, 0⟩ witnessCw)).stack_index = 0 ∧
    (((autofillIterationEnd false false 0 (Crossword.Set 1 ⟨0, 0⟩ witnessCw)).grid
      ⟨0, 0⟩).contents = 0) := by
  refine ⟨rfl, rfl, ?_, ?_⟩ <;> decide

/-! ## The word trie (database.hpp, trie.cpp) -/

/-- TrieNode (database.hpp): atom value, cached word of the path from the root
(the TrieNode constructor computes `leaf_word` by walking parent pointers, so
every node caches the word its path spells), and the child vector. -/
inductive TrieNode where
  | mk (value : Atom) (leaf_word : Word) (children : List TrieNode)
deriving Repr

def TrieNode.value : TrieNode → Atom
  | .mk v _ _ => v

def TrieNode.leaf_word : TrieNode → Word
  | .mk _ w _ => w

def TrieNode.children : TrieNode → List TrieNode
  | .mk _ _ cs => cs

/-- TrieNode::IsTerminal (database.hpp): no children. -/
def TrieNode.IsTerminal (t : TrieNode) : Bool := t.children.isEmpty

/-- TrieNode::FindChild (trie.cpp): null on a terminal node, else the first
child carrying the queried atom. -/
def TrieNode.FindChild (t : TrieNode) (a : Atom) : Option TrieNode :=
  if t.IsTerminal then none else t.children.find? (fun c => c.value == a)

/-- TrieNode::LeafToWord (trie.cpp): the cached word (the C++ asserts the node
is terminal; the cache is filled at construction for every node). -/
def TrieNode.LeafToWord (t : TrieNode) : Word := t.leaf_word

/-- TrieNode::Find (trie.cpp). The C++ recursion carries `partial` and an index
`substr_start` and asserts `substr_start < partial.size()`; the walk of the
suffix `partial[substr_start..]` is modelled by structural recursion on that
suffix (the empty suffix is the asserted-away case). At the last position a
wildcard collects every child's cached word, a letter collects the matching
child's; earlier positions recurse into every child (wildcard) or the matching
child. -/
def TrieNode.Find : TrieNode → Word → List Word
  | _, [] => []
  | t, [a] =>
    if a.IsEmpty then t.children.map TrieNode.LeafToWord
    else match t.FindChild a with
      | none => []
      | some c => [c.LeafToWord]
  | t, a :: rest =>
    if a.IsEmpty then t.children.flatMap (fun c => TrieNode.Find c rest)
    else match t.FindChild a with
      | none => []
      | some c => TrieNode.Find c rest

/-- The chain of fresh nodes Insert creates below the last existing node: each
`AddChild` builds a `TrieNode` whose constructor computes its path word, here
`pre ++ [its letter]`. -/
def freshChain (pre : Word) (a : Atom) : Word → TrieNode
  | [] => .mk a (pre ++ [a]) []
  | b :: w => .mk a (pre ++ [a]) [freshChain (pre ++ [a]) b w]

/-- In-place update of the first child carrying atom `a` (the C++ descends into
the pointer FindChild returned and mutates through it). -/
def replaceFirstChild (a : Atom) (f : TrieNode → TrieNode) : List TrieNode → List TrieNode
  | [] => []
  | c :: cs => if c.value == a then f c :: cs else c :: replaceFirstChild a f cs

/-- WordTrie::Insert (trie.cpp): walk the word's letters from the root; descend
into the child FindChild finds, else AddChild a fresh node and continue inside
it (`freshChain`). `pre` is the path walked so far. -/
def TrieNode.Insert (pre : Word) : Word → TrieNode → TrieNode
  | [], t => t
  | a :: w, t =>
    if (t.FindChild a).isSome then
      .mk t.value t.leaf_word
        (replaceFirstChild a (fun c => TrieNode.Insert (pre ++ [a]) w c) t.children)
    else
      .mk t.value t.leaf_word (t.children ++ [freshChain pre a w])

/-- WordTrie root (database.hpp): `TrieNode(Atom(), nullptr)` — empty value,
empty cached word, no children. -/
def WordTrie.root : TrieNode := .mk 0 [] []

/-- A per-length trie holding a word list: the inserts AddEntry performs. -/
def trieOfWords (L : List Word) : TrieNode :=
  L.foldl (fun t w => TrieNode.Insert [] w t) WordTrie.root

/-- Wildcard match as the claim states it: at every position the query atom is
empty or equals the word's atom, and the lengths agree. -/
def specMatches (pat w : Word) : Prop :=
  pat.length = w.length ∧
    ∀ i < pat.length, pat.getD i 0 = 0 ∨ pat.getD i 0 = w.getD i 0

instance (pat w : Word) : Decidable (specMatches pat w) := by
  unfold specMatches; infer_instance

/-- Recursive form of the wildcard match, convenient for induction. -/
def matchesB : Word → Word → Bool
  | [], [] => true
  | [], _ :: _ => false
  | _ :: _, [] => false
  | a :: p, b :: w => (a == 0 || a == b) && matchesB p w

theorem matchesB_iff_spec (pat w : Word) : matchesB pat w = true ↔ specMatches pat w := by
  induction pat generalizing w with
  | nil =>
    cases w <;> simp [matchesB, specMatches]
  | cons a p ih =>
    cases w with
    | nil => simp [matchesB, specMatches]
    | cons b w' =>
      simp only [matchesB, Bool.and_eq_true, Bool.or_eq_true, beq_iff_eq]
      rw [ih w']
      constructor
      · rintro ⟨hab, hlen, hrest⟩
        refine ⟨by simpa using hlen, ?_⟩
        intro i hi
        cases i with
        | zero => simpa using hab
        | succ j =>
          have := hrest j (by simpa using hi)
          simpa using this
      · rintro ⟨hlen, hall⟩
        refine ⟨by simpa using hall 0 (by simp), by simpa using hlen, ?_⟩
        intro i hi
        have := hall (i + 1) (by simpa using hi)
        simpa using this

/-- All cached words at depth `d` below a node, in child order (depth-indexed
inventory of the per-length trie; every stored word sits at uniform depth). -/
def collectD : Nat → TrieNode → List Word
  | 0, t => [t.leaf_word]
  | d + 1, t => t.children.flatMap (collectD d)

/-- Well-formedness of a (sub)trie at remaining depth `d` whose path from the
root spells `pre`: at depth 0 the node is a leaf caching its path; otherwise
the children carry distinct non-empty atoms and are well formed below. This is
the invariant WordTrie::Insert maintains for a per-length store. -/
def TrieWF : Nat → Word → TrieNode → Prop
  | 0, pre, t => t.children = [] ∧ t.leaf_word = pre
  | d + 1, pre, t => (t.children.map TrieNode.value).Nodup ∧
      ∀ c ∈ t.children, c.value ≠ 0 ∧ TrieWF d (pre ++ [c.value]) c

theorem collectD_shape (d : Nat) (pre : Word) (t : TrieNode) (h : TrieWF d pre t) :
    ∀ w ∈ collectD d t, ∃ sfx, w = pre ++ sfx ∧ sfx.length = d := by
  induction d generalizing pre t with
  | zero =>
    intro w hw
    simp [collectD] at hw
    exact ⟨[], by simpa [h.2] using hw, rfl⟩
  | succ d ih =>
    intro w hw
    simp only [collectD, List.mem_flatMap] at hw
    obtain ⟨c, hc, hwc⟩ := hw
    obtain ⟨sfx, rfl, hsfx⟩ := ih (pre ++ [c.value]) c (h.2 c hc).2 w hwc
    exact ⟨c.value :: sfx, by simp, by simp [hsfx]⟩

theorem perm_flatMap_congr {α β : Type} (l : List α) (f g : α → List β)
    (h : ∀ x ∈ l, List.Perm (f x) (g x)) :
    List.Perm (l.flatMap f) (l.flatMap g) := by
  induction l with
  | nil => simp
  | cons x xs ih =>
    simp only [List.flatMap_cons]
    exact (h x (by simp)).append (ih (fun y hy => h y (by simp [hy])))

theorem filter_flatMap {α β : Type} (l : List α) (f : α → List β) (p : β → Bool) :
    (l.flatMap f).filter p = l.flatMap (fun x => (f x).filter p) := by
  induction l with
  | nil => rfl
  | cons x xs ih => simp [List.flatMap_cons, List.filter_append, ih]

theorem flatMap_eq_of_single {α β : Type} (l : List α) (f : α → List β) (q : α → Bool)
    (hnil : ∀ x ∈ l, q x = false → f x = []) :
    l.flatMap f = (l.filter q).flatMap f := by
  induction l with
  | nil => rfl
  | cons x xs ih =>
    by_cases hq : q x = true
    · simp only [List.flatMap_cons, List.filter_cons, hq, if_true]
      rw [ih (fun y hy h => hnil y (by simp [hy]) h)]
    · have hq' : q x = false := by simpa using hq
      simp only [List.flatMap_cons, List.filter_cons, hq', Bool.false_eq_true, if_false]
      rw [hnil x (by simp) hq', List.nil_append,
        ih (fun y hy h => hnil y (by simp [hy]) h)]

theorem filter_eq_single_of_find? (l : List TrieNode) (a : Atom) (c : TrieNode)
    (hf : l.find? (fun x => x.value == a) = some c)
    (hnd : (l.map TrieNode.value).Nodup) :
    l.filter (fun x => x.value == a) = [c] := by
  induction l with
  | nil => simp at hf
  | cons x xs ih =>
    by_cases hx : x.value = a
    · have hfind : (x :: xs).find? (fun y => y.value == a) = some x := by
        simp [List.find?_cons, hx]
      have hcx : c = x := by
        have := hf.symm.trans hfind
        simpa using this
      subst hcx
      have hxs : ∀ y ∈ xs, y.value ≠ a := by
        intro y hy hya
        have hmem : a ∈ xs.map TrieNode.value := List.mem_map.mpr ⟨y, hy, hya⟩
        rw [← hx] at hmem
        exact (List.nodup_cons.mp (by simpa using hnd)).1 hmem
      simp only [List.filter_cons, hx, beq_self_eq_true, if_true]
      rw [List.filter_eq_nil_iff.mpr (by intro y hy; simpa using hxs y hy)]
    · have hfind : (x :: xs).find? (fun y => y.value == a) = xs.find? (fun y => y.value == a) := by
        simp [List.find?_cons, hx]
      rw [hf] at hfind
      rw [List.filter_cons_of_neg (by simpa using hx)]
      exact ih hfind.symm (List.nodup_cons.mp (by simpa using hnd)).2

theorem flatMap_singleton_map {α β : Type} (l : List α) (f : α → β) :
    l.flatMap (fun x => [f x]) = l.map f := by
  induction l with
  | nil => rfl
  | cons x xs ih => simp [List.flatMap_cons, ih]

theorem find_perm_filter (pat : Word) :
    ∀ (pre : Word) (t : TrieNode), TrieWF pat.length pre t → 1 ≤ pat.length →
    List.Perm (t.Find pat)
      ((collectD pat.length t).filter (fun w => matchesB pat (w.drop pre.length))) := by
  induction pat with
  | nil => intro pre t _ hd; simp at hd
  | cons a rest ih =>
    intro pre t hWF _
    obtain ⟨hnd, hkids⟩ := hWF
    cases hrest : rest with
    | nil =>
      subst hrest
      rw [show ([a] : Word).length = 1 from rfl]
      have hcollect : collectD 1 t = t.children.map TrieNode.leaf_word := by
        show t.children.flatMap (collectD 0) = _
        rw [show collectD 0 = fun t => [t.leaf_word] from rfl]
        exact flatMap_singleton_map _ _
      have hleaf : ∀ c ∈ t.children, c.leaf_word = pre ++ [c.value] := by
        intro c hc
        exact ((hkids c hc).2).2
      by_cases ha : a = 0
      · subst ha
        have hfind : t.Find [0] = t.children.map TrieNode.LeafToWord := by
          simp [TrieNode.Find, Atom.IsEmpty]
        rw [hfind, hcollect]
        have : ∀ w ∈ t.children.map TrieNode.leaf_word,
            (matchesB [0] (w.drop pre.length)) = true := by
          intro w hw
          obtain ⟨c, hc, rfl⟩ := List.mem_map.mp hw
          rw [hleaf c hc, show pre ++ [c.value] = pre ++ (c.value :: []) from rfl,
            List.drop_left]
          simp [matchesB]
        rw [List.filter_eq_self.mpr this]
        exact List.Perm.refl _
      · have hmB : ∀ c ∈ t.children,
            (matchesB [a] (c.leaf_word.drop pre.length)) = (c.value == a) := by
          intro c hc
          rw [hleaf c hc, show pre ++ [c.value] = pre ++ (c.value :: []) from rfl,
            List.drop_left]
          by_cases hv : c.value = a
          · simp [matchesB, hv, ha]
          · have hne : a ≠ c.value := fun h => hv h.symm
            have e0 : (a == 0) = false := by simpa using ha
            have e1 : (a == c.value) = false := by simpa using hne
            have e2 : (c.value == a) = false := by simpa using hv
            simp [matchesB, e0, e1, e2]
        rw [hcollect]
        by_cases hemp : t.children.isEmpty
        · have hcs : t.children = [] := by simpa [List.isEmpty_iff] using hemp
          have hfe : t.Find [a] = [] := by
            simp [TrieNode.Find, Atom.IsEmpty, ha, TrieNode.FindChild, TrieNode.IsTerminal, hcs]
          rw [hfe, hcs]
          simp
        · have hterm : t.IsTerminal = false := by
            simpa [TrieNode.IsTerminal] using hemp
          cases hfind : t.children.find? (fun c => c.value == a) with
          | none =>
            have hnone : t.FindChild a = none := by
              simp [TrieNode.FindChild, hterm, hfind]
            have hFem : t.Find [a] = [] := by
              simp [TrieNode.Find, Atom.IsEmpty, ha, hnone]
            rw [hFem]
            have hnomatch : ∀ c ∈ t.children, c.value ≠ a := by
              intro c hc hca
              have := List.find?_eq_none.mp hfind c hc
              simp [hca] at this
            have : (t.children.map TrieNode.leaf_word).filter
                (fun w => matchesB [a] (w.drop pre.length)) = [] := by
              apply List.filter_eq_nil_iff.mpr
              intro w hw
              obtain ⟨c, hc, rfl⟩ := List.mem_map.mp hw
              rw [hmB c hc]
              simp [hnomatch c hc]
            rw [this]
          | some c =>
            have hsome : t.FindChild a = some c := by
              simp [TrieNode.FindChild, hterm, hfind]
            have hFem : t.Find [a] = [c.LeafToWord] := by
              simp [TrieNode.Find, Atom.IsEmpty, ha, hsome]
            rw [hFem]
            have hcmem : c ∈ t.children := List.mem_of_find?_eq_some hfind
            have hfilter : (t.children.map TrieNode.leaf_word).filter
                (fun w => matchesB [a] (w.drop pre.length))
                = (t.children.filter (fun c' => c'.value == a)).map TrieNode.leaf_word := by
              rw [List.filter_map]
              congr 1
              apply List.filter_congr
              intro c' hc'
              exact hmB c' hc'
            rw [hfilter, filter_eq_single_of_find? _ _ _ hfind hnd]
            exact List.Perm.refl _
    | cons b rest2 =>
      -- the recursive case: the suffix after `a` is non-empty
      rw [← hrest]
      have hrlen : 1 ≤ rest.length := by rw [hrest]; simp
      have hdropW : ∀ c ∈ t.children, ∀ w ∈ collectD rest.length c,
          w.drop pre.length = c.value :: w.drop (pre.length + 1) ∧
          (w.drop (pre.length + 1)).length = rest.length := by
        intro c hc w hw
        obtain ⟨sfx, rfl, hsfx⟩ := collectD_shape _ _ _ ((hkids c hc).2) w hw
        have e1 : ((pre ++ [c.value]) ++ sfx).drop pre.length = c.value :: sfx := by
          rw [show (pre ++ [c.value]) ++ sfx = pre ++ (c.value :: sfx) by simp, List.drop_left]
        have e2 : ((pre ++ [c.value]) ++ sfx).drop (pre.length + 1) = sfx := by
          rw [show pre.length + 1 = (pre ++ [c.value]).length by simp, List.drop_left]
        exact ⟨by rw [e1, e2], by rw [e2]; exact hsfx⟩
      have hblock : ∀ c ∈ t.children,
          (collectD rest.length c).filter (fun w => matchesB (a :: rest) (w.drop pre.length))
          = (collectD rest.length c).filter (fun w =>
              ((a == 0 || a == c.value) && matchesB rest (w.drop (pre.length + 1)))) := by
        intro c hc
        apply List.filter_congr
        intro w hw
        rw [(hdropW c hc w hw).1]
        rfl
      by_cases ha : a = 0
      · subst ha
        have hFem : t.Find (0 :: rest) = t.children.flatMap (fun c => c.Find rest) := by
          rw [hrest]
          simp [TrieNode.Find, Atom.IsEmpty]
        rw [hFem]
        have hcoll : collectD (0 :: rest).length t
            = t.children.flatMap (collectD rest.length) := rfl
        rw [hcoll, filter_flatMap]
        apply perm_flatMap_congr
        intro c hc
        have hIH := ih (pre ++ [c.value]) c ((hkids c hc).2) hrlen
        rw [hblock c hc]
        have : (collectD rest.length c).filter (fun w =>
              ((0 == 0 || 0 == c.value) && matchesB rest (w.drop (pre.length + 1))))
            = (collectD rest.length c).filter (fun w =>
              matchesB rest (w.drop ((pre ++ [c.value]).length))) := by
          apply List.filter_congr
          intro w hw
          simp [show (pre ++ [c.value]).length = pre.length + 1 by simp]
        rw [this]
        exact hIH
      · by_cases hemp : t.children.isEmpty
        · have hcs : t.children = [] := by simpa [List.isEmpty_iff] using hemp
          have hFem : t.Find (a :: rest) = [] := by
            rw [hrest]
            simp [TrieNode.Find, Atom.IsEmpty, ha, TrieNode.FindChild, TrieNode.IsTerminal, hcs]
          rw [hFem]
          have hznil : collectD (a :: rest).length t = [] := by
            show t.children.flatMap (collectD rest.length) = []
            rw [hcs]; rfl
          rw [hznil]
          simp
        · have hterm : t.IsTerminal = false := by
            simpa [TrieNode.IsTerminal] using hemp
          have hcoll : collectD (a :: rest).length t
              = t.children.flatMap (collectD rest.length) := rfl
          cases hfind : t.children.find? (fun c => c.value == a) with
          | none =>
            have hnone : t.FindChild a = none := by
              simp [TrieNode.FindChild, hterm, hfind]
            have hFem : t.Find (a :: rest) = [] := by
              rw [hrest]
              rw [show t.Find (a :: b :: rest2)
                = if a.IsEmpty then t.children.flatMap (fun c => TrieNode.Find c (b :: rest2))
                  else match t.FindChild a with
                    | none => []
                    | some c => TrieNode.Find c (b :: rest2) from rfl]
              rw [← hrest, hnone]
              simp [Atom.IsEmpty, ha]
            rw [hFem, hcoll, filter_flatMap]
            have hnomatch : ∀ c ∈ t.children, c.value ≠ a := by
              intro c hc hca
              have := List.find?_eq_none.mp hfind c hc
              simp [hca] at this
            symm
            apply List.Perm.of_eq
            apply List.flatMap_eq_nil_iff.mpr
            intro c hc
            rw [hblock c hc]
            apply List.filter_eq_nil_iff.mpr
            intro w hw
            have e0 : (a == 0) = false := by simpa using ha
            have e1 : (a == c.value) = false := by
              simpa using fun h => (hnomatch c hc) h.symm
            simp [e0, e1]
          | some c =>
            have hsome : t.FindChild a = some c := by
              simp [TrieNode.FindChild, hterm, hfind]
            have hFem : t.Find (a :: rest) = c.Find rest := by
              rw [hrest]
              rw [show t.Find (a :: b :: rest2)
                = if a.IsEmpty then t.children.flatMap (fun x => TrieNode.Find x (b :: rest2))
                  else match t.FindChild a with
                    | none => []
                    | some x => TrieNode.Find x (b :: rest2) from rfl]
              rw [← hrest, hsome]
              simp [Atom.IsEmpty, ha]
            have hcval : c.value = a := by
              have := List.find?_some hfind
              simpa using this
            have hcmem : c ∈ t.children := List.mem_of_find?_eq_some hfind
            rw [hFem, hcoll, filter_flatMap]
            have hsingle : t.children.flatMap (fun x => (collectD rest.length x).filter
                  (fun w => matchesB (a :: rest) (w.drop pre.length)))
                = (collectD rest.length c).filter
                  (fun w => matchesB (a :: rest) (w.drop pre.length)) := by
              rw [flatMap_eq_of_single _ _ (fun x => x.value == a) ?empties]
              · rw [filter_eq_single_of_find? _ _ _ hfind hnd]
                simp [List.flatMap_cons]
              case empties =>
                intro x hx hxa
                rw [hblock x hx]
                apply List.filter_eq_nil_iff.mpr
                intro w hw
                have : x.value ≠ a := by simpa using hxa
                simp [ha]
                intro h
                exact absurd h.symm this
            rw [hsingle, hblock c hcmem]
            have hIH := ih (pre ++ [c.value]) c ((hkids c hcmem).2) hrlen
            have heq : (collectD rest.length c).filter (fun w =>
                  ((a == 0 || a == c.value) && matchesB rest (w.drop (pre.length + 1))))
                = (collectD rest.length c).filter (fun w =>
                  matchesB rest (w.drop ((pre ++ [c.value]).length))) := by
              apply List.filter_congr
              intro w hw
              simp [hcval, show (pre ++ [c.value]).length = pre.length + 1 by simp]
            rw [heq]
            exact hIH

theorem Insert_value (pre w : Word) (t : TrieNode) :
    (TrieNode.Insert pre w t).value = t.value := by
  cases w with
  | nil => rfl
  | cons a w' =>
    unfold TrieNode.Insert
    split <;> rfl

theorem replaceFirstChild_map_value (a : Atom) (f : TrieNode → TrieNode)
    (hf : ∀ c, (f c).value = c.value) (cs : List TrieNode) :
    (replaceFirstChild a f cs).map TrieNode.value = cs.map TrieNode.value := by
  induction cs with
  | nil => rfl
  | cons x xs ih =>
    by_cases hx : x.value = a
    · simp [replaceFirstChild, hx, hf x]
    · simp only [replaceFirstChild, show (x.value == a) = false by simpa using hx,
        Bool.false_eq_true, if_false, List.map_cons, ih]

theorem mem_replaceFirstChild (a : Atom) (f : TrieNode → TrieNode) (cs : List TrieNode)
    (c' : TrieNode) (h : c' ∈ replaceFirstChild a f cs) :
    c' ∈ cs ∨ ∃ c ∈ cs, c.value = a ∧ c' = f c := by
  induction cs with
  | nil => simp [replaceFirstChild] at h
  | cons x xs ih =>
    by_cases hx : x.value = a
    · rw [replaceFirstChild, if_pos (by simpa using hx)] at h
      rcases List.mem_cons.mp h with h1 | h1
      · exact Or.inr ⟨x, by simp, hx, h1⟩
      · exact Or.inl (by simp [h1])
    · rw [replaceFirstChild, if_neg (by simpa using hx)] at h
      rcases List.mem_cons.mp h with h1 | h1
      · exact Or.inl (by simp [h1])
      · rcases ih h1 with h2 | ⟨c, hc, hval, hfc⟩
        · exact Or.inl (by simp [h2])
        · exact Or.inr ⟨c, by simp [hc], hval, hfc⟩

theorem freshChain_value (pre : Word) (a : Atom) (w : Word) :
    (freshChain pre a w).value = a := by
  cases w <;> rfl

theorem findChild_none_value (t : TrieNode) (a : Atom) (h : t.FindChild a = none) :
    ∀ c ∈ t.children, c.value ≠ a := by
  intro c hc hca
  unfold TrieNode.FindChild at h
  by_cases hterm : t.IsTerminal
  · have : t.children = [] := by simpa [TrieNode.IsTerminal, List.isEmpty_iff] using hterm
    rw [this] at hc
    simp at hc
  · rw [if_neg hterm] at h
    have := List.find?_eq_none.mp h c hc
    simp [hca] at this

theorem freshChain_WF (w : Word) : ∀ (pre : Word) (a : Atom), a ≠ 0 → (∀ x ∈ w, x ≠ 0) →
    TrieWF w.length (pre ++ [a]) (freshChain pre a w) := by
  induction w with
  | nil =>
    intro pre a _ _
    exact ⟨rfl, rfl⟩
  | cons b w' ih =>
    intro pre a ha hw
    constructor
    · show ((freshChain pre a (b :: w')).children.map TrieNode.value).Nodup
      rw [show (freshChain pre a (b :: w')).children = [freshChain (pre ++ [a]) b w']
        from rfl]
      simp
    intro c hc
    have hc2 : c = freshChain (pre ++ [a]) b w' := by
      simpa [freshChain, TrieNode.children] using hc
    subst hc2
    rw [freshChain_value]
    refine ⟨hw b (by simp), ?_⟩
    exact ih (pre ++ [a]) b (hw b (by simp)) (fun x hx => hw x (by simp [hx]))

theorem Insert_WF (w : Word) : ∀ (d : Nat) (pre : Word) (t : TrieNode),
    TrieWF d pre t → w.length = d → (∀ a ∈ w, a ≠ 0) →
    TrieWF d pre (TrieNode.Insert pre w t) := by
  induction w with
  | nil => intro d pre t hWF _ _; exact hWF
  | cons a w' ih =>
    intro d pre t hWF hlen hnz
    cases d with
    | zero => simp at hlen
    | succ d' =>
      have hd' : w'.length = d' := by simpa using hlen
      obtain ⟨hnd, hkids⟩ := hWF
      have ha : a ≠ 0 := hnz a (by simp)
      by_cases hfc : (t.FindChild a).isSome
      · obtain ⟨c0, hc0⟩ := Option.isSome_iff_exists.mp hfc
        rw [show TrieNode.Insert pre (a :: w') t = TrieNode.mk t.value t.leaf_word
          (replaceFirstChild a (fun c => TrieNode.Insert (pre ++ [a]) w' c) t.children)
          from by rw [TrieNode.Insert, if_pos hfc]]
        refine ⟨?_, ?_⟩
        · show ((replaceFirstChild a (fun c => TrieNode.Insert (pre ++ [a]) w' c)
            t.children).map TrieNode.value).Nodup
          rw [replaceFirstChild_map_value a _ (fun c => Insert_value _ _ c) t.children]
          exact hnd
        · intro c' hc'
          rcases mem_replaceFirstChild a _ t.children c' hc' with hmem | ⟨c, hc, hval, rfl⟩
          · exact hkids c' hmem
          · constructor
            · rw [Insert_value, hval]; exact ha
            · rw [Insert_value, hval]
              have := (hkids c hc).2
              rw [hval] at this
              exact ih d' (pre ++ [a]) c this hd' (fun x hx => hnz x (by simp [hx]))
      · have hnone : t.FindChild a = none := by
          cases h : t.FindChild a with
          | none => rfl
          | some c => rw [h] at hfc; simp at hfc
        rw [show TrieNode.Insert pre (a :: w') t = TrieNode.mk t.value t.leaf_word
          (t.children ++ [freshChain pre a w'])
          from by rw [TrieNode.Insert, if_neg hfc]]
        refine ⟨?_, ?_⟩
        · show ((t.children ++ [freshChain pre a w']).map TrieNode.value).Nodup
          rw [List.map_append]
          apply List.Nodup.append hnd (by simp)
          intro v hv hv2
          have : v = a := by simpa [freshChain_value] using hv2
          subst this
          obtain ⟨c, hc, hcv⟩ := List.mem_map.mp hv
          exact findChild_none_value t v hnone c hc hcv
        · intro c' hc'
          rcases List.mem_append.mp hc' with hmem | hfresh
          · exact hkids c' hmem
          · have : c' = freshChain pre a w' := by simpa using hfresh
            subst this
            rw [freshChain_value]
            refine ⟨ha, ?_⟩
            rw [← hd']
            exact freshChain_WF w' pre a ha (fun x hx => hnz x (by simp [hx]))

theorem collectD_freshChain (w : Word) : ∀ (pre : Word) (a : Atom),
    collectD w.length (freshChain pre a w) = [pre ++ a :: w] := by
  induction w with
  | nil => intro pre a; simp [collectD, freshChain, TrieNode.leaf_word]
  | cons b w' ih =>
    intro pre a
    show (freshChain pre a (b :: w')).children.flatMap (collectD w'.length) = _
    rw [show (freshChain pre a (b :: w')).children = [freshChain (pre ++ [a]) b w'] from rfl]
    simp only [List.flatMap_cons, List.flatMap_nil, List.append_nil]
    rw [ih (pre ++ [a]) b]
    simp

theorem flatMap_replaceFirst (cs : List TrieNode) (a : Atom) (f : TrieNode → TrieNode)
    (c : TrieNode) (g : TrieNode → List Word) (nw : Word)
    (hf : cs.find? (fun x => x.value == a) = some c)
    (hgf : List.Perm (g (f c)) (nw :: g c)) :
    List.Perm ((replaceFirstChild a f cs).flatMap g) (nw :: cs.flatMap g) := by
  induction cs with
  | nil => simp at hf
  | cons x xs ih =>
    by_cases hx : x.value = a
    · have hcx : c = x := by
        have : (x :: xs).find? (fun y => y.value == a) = some x := by
          simp [List.find?_cons, hx]
        have := hf.symm.trans this
        simpa using this
      subst hcx
      rw [replaceFirstChild, if_pos (by simpa using hx)]
      simp only [List.flatMap_cons]
      exact hgf.append_right (xs.flatMap g)
    · have hfind : xs.find? (fun y => y.value == a) = some c := by
        have : (x :: xs).find? (fun y => y.value == a)
            = xs.find? (fun y => y.value == a) := by
          simp [List.find?_cons, hx]
        exact this.symm.trans hf
      rw [replaceFirstChild, if_neg (by simpa using hx)]
      simp only [List.flatMap_cons]
      have h1 : List.Perm (g x ++ (replaceFirstChild a f xs).flatMap g)
          (g x ++ nw :: xs.flatMap g) := (ih hfind).append_left (g x)
      have h2 : List.Perm (g x ++ nw :: xs.flatMap g) (nw :: (g x ++ xs.flatMap g)) :=
        List.perm_middle
      exact h1.trans h2

theorem Insert_collect (w : Word) : ∀ (d : Nat) (pre : Word) (t : TrieNode),
    TrieWF d pre t → w.length = d → (pre ++ w) ∉ collectD d t →
    List.Perm (collectD d (TrieNode.Insert pre w t)) ((pre ++ w) :: collectD d t) := by
  induction w with
  | nil =>
    intro d pre t hWF hlen hnotin
    cases d with
    | zero =>
      exfalso
      apply hnotin
      simp [collectD, hWF.2]
    | succ d' => simp at hlen
  | cons a w' ih =>
    intro d pre t hWF hlen hnotin
    cases d with
    | zero => simp at hlen
    | succ d' =>
      have hd' : w'.length = d' := by simpa using hlen
      obtain ⟨hnd, hkids⟩ := hWF
      by_cases hfc : (t.FindChild a).isSome
      · obtain ⟨c0, hc0⟩ := Option.isSome_iff_exists.mp hfc
        have hterm : t.IsTerminal = false := by
          by_contra hterm
          have : t.FindChild a = none := by
            unfold TrieNode.FindChild
            rw [if_pos (by simpa using hterm)]
          rw [this] at hfc
          simp at hfc
        have hfind : t.children.find? (fun x => x.value == a) = some c0 := by
          have := hc0
          unfold TrieNode.FindChild at this
          rw [if_neg (by simp [hterm])] at this
          exact this
        have hcval : c0.value = a := by
          have := List.find?_some hfind
          simpa using this
        have hcmem : c0 ∈ t.children := List.mem_of_find?_eq_some hfind
        rw [show TrieNode.Insert pre (a :: w') t = TrieNode.mk t.value t.leaf_word
          (replaceFirstChild a (fun c => TrieNode.Insert (pre ++ [a]) w' c) t.children)
          from by rw [TrieNode.Insert, if_pos hfc]]
        show List.Perm ((replaceFirstChild a (fun c => TrieNode.Insert (pre ++ [a]) w' c)
            t.children).flatMap (collectD d')) _
        have hWFc : TrieWF d' (pre ++ [a]) c0 := by
          have := (hkids c0 hcmem).2
          rw [hcval] at this
          exact this
        have hnotin2 : (pre ++ [a]) ++ w' ∉ collectD d' c0 := by
          intro hmem
          apply hnotin
          show pre ++ a :: w' ∈ t.children.flatMap (collectD d')
          apply List.mem_flatMap.mpr
          exact ⟨c0, hcmem, by simpa using hmem⟩
        have hIH := ih d' (pre ++ [a]) c0 hWFc hd' hnotin2
        have hgf : List.Perm (collectD d' (TrieNode.Insert (pre ++ [a]) w' c0))
            ((pre ++ a :: w') :: collectD d' c0) := by
          have : (pre ++ [a]) ++ w' = pre ++ a :: w' := by simp
          rw [this] at hIH
          exact hIH
        exact flatMap_replaceFirst t.children a _ c0 (collectD d') (pre ++ a :: w')
          hfind hgf
      · rw [show TrieNode.Insert pre (a :: w') t = TrieNode.mk t.value t.leaf_word
          (t.children ++ [freshChain pre a w'])
          from by rw [TrieNode.Insert, if_neg hfc]]
        show List.Perm ((t.children ++ [freshChain pre a w']).flatMap (collectD d')) _
        rw [List.flatMap_append]
        have : ([freshChain pre a w'] : List TrieNode).flatMap (collectD d')
            = [pre ++ a :: w'] := by
          simp only [List.flatMap_cons, List.flatMap_nil, List.append_nil]
          rw [← hd', collectD_freshChain]
        rw [this]
        show List.Perm (t.children.flatMap (collectD d') ++ [pre ++ a :: w'])
          ((pre ++ a :: w') :: t.children.flatMap (collectD d'))
        have := @List.perm_middle Word (pre ++ a :: w')
          (t.children.flatMap (collectD d')) []
        simp only [List.append_nil] at this
        exact this

theorem root_WF (n : Nat) (hn : 1 ≤ n) : TrieWF n [] WordTrie.root := by
  cases n with
  | zero => simp at hn
  | succ d =>
    constructor
    · show ((WordTrie.root.children).map TrieNode.value).Nodup
      rw [show WordTrie.root.children = [] from rfl]
      simp
    · intro c hc
      rw [show WordTrie.root.children = [] from rfl] at hc
      simp at hc

theorem foldl_Insert_spec (L : List Word) (n : Nat) :
    ∀ (t : TrieNode) (acc : List Word),
    TrieWF n [] t → List.Perm (collectD n t) acc →
    (∀ w ∈ L, w.length = n) → (∀ w ∈ L, ∀ a ∈ w, a ≠ 0) → L.Nodup →
    (∀ w ∈ L, w ∉ acc) →
    TrieWF n [] (L.foldl (fun t w => TrieNode.Insert [] w t) t) ∧
    List.Perm (collectD n (L.foldl (fun t w => TrieNode.Insert [] w t) t)) (L ++ acc) := by
  induction L with
  | nil =>
    intro t acc hWF hcoll _ _ _ _
    exact ⟨hWF, by simpa using hcoll⟩
  | cons w L' ih =>
    intro t acc hWF hcoll hlen hcomp hnd hnotin
    have hwlen : w.length = n := hlen w (by simp)
    have hwnz : ∀ a ∈ w, a ≠ 0 := hcomp w (by simp)
    have hnotint : ([] ++ w) ∉ collectD n t := by
      rw [List.nil_append]
      intro hmem
      exact hnotin w (by simp) (hcoll.mem_iff.mp hmem)
    have hWF' : TrieWF n [] (TrieNode.Insert [] w t) := Insert_WF w n [] t hWF hwlen hwnz
    have hcoll' : List.Perm (collectD n (TrieNode.Insert [] w t)) (w :: acc) := by
      have := Insert_collect w n [] t hWF hwlen hnotint
      rw [List.nil_append] at this
      exact this.trans (hcoll.cons w)
    have hstep := ih (TrieNode.Insert [] w t) (w :: acc) hWF' hcoll'
      (fun x hx => hlen x (by simp [hx])) (fun x hx => hcomp x (by simp [hx]))
      (List.nodup_cons.mp hnd).2
      (by
        intro x hx hmem
        rcases List.mem_cons.mp hmem with h1 | h1
        · exact (List.nodup_cons.mp hnd).1 (h1 ▸ hx)
        · exact hnotin x (by simp [hx]) h1)
    refine ⟨hstep.1, ?_⟩
    have : List.Perm (L' ++ w :: acc) (w :: L' ++ acc) := List.perm_middle
    exact (hstep.2.trans this)

theorem matchesB_eq_decide (pat w : Word) :
    matchesB pat w = decide (specMatches pat w) := by
  by_cases h : specMatches pat w
  · rw [(matchesB_iff_spec pat w).mpr h]
    simp [h]
  · have hne : matchesB pat w = false :=
      Bool.not_eq_true _ ▸ (Bool.eq_false_iff.mpr
        (fun hc => h ((matchesB_iff_spec pat w).mp hc)))
    rw [hne]
    simp [h]

theorem trieOfWords_find_perm (L : List Word) (n : Nat) (pat : Word)
    (hn : 1 ≤ n) (hlen : ∀ w ∈ L, w.length = n) (hcomp : ∀ w ∈ L, ∀ a ∈ w, a ≠ 0)
    (hnd : L.Nodup) (hpat : pat.length = n) :
    List.Perm ((trieOfWords L).Find pat)
      (L.filter (fun w => decide (specMatches pat w))) := by
  obtain ⟨hWF, hcoll⟩ := foldl_Insert_spec L n WordTrie.root [] (root_WF n hn)
    (by
      cases n with
      | zero => simp at hn
      | succ d =>
        rw [show collectD (d + 1) WordTrie.root = [] from rfl])
    hlen hcomp hnd (by simp)
  rw [List.append_nil] at hcoll
  have hfind := find_perm_filter pat [] (trieOfWords L)
    (by rw [hpat]; exact hWF) (by rw [hpat]; exact hn)
  have hdrop : (collectD pat.length (trieOfWords L)).filter
      (fun w => matchesB pat (w.drop ([] : Word).length))
      = (collectD pat.length (trieOfWords L)).filter
        (fun w => decide (specMatches pat w)) := by
    apply List.filter_congr
    intro w _
    rw [show (([] : Word).length) = 0 from rfl, List.drop_zero, matchesB_eq_decide]
  rw [hdrop] at hfind
  have hfilters : List.Perm
      ((collectD pat.length (trieOfWords L)).filter (fun w => decide (specMatches pat w)))
      (L.filter (fun w => decide (specMatches pat w))) := by
    apply List.Perm.filter
    rw [hpat]
    exact hcoll
  exact hfind.trans hfilters

/-- C4: for every list `L` of distinct complete words of one length `n`
inserted into a per-length trie, and every query word of length `n`,
`WordTrie::Find` returns exactly (as a multiset) the words `w` of `L` such
that at every position the query atom is empty (a wildcard) or equals `w`'s
atom at that position. -/
theorem C4_trie_find_exact (L : List Word) (n : Nat) (pat : Word)
    (hn : 1 ≤ n) (hlen : ∀ w ∈ L, w.length = n) (hcomp : ∀ w ∈ L, ∀ a ∈ w, a ≠ 0)
    (hnd : L.Nodup) (hpat : pat.length = n) :
    List.Perm ((trieOfWords L).Find pat)
      (L.filter (fun w => decide (specMatches pat w))) :=
  trieOfWords_find_perm L n pat hn hlen hcomp hnd hpat

/-- Witness for C4 at the spec's S2 scenario: words CAT, CAR, BAT (codes
C=3, A=1, T=20, R=18, B=2) and the query C_T. -/
theorem C4_trie_find_exact_witness :
    List.Perm ((trieOfWords [[3, 1, 20], [3, 1, 18], [2, 1, 20]]).Find [3, 0, 20])
      ([[3, 1, 20], [3, 1, 18], [2, 1, 20]].filter
        (fun w => decide (specMatches [3, 0, 20] w))) :=
  C4_trie_find_exact [[3, 1, 20], [3, 1, 18], [2, 1, 20]] 3 [3, 0, 20]
    (by decide) (by decide) (by decide) (by decide) (by decide)

/-! ## The word database (database.hpp, database.cpp) -/

/-- DatabaseEntry (database.hpp). -/
structure DatabaseEntry where
  entry : Word
  frequency_score : Int
  letter_score : Int
deriving DecidableEq, Repr

/-- WordHashMap (database.hpp): bounded map from partial word to bool with
hit/miss counters. The `std::unordered_map` is an association list whose keys
are unique; the eviction `map_.erase(map_.begin())` on a full map removes one
unspecified element, which this model fixes as the list head. -/
structure WordHashMap where
  map : List (Word × Bool)
  hits : Int
  misses : Int
  max_elements : Nat
deriving DecidableEq, Repr

def WordHashMap.lookup (m : WordHashMap) (w : Word) : Option Bool :=
  (m.map.find? (fun p => p.1 == w)).map (fun p => p.2)

/-- WordHashMap::count (database.hpp): 0 or 1, bumping the miss or hit counter. -/
def WordHashMap.countW (m : WordHashMap) (w : Word) : Nat × WordHashMap :=
  match m.lookup w with
  | some _ => (1, { m with hits := m.hits + 1 })
  | none => (0, { m with misses := m.misses + 1 })

/-- WordHashMap::insert (database.hpp): evict one element when full, then
insert; `std::unordered_map::insert` leaves an existing key unchanged. -/
def WordHashMap.insertB (m : WordHashMap) (w : Word) (b : Bool) : WordHashMap :=
  let base := if m.max_elements ≤ m.map.length then m.map.drop 1 else m.map
  { m with map := if (base.find? (fun p => p.1 == w)).isSome then base else base ++ [(w, b)] }

/-- FixedSizeWordDatabase (database.hpp): entries, word set, per-length trie,
partial-word cache and the fixed word length. -/
structure FixedSizeWordDatabase where
  word_set_ : List (Word × Int)
  partial_word_cache_ : WordHashMap
  trie_ : TrieNode
  entries_ : List DatabaseEntry
  size_ : Nat

/-- FixedSizeWordDatabase::ContainsEntry (database.cpp). -/
def FixedSizeWordDatabase.ContainsEntry (db : FixedSizeWordDatabase) (w : Word) : Bool :=
  (db.word_set_.find? (fun p => p.1 == w)).isSome

/-- FixedSizeWordDatabase::GetFrequencyScore (database.cpp): asserts the word
is present; absent words are modelled as score 0. -/
def FixedSizeWordDatabase.GetFrequencyScore (db : FixedSizeWordDatabase) (w : Word) : Int :=
  ((db.word_set_.find? (fun p => p.1 == w)).map (fun p => p.2)).getD 0

/-- FixedSizeWordDatabase::HasSolution (database.cpp): cache probe on the
clue's partial word; on a miss scan `entries_` in order for the first entry
with `frequency_score >= score_min` that fits the clue, cache and return the
boolean (the cache key carries no score information: the BUG the source
comments on). -/
def FixedSizeWordDatabase.HasSolution (db : FixedSizeWordDatabase) (cl : Clue)
    (score_min : Int) : Bool × FixedSizeWordDatabase :=
  let key := cl.ToWord
  let r := db.partial_word_cache_.countW key
  if r.1 == 1 then
    ((r.2.lookup key).getD false, { db with partial_word_cache_ := r.2 })
  else
    match db.entries_.find? (fun e => score_min ≤ e.frequency_score && cl.FitsWord e.entry) with
    | some _ => (true, { db with partial_word_cache_ := r.2.insertB key true })
    | none => (false, { db with partial_word_cache_ := r.2.insertB key false })

/-- FixedSizeWordDatabase::GetSolutions (database.cpp, trie version): all trie
matches of the clue's partial word; the score filter is short-circuited by the
literal `true ||`, so every match passes whatever `score_min` is, and `limit`
is unused. -/
def FixedSizeWordDatabase.GetSolutions (db : FixedSizeWordDatabase) (cl : Clue)
    (_limit : Int) (score_min : Int) : List Word :=
  let clue_partial := cl.ToWord
  let all_solutions := db.trie_.Find clue_partial
  all_solutions.filter (fun w => (true || decide (score_min ≤ db.GetFrequencyScore w)))

/-- FixedSizeWordDatabase::FlushPartialCache (database.cpp): clears the map. -/
def FixedSizeWordDatabase.FlushPartialCache (db : FixedSizeWordDatabase) :
    FixedSizeWordDatabase :=
  { db with partial_word_cache_ := { db.partial_word_cache_ with map := [] } }

/-- WordDatabase (database.hpp): sub-databases indexed by word size. The
`std::array<_, kMAX_DIM>` is modelled as a function; only indices below
kMAX_DIM are ever used. -/
structure WordDatabase where
  databases_ : Nat → FixedSizeWordDatabase

/-- WordDatabase::ContainsEntry (database.cpp): dispatch on the word's size. -/
def WordDatabase.ContainsEntry (db : WordDatabase) (w : Word) : Bool :=
  (db.databases_ w.length).ContainsEntry w

/-- WordDatabase::GetFrequencyScore (database.cpp). -/
def WordDatabase.GetFrequencyScore (db : WordDatabase) (w : Word) : Int :=
  (db.databases_ w.length).GetFrequencyScore w

/-- WordDatabase::HasSolution (database.cpp): dispatch on the clue's size; the
sub-database's cache mutation is threaded back. -/
def WordDatabase.HasSolution (db : WordDatabase) (cl : Clue) (score_min : Int) :
    Bool × WordDatabase :=
  let r := (db.databases_ cl.size).HasSolution cl score_min
  (r.1, ⟨fun i => if i == cl.size then r.2 else db.databases_ i⟩)

/-- WordDatabase::GetSolutions (database.cpp). -/
def WordDatabase.GetSolutions (db : WordDatabase) (cl : Clue) (limit score_min : Int) :
    List Word :=
  (db.databases_ cl.size).GetSolutions cl limit score_min

/-- WordDatabase::FlushCaches (database.cpp): flush every per-length cache. -/
def WordDatabase.FlushCaches (db : WordDatabase) : WordDatabase :=
  ⟨fun i => (db.databases_ i).FlushPartialCache⟩

/-- Clue::IsSolved (clue.cpp): filled and present in the database. -/
def Clue.IsSolved (cl : Clue) (db : WordDatabase) : Bool :=
  if !cl.IsFilled then false else db.ContainsEntry cl.ToWord

/-- Solvability (crossword.hpp). -/
inductive Solvability where
  | Solvable
  | Overdetermined
  | Invalid
  | Duplicate
  | Weak
deriving DecidableEq, Repr

/-- Main loop of Crossword::IsInvalidPartial (solver.cpp): scan the clues in
order; a filled locked clue is skipped, a filled incorrectly-solved clue stops
with Invalid, a filled weak one with Weak, an unfilled clue with no solution
at `score_min` with Overdetermined. HasSolution's cache mutation is threaded. -/
def IsInvalidPartialLoop : List Clue → WordDatabase → Int →
    Option Solvability × WordDatabase
  | [], db, _ => (none, db)
  | cl :: rest, db, m =>
    if cl.IsFilled then
      if cl.locked then IsInvalidPartialLoop rest db m
      else if !(cl.IsSolved db) then (some .Invalid, db)
      else if db.GetFrequencyScore cl.ToWord < m then (some .Weak, db)
      else IsInvalidPartialLoop rest db m
    else
      let r := db.HasSolution cl m
      if !r.1 then (some .Overdetermined, r.2) else IsInvalidPartialLoop rest r.2 m

def assocGetNat (m : List (Word × Nat)) (w : Word) : Nat :=
  ((m.find? (fun p => p.1 == w)).map (fun p => p.2)).getD 0

def assocSetNat (m : List (Word × Nat)) (w : Word) (v : Nat) : List (Word × Nat) :=
  if (m.find? (fun p => p.1 == w)).isSome then
    m.map (fun p => if p.1 == w then (p.1, v) else p)
  else m ++ [(w, v)]

/-- Duplicate pass of Crossword::IsInvalidPartial (solver.cpp): count each
filled clue's word in a map; stop with true as soon as a count reaches 2. -/
def DuplicateScan : List Clue → List (Word × Nat) → Bool
  | [], _ => false
  | cl :: rest, m =>
    if cl.IsFilled then
      let w := cl.ToWord
      let newCount := assocGetNat m w + 1
      if 2 ≤ newCount then true else DuplicateScan rest (assocSetNat m w newCount)
    else DuplicateScan rest m

/-- Crossword::IsInvalidPartial (solver.cpp): the scan loop, then the
duplicate pass, else Solvable. -/
def IsInvalidPartial (all_clues : List Clue) (db : WordDatabase) (score_min : Int) :
    Solvability × WordDatabase :=
  match IsInvalidPartialLoop all_clues db score_min with
  | (some r, db2) => (r, db2)
  | (none, db2) =>
    if DuplicateScan all_clues [] then (Solvability.Duplicate, db2)
    else (Solvability.Solvable, db2)

/-- Fit of a stored word against a partial word key, as the claim phrases it:
at every position of the key, the key's atom is empty or equals the word's. -/
def fitsKey (key w : Word) : Bool :=
  (List.range key.length).all (fun i => (key.getD i 0).IsEmpty || (key.getD i 0 == w.getD i 0))

theorem FitsWord_eq_fitsKey (cl : Clue) (hsz : cl.size = cl.constraints.length) (w : Word) :
    cl.FitsWord w = fitsKey cl.ToWord w := by
  unfold Clue.FitsWord fitsKey Clue.ToWord
  rw [hsz]

theorem find?_append_none {α : Type} (p : α → Bool) (l1 l2 : List α)
    (h : l1.find? p = none) : (l1 ++ l2).find? p = l2.find? p := by
  induction l1 with
  | nil => rfl
  | cons x xs ih =>
    rw [List.find?_cons] at h
    rw [List.cons_append, List.find?_cons]
    cases hx : p x with
    | true => rw [hx] at h; simp at h
    | false =>
      rw [hx] at h
      simp only at h ⊢
      exact ih h

theorem find?_drop_none {α : Type} (p : α → Bool) (l : List α) (n : Nat)
    (h : l.find? p = none) : (l.drop n).find? p = none := by
  apply List.find?_eq_none.mpr
  intro x hx
  exact List.find?_eq_none.mp h x (List.mem_of_mem_drop hx)

theorem countW_map (m : WordHashMap) (w : Word) : (m.countW w).2.map = m.map := by
  unfold WordHashMap.countW
  cases m.lookup w <;> rfl

theorem insertB_lookup_self (m : WordHashMap) (w : Word) (b : Bool)
    (h : m.lookup w = none) : (m.insertB w b).lookup w = some b := by
  have hfind : m.map.find? (fun p => p.1 == w) = none := by
    unfold WordHashMap.lookup at h
    exact Option.map_eq_none.mp h
  unfold WordHashMap.insertB WordHashMap.lookup
  by_cases hfull : m.max_elements ≤ m.map.length
  · simp only [hfull, if_true]
    have hdrop : (m.map.drop 1).find? (fun p => p.1 == w) = none :=
      find?_drop_none _ _ _ hfind
    rw [hdrop]
    simp only [Option.isSome_none, Bool.false_eq_true, if_false]
    rw [find?_append_none _ _ _ hdrop]
    simp [List.find?_cons]
  · simp only [hfull, if_false]
    rw [hfind]
    simp only [Option.isSome_none, Bool.false_eq_true, if_false]
    rw [find?_append_none _ _ _ hfind]
    simp [List.find?_cons]

theorem HasSolution_cached (db : FixedSizeWordDatabase) (cl : Clue) (m : Int) (b : Bool)
    (h : db.partial_word_cache_.lookup cl.ToWord = some b) :
    (db.HasSolution cl m).1 = b := by
  have hcount : db.partial_word_cache_.countW cl.ToWord
      = (1, { db.partial_word_cache_ with hits := db.partial_word_cache_.hits + 1 }) := by
    unfold WordHashMap.countW
    rw [h]
  have hlook2 : WordHashMap.lookup
      { db.partial_word_cache_ with hits := db.partial_word_cache_.hits + 1 }
      cl.ToWord = some b := h
  simp [FixedSizeWordDatabase.HasSolution, hcount, hlook2]

/-- C7: on a cache miss, HasSolution returns true iff some entry with
`frequency_score >= score_min` fits the slot's constraints; it caches the
boolean keyed by the partial word alone, so an immediately following call on a
clue with the same partial word and any (possibly different) score_min, with
no flush in between, returns the previously cached boolean. -/
theorem C7_has_solution_cache (db : FixedSizeWordDatabase) (cl cl2 : Clue) (m m2 : Int)
    (hmiss : db.partial_word_cache_.lookup cl.ToWord = none)
    (hsz : cl.size = cl.constraints.length)
    (hkey : cl2.ToWord = cl.ToWord) :
    ((db.HasSolution cl m).1 = true ↔
      ∃ e ∈ db.entries_, m ≤ e.frequency_score ∧ fitsKey cl.ToWord e.entry = true) ∧
    ((db.HasSolution cl m).2.partial_word_cache_.lookup cl.ToWord
      = some (db.HasSolution cl m).1) ∧
    (((db.HasSolution cl m).2.HasSolution cl2 m2).1 = (db.HasSolution cl m).1) := by
  have hcount : db.partial_word_cache_.countW cl.ToWord
      = (0, { db.partial_word_cache_ with misses := db.partial_word_cache_.misses + 1 }) := by
    unfold WordHashMap.countW
    rw [hmiss]
  have hpc1 : (db.partial_word_cache_.countW cl.ToWord).2.lookup cl.ToWord = none := by
    unfold WordHashMap.lookup
    rw [countW_map]
    unfold WordHashMap.lookup at hmiss
    exact hmiss
  cases hfind : db.entries_.find?
      (fun e => m ≤ e.frequency_score && cl.FitsWord e.entry) with
  | some e =>
    have hR : db.HasSolution cl m = (true,
        { db with partial_word_cache_ :=
            (db.partial_word_cache_.countW cl.ToWord).2.insertB cl.ToWord true }) := by
      simp [FixedSizeWordDatabase.HasSolution, hcount, hfind]
    have hlook : ((db.HasSolution cl m).2).partial_word_cache_.lookup cl.ToWord
        = some true := by
      rw [hR]
      exact insertB_lookup_self _ _ _ hpc1
    refine ⟨?_, ?_, ?_⟩
    · rw [hR]
      simp only [true_iff]
      have hmem := List.mem_of_find?_eq_some hfind
      have hp := List.find?_some hfind
      rw [Bool.and_eq_true] at hp
      refine ⟨e, hmem, by exact_mod_cast of_decide_eq_true hp.1, ?_⟩
      rw [← FitsWord_eq_fitsKey cl hsz]
      exact hp.2
    · rw [hR] at hlook ⊢
      exact hlook
    · rw [hR] at hlook ⊢
      rw [HasSolution_cached _ _ m2 true (by rw [hkey]; exact hlook)]
  | none =>
    have hR : db.HasSolution cl m = (false,
        { db with partial_word_cache_ :=
            (db.partial_word_cache_.countW cl.ToWord).2.insertB cl.ToWord false }) := by
      simp [FixedSizeWordDatabase.HasSolution, hcount, hfind]
    have hlook : ((db.HasSolution cl m).2).partial_word_cache_.lookup cl.ToWord
        = some false := by
      rw [hR]
      exact insertB_lookup_self _ _ _ hpc1
    refine ⟨?_, ?_, ?_⟩
    · rw [hR]
      simp only [Bool.false_eq_true, false_iff]
      rintro ⟨e, hmem, hfreq, hfits⟩
      have := List.find?_eq_none.mp hfind e hmem
      rw [Bool.and_eq_true] at this
      apply this
      constructor
      · exact decide_eq_true hfreq
      · rw [FitsWord_eq_fitsKey cl hsz]
        exact hfits
    · rw [hR] at hlook ⊢
      exact hlook
    · rw [hR] at hlook ⊢
      rw [HasSolution_cached _ _ m2 false (by rw [hkey]; exact hlook)]

/-- Concrete sub-database for witnesses: the single word CAT with score 50,
empty cache. -/
def c7db : FixedSizeWordDatabase :=
  { word_set_ := [([3, 1, 20], 50)]
    partial_word_cache_ := ⟨[], 0, 0, 10000⟩
    trie_ := trieOfWords [[3, 1, 20]]
    entries_ := [⟨[3, 1, 20], 50, 123⟩]
    size_ := 3 }

/-- Concrete unfilled 3-slot for witnesses. -/
def c7clue : Clue :=
  ⟨kACROSS, ⟨0, 0⟩, 3, [⟨0, 0⟩, ⟨0, 1⟩, ⟨0, 2⟩], [0, 0, 0], kNO_NUMBER, false⟩

/-- Witness for C7: first call at score_min 1 on an empty cache, second call
at score_min 100 on the same partial word. -/
theorem C7_has_solution_cache_witness :
    ((c7db.HasSolution c7clue 1).1 = true ↔
      ∃ e ∈ c7db.entries_, 1 ≤ e.frequency_score ∧ fitsKey c7clue.ToWord e.entry = true) ∧
    ((c7db.HasSolution c7clue 1).2.partial_word_cache_.lookup c7clue.ToWord
      = some (c7db.HasSolution c7clue 1).1) ∧
    (((c7db.HasSolution c7clue 1).2.HasSolution c7clue 100).1
      = (c7db.HasSolution c7clue 1).1) :=
  C7_has_solution_cache c7db c7clue c7clue 1 100 rfl rfl rfl

/-! ## Claim C3: the solvability oracle -/

/-- Consistency of a sub-database's partial-word cache with its entries at one
score_min: every cached boolean is what a fresh scan would compute. Autofill
establishes this by flushing all caches at the start of each iteration. -/
def CacheConsistent (db : FixedSizeWordDatabase) (m : Int) : Prop :=
  ∀ w b, (w, b) ∈ db.partial_word_cache_.map →
    b = db.entries_.any (fun e => m ≤ e.frequency_score && fitsKey w e.entry)

/-- Consistency of every per-length cache. -/
def WDConsistent (db : WordDatabase) (m : Int) : Prop :=
  ∀ i, CacheConsistent (db.databases_ i) m

theorem lookup_consistent (db : FixedSizeWordDatabase) (m : Int) (key : Word) (b : Bool)
    (hc : CacheConsistent db m) (hl : db.partial_word_cache_.lookup key = some b) :
    b = db.entries_.any (fun e => m ≤ e.frequency_score && fitsKey key e.entry) := by
  unfold WordHashMap.lookup at hl
  cases hfind : db.partial_word_cache_.map.find? (fun p => p.1 == key) with
  | none => rw [hfind] at hl; simp at hl
  | some p =>
    rw [hfind] at hl
    have hp1 : p.1 = key := by simpa using List.find?_some hfind
    have hmem : p ∈ db.partial_word_cache_.map := List.mem_of_find?_eq_some hfind
    have hb : p.2 = b := by simpa using hl
    have := hc p.1 p.2 (by simpa using hmem)
    rw [hp1, hb] at this
    exact this

theorem mem_insertB (pc : WordHashMap) (key : Word) (bv : Bool) (w : Word) (b : Bool)
    (h : (w, b) ∈ (pc.insertB key bv).map) :
    (w, b) ∈ pc.map ∨ (w = key ∧ b = bv) := by
  unfold WordHashMap.insertB at h
  simp only at h
  set base := if pc.max_elements ≤ pc.map.length then pc.map.drop 1 else pc.map with hbase
  have hsub : ∀ q, q ∈ base → q ∈ pc.map := by
    intro q hq
    rw [hbase] at hq
    by_cases hfull : pc.max_elements ≤ pc.map.length
    · rw [if_pos hfull] at hq; exact List.mem_of_mem_drop hq
    · rw [if_neg hfull] at hq; exact hq
  by_cases hpresent : (base.find? (fun p => p.1 == key)).isSome
  · rw [if_pos hpresent] at h
    exact Or.inl (hsub _ h)
  · rw [if_neg hpresent] at h
    rcases List.mem_append.mp h with h1 | h1
    · exact Or.inl (hsub _ h1)
    · have : (w, b) = (key, bv) := by simpa using h1
      exact Or.inr (by simpa using this)

theorem HasSolution_consistent (db : FixedSizeWordDatabase) (cl : Clue) (m : Int)
    (hc : CacheConsistent db m) (hsz : cl.size = cl.constraints.length) :
    (db.HasSolution cl m).1
      = db.entries_.any (fun e => m ≤ e.frequency_score && fitsKey cl.ToWord e.entry) ∧
    CacheConsistent (db.HasSolution cl m).2 m ∧
    (db.HasSolution cl m).2.entries_ = db.entries_ ∧
    (db.HasSolution cl m).2.word_set_ = db.word_set_ := by
  have hpred : (fun e => decide (m ≤ e.frequency_score) && cl.FitsWord e.entry)
      = (fun (e : DatabaseEntry) =>
          decide (m ≤ e.frequency_score) && fitsKey cl.ToWord e.entry) :=
    funext fun e => by rw [FitsWord_eq_fitsKey cl hsz]
  cases hlk : db.partial_word_cache_.lookup cl.ToWord with
  | some b =>
    have hcount : db.partial_word_cache_.countW cl.ToWord
        = (1, { db.partial_word_cache_ with hits := db.partial_word_cache_.hits + 1 }) := by
      unfold WordHashMap.countW; rw [hlk]
    have hlook2 : WordHashMap.lookup
        { db.partial_word_cache_ with hits := db.partial_word_cache_.hits + 1 }
        cl.ToWord = some b := hlk
    have hR : db.HasSolution cl m = (b,
        { db with partial_word_cache_ :=
            { db.partial_word_cache_ with hits := db.partial_word_cache_.hits + 1 } }) := by
      simp [FixedSizeWordDatabase.HasSolution, hcount, hlook2]
    rw [hR]
    refine ⟨lookup_consistent db m cl.ToWord b hc hlk, ?_, rfl, rfl⟩
    intro w b2 hmem
    exact hc w b2 hmem
  | none =>
    have hcount : db.partial_word_cache_.countW cl.ToWord
        = (0, { db.partial_word_cache_ with
            misses := db.partial_word_cache_.misses + 1 }) := by
      unfold WordHashMap.countW; rw [hlk]
    have hpc1 : WordHashMap.lookup
        { db.partial_word_cache_ with misses := db.partial_word_cache_.misses + 1 }
        cl.ToWord = none := hlk
    cases hfind : db.entries_.find?
        (fun e => m ≤ e.frequency_score && cl.FitsWord e.entry) with
    | some e =>
      have hany : db.entries_.any
          (fun e => m ≤ e.frequency_score && fitsKey cl.ToWord e.entry) = true := by
        apply List.any_eq_true.mpr
        refine ⟨e, List.mem_of_find?_eq_some hfind, ?_⟩
        have := List.find?_some hfind
        rw [← FitsWord_eq_fitsKey cl hsz]
        exact this
      have hR : db.HasSolution cl m = (true,
          { db with partial_word_cache_ :=
              WordHashMap.insertB { db.partial_word_cache_ with
                misses := db.partial_word_cache_.misses + 1 } cl.ToWord true }) := by
        simp [FixedSizeWordDatabase.HasSolution, hcount, hfind]
      rw [hR]
      refine ⟨hany.symm, ?_, rfl, rfl⟩
      intro w b2 hmem
      rcases mem_insertB _ _ _ _ _ hmem with h1 | ⟨rfl, rfl⟩
      · exact hc w b2 h1
      · exact hany.symm
    | none =>
      have hany : db.entries_.any
          (fun e => m ≤ e.frequency_score && fitsKey cl.ToWord e.entry) = false := by
        rw [← hpred]
        apply Bool.eq_false_iff.mpr
        intro hcontra
        obtain ⟨e, hmem, hp⟩ := List.any_eq_true.mp hcontra
        have := List.find?_eq_none.mp hfind e hmem
        exact this hp
      have hR : db.HasSolution cl m = (false,
          { db with partial_word_cache_ :=
              WordHashMap.insertB { db.partial_word_cache_ with
                misses := db.partial_word_cache_.misses + 1 } cl.ToWord false }) := by
        simp [FixedSizeWordDatabase.HasSolution, hcount, hfind]
      rw [hR]
      refine ⟨hany.symm, ?_, rfl, rfl⟩
      intro w b2 hmem
      rcases mem_insertB _ _ _ _ _ hmem with h1 | ⟨rfl, rfl⟩
      · exact hc w b2 h1
      · exact hany.symm

theorem WD_HasSolution_spec (db : WordDatabase) (cl : Clue) (m : Int)
    (hc : WDConsistent db m) (hsz : cl.size = cl.constraints.length) :
    (db.HasSolution cl m).1 = (db.databases_ cl.size).entries_.any
      (fun e => m ≤ e.frequency_score && fitsKey cl.ToWord e.entry) ∧
    WDConsistent (db.HasSolution cl m).2 m ∧
    (∀ i, ((db.HasSolution cl m).2.databases_ i).entries_ = (db.databases_ i).entries_ ∧
      ((db.HasSolution cl m).2.databases_ i).word_set_ = (db.databases_ i).word_set_) := by
  obtain ⟨h1, h2, h3, h4⟩ :=
    HasSolution_consistent (db.databases_ cl.size) cl m (hc cl.size) hsz
  refine ⟨h1, ?_, ?_⟩
  · intro i
    show CacheConsistent (if (i == cl.size) = true
      then ((db.databases_ cl.size).HasSolution cl m).2 else db.databases_ i) m
    by_cases hi : (i == cl.size) = true
    · rw [if_pos hi]; exact h2
    · rw [if_neg hi]; exact hc i
  · intro i
    constructor
    · show ((if (i == cl.size) = true then ((db.databases_ cl.size).HasSolution cl m).2
        else db.databases_ i)).entries_ = (db.databases_ i).entries_
      by_cases hi : (i == cl.size) = true
      · rw [if_pos hi]
        have hieq : i = cl.size := by simpa using hi
        rw [hieq]
        exact h3
      · rw [if_neg hi]
    · show ((if (i == cl.size) = true then ((db.databases_ cl.size).HasSolution cl m).2
        else db.databases_ i)).word_set_ = (db.databases_ i).word_set_
      by_cases hi : (i == cl.size) = true
      · rw [if_pos hi]
        have hieq : i = cl.size := by simpa using hi
        rw [hieq]
        exact h4
      · rw [if_neg hi]

/-- One step of the oracle's classification, as the claim states it: skip a
filled locked slot; a filled slot whose word is not in the database is
Invalid; a filled slot whose word scores below score_min is Weak; an unfilled
slot with no fitting entry at score_min is Overdetermined; otherwise no
verdict. -/
def specClassifyStep (db : WordDatabase) (m : Int) (cl : Clue) : Option Solvability :=
  if cl.IsFilled then
    if cl.locked then none
    else if !(db.ContainsEntry cl.ToWord) then some Solvability.Invalid
    else if db.GetFrequencyScore cl.ToWord < m then some Solvability.Weak
    else none
  else if !((db.databases_ cl.size).entries_.any
      (fun e => m ≤ e.frequency_score && fitsKey cl.ToWord e.entry)) then
    some Solvability.Overdetermined
  else none

/-- Words of the filled slots, in slot order. -/
def filledWords (clues : List Clue) : List Word :=
  (clues.filter (fun cl => cl.IsFilled)).map Clue.ToWord

/-- The oracle's result as the claim states it: the first slot in order that
triggers a verdict decides; otherwise Duplicate when some word occurs in two
or more filled slots; otherwise Solvable. -/
def specClassify (db : WordDatabase) (m : Int) (clues : List Clue) : Solvability :=
  match clues.findSome? (specClassifyStep db m) with
  | some r => r
  | none =>
    if (filledWords clues).Nodup then Solvability.Solvable else Solvability.Duplicate

theorem specClassifyStep_congr (db db' : WordDatabase) (m : Int)
    (h : ∀ i, (db'.databases_ i).entries_ = (db.databases_ i).entries_ ∧
      (db'.databases_ i).word_set_ = (db.databases_ i).word_set_) :
    specClassifyStep db' m = specClassifyStep db m := by
  funext cl
  unfold specClassifyStep WordDatabase.ContainsEntry WordDatabase.GetFrequencyScore
    FixedSizeWordDatabase.ContainsEntry FixedSizeWordDatabase.GetFrequencyScore
  rw [(h cl.ToWord.length).2, (h cl.size).1]

theorem loop_spec (m : Int) (clues : List Clue) : ∀ (db : WordDatabase),
    WDConsistent db m → (∀ cl ∈ clues, cl.size = cl.constraints.length) →
    (IsInvalidPartialLoop clues db m).1 = clues.findSome? (specClassifyStep db m) := by
  induction clues with
  | nil => intro db _ _; rfl
  | cons cl rest ih =>
    intro db hc hsz
    have hszcl := hsz cl (by simp)
    have hszrest : ∀ x ∈ rest, x.size = x.constraints.length :=
      fun x hx => hsz x (by simp [hx])
    rw [List.findSome?_cons]
    by_cases hf : cl.IsFilled = true
    · by_cases hlk : cl.locked = true
      · have hstep : specClassifyStep db m cl = none := by
          simp [specClassifyStep, hf, hlk]
        rw [hstep]
        rw [show IsInvalidPartialLoop (cl :: rest) db m = IsInvalidPartialLoop rest db m
          from by simp [IsInvalidPartialLoop, hf, hlk]]
        exact ih db hc hszrest
      · have hlk2 : cl.locked = false := by simpa using hlk
        by_cases hsolved : cl.IsSolved db = true
        · have hcontains : db.ContainsEntry cl.ToWord = true := by
            unfold Clue.IsSolved at hsolved
            rw [hf] at hsolved
            simpa using hsolved
          by_cases hweak : db.GetFrequencyScore cl.ToWord < m
          · have hstep : specClassifyStep db m cl = some Solvability.Weak := by
              simp [specClassifyStep, hf, hlk2, hcontains, hweak]
            rw [hstep]
            rw [show IsInvalidPartialLoop (cl :: rest) db m = (some Solvability.Weak, db)
              from by simp [IsInvalidPartialLoop, hf, hlk2, hsolved, hweak]]
          · have hstep : specClassifyStep db m cl = none := by
              simp [specClassifyStep, hf, hlk2, hcontains, hweak]
            rw [hstep]
            rw [show IsInvalidPartialLoop (cl :: rest) db m = IsInvalidPartialLoop rest db m
              from by simp [IsInvalidPartialLoop, hf, hlk2, hsolved, hweak]]
            exact ih db hc hszrest
        · have hcontains : db.ContainsEntry cl.ToWord = false := by
            unfold Clue.IsSolved at hsolved
            rw [hf] at hsolved
            simpa using hsolved
          have hstep : specClassifyStep db m cl = some Solvability.Invalid := by
            simp [specClassifyStep, hf, hlk2, hcontains]
          rw [hstep]
          rw [show IsInvalidPartialLoop (cl :: rest) db m = (some Solvability.Invalid, db)
            from by simp [IsInvalidPartialLoop, hf, hlk2, hsolved]]
    · have hf2 : cl.IsFilled = false := by simpa using hf
      obtain ⟨hval, hcons2, hpres⟩ := WD_HasSolution_spec db cl m hc hszcl
      by_cases hhs : (db.HasSolution cl m).1 = true
      · have hany : (db.databases_ cl.size).entries_.any
            (fun e => m ≤ e.frequency_score && fitsKey cl.ToWord e.entry) = true := by
          rw [← hval]; exact hhs
        have hstep : specClassifyStep db m cl = none := by
          simp [specClassifyStep, hf2, hany]
        rw [hstep]
        rw [show IsInvalidPartialLoop (cl :: rest) db m
            = IsInvalidPartialLoop rest (db.HasSolution cl m).2 m
          from by simp [IsInvalidPartialLoop, hf2, hhs]]
        rw [ih (db.HasSolution cl m).2 hcons2 hszrest]
        rw [specClassifyStep_congr db (db.HasSolution cl m).2 m hpres]
      · have hfalse : (db.HasSolution cl m).1 = false := by simpa using hhs
        have hany : (db.databases_ cl.size).entries_.any
            (fun e => m ≤ e.frequency_score && fitsKey cl.ToWord e.entry) = false := by
          rw [← hval]; exact hfalse
        have hstep : specClassifyStep db m cl = some Solvability.Overdetermined := by
          simp [specClassifyStep, hf2, hany]
        rw [hstep]
        rw [show IsInvalidPartialLoop (cl :: rest) db m
            = (some Solvability.Overdetermined, (db.HasSolution cl m).2)
          from by simp [IsInvalidPartialLoop, hf2, hfalse]]

theorem DuplicateScan_gen (clues : List Clue) : ∀ (m : List (Word × Nat)),
    (∀ p ∈ m, p.2 = 1) → (m.map Prod.fst).Nodup →
    (DuplicateScan clues m = true ↔
      (¬ (filledWords clues).Nodup ∨ ∃ w ∈ m.map Prod.fst, w ∈ filledWords clues)) := by
  induction clues with
  | nil =>
    intro m _ _
    simp [DuplicateScan, filledWords]
  | cons cl rest ih =>
    intro m hval hnd
    by_cases hf : cl.IsFilled = true
    · have hfw : filledWords (cl :: rest) = cl.ToWord :: filledWords rest := by
        simp [filledWords, List.filter_cons, hf]
      cases hfind : m.find? (fun p => p.1 == cl.ToWord) with
      | some p =>
        have hp1 : p.1 = cl.ToWord := by simpa using List.find?_some hfind
        have hpmem : p ∈ m := List.mem_of_find?_eq_some hfind
        have hget : assocGetNat m cl.ToWord = 1 := by
          unfold assocGetNat
          rw [hfind]
          simp [hval p hpmem]
        have hscan : DuplicateScan (cl :: rest) m = true := by
          simp [DuplicateScan, hf, hget]
        rw [hscan, hfw]
        constructor
        · intro _
          right
          exact ⟨cl.ToWord, List.mem_map.mpr ⟨p, hpmem, hp1⟩, by simp⟩
        · intro _; rfl
      | none =>
        have hget : assocGetNat m cl.ToWord = 0 := by
          unfold assocGetNat
          rw [hfind]
          rfl
        have hnotin : cl.ToWord ∉ m.map Prod.fst := by
          intro hmem
          obtain ⟨p, hpmem, hp1⟩ := List.mem_map.mp hmem
          have := List.find?_eq_none.mp hfind p hpmem
          simp [hp1] at this
        have hset : assocSetNat m cl.ToWord 1 = m ++ [(cl.ToWord, 1)] := by
          unfold assocSetNat
          rw [hfind]
          rfl
        have hscan : DuplicateScan (cl :: rest) m
            = DuplicateScan rest (m ++ [(cl.ToWord, 1)]) := by
          rw [show DuplicateScan (cl :: rest) m
            = DuplicateScan rest (assocSetNat m cl.ToWord (assocGetNat m cl.ToWord + 1))
            from by simp [DuplicateScan, hf, hget]]
          rw [hget, hset]
        have hIH := ih (m ++ [(cl.ToWord, 1)])
          (by
            intro p hp
            rcases List.mem_append.mp hp with h1 | h1
            · exact hval p h1
            · simp at h1; simp [h1])
          (by
            rw [List.map_append]
            apply List.Nodup.append hnd (by simp)
            intro w hw hw2
            simp at hw2
            rw [hw2] at hw
            exact hnotin hw)
        rw [hscan, hIH, hfw]
        rw [List.map_append]
        constructor
        · rintro (h1 | ⟨w, hw, hwf⟩)
          · left
            rw [List.nodup_cons]
            tauto
          · rcases List.mem_append.mp hw with h2 | h2
            · exact Or.inr ⟨w, h2, by simp [hwf]⟩
            · have : w = cl.ToWord := by simpa using h2
              subst this
              left
              rw [List.nodup_cons]
              tauto
        · rintro (h1 | ⟨w, hw, hwf⟩)
          · rw [List.nodup_cons] at h1
            push_neg at h1
            by_cases hmem : cl.ToWord ∈ filledWords rest
            · exact Or.inr ⟨cl.ToWord, by simp, hmem⟩
            · exact Or.inl (fun hcontra => (h1 hmem) hcontra)
          · rcases List.mem_cons.mp hwf with h2 | h2
            · subst h2
              exact absurd hw hnotin
            · exact Or.inr ⟨w, List.mem_append.mpr (Or.inl hw), h2⟩
    · have hf2 : cl.IsFilled = false := by simpa using hf
      have hfw : filledWords (cl :: rest) = filledWords rest := by
        simp [filledWords, List.filter_cons, hf2]
      rw [show DuplicateScan (cl :: rest) m = DuplicateScan rest m
        from by simp [DuplicateScan, hf2]]
      rw [hfw]
      exact ih m hval hnd

theorem DuplicateScan_correct (clues : List Clue) :
    DuplicateScan clues [] = true ↔ ¬ (filledWords clues).Nodup := by
  rw [DuplicateScan_gen clues [] (by simp) (by simp)]
  simp

/-- C3: for every slot list, database and score_min, with every per-length
cache consistent with its entries at this score_min (as after the flush
Autofill performs) and every slot's size agreeing with its constraint length
(an invariant the C++ asserts), IsInvalidPartial classifies exactly as the
claim states: the first slot in order that triggers - filled and locked is
skipped; a filled word absent from the database gives Invalid; a filled word
scoring below score_min gives Weak; an unfilled slot with no fitting entry at
score_min gives Overdetermined - decides; after the loop a repeated filled
word gives Duplicate; otherwise Solvable. -/
theorem C3_oracle_classification (clues : List Clue) (db : WordDatabase) (m : Int)
    (hsz : ∀ cl ∈ clues, cl.size = cl.constraints.length)
    (hcons : WDConsistent db m) :
    (IsInvalidPartial clues db m).1 = specClassify db m clues := by
  have hloop := loop_spec m clues db hcons hsz
  unfold IsInvalidPartial specClassify
  rw [← hloop]
  cases hres : IsInvalidPartialLoop clues db m with
  | mk o db2 =>
    cases o with
    | some r => rfl
    | none =>
      show (if DuplicateScan clues [] = true then (Solvability.Duplicate, db2)
          else (Solvability.Solvable, db2)).1
        = (if (filledWords clues).Nodup then Solvability.Solvable
          else Solvability.Duplicate)
      by_cases hdup : DuplicateScan clues [] = true
      · rw [if_pos hdup, if_neg ((DuplicateScan_correct clues).mp hdup)]
      · have hnodup : (filledWords clues).Nodup := by
          by_contra hcontra
          exact hdup ((DuplicateScan_correct clues).mpr hcontra)
        rw [if_neg hdup, if_pos hnodup]

/-- Empty sub-database (all caches empty). -/
def emptySubDb : FixedSizeWordDatabase :=
  { word_set_ := [], partial_word_cache_ := ⟨[], 0, 0, 10000⟩,
    trie_ := WordTrie.root, entries_ := [], size_ := 0 }

/-- Concrete word database for witnesses: CAT at length 3, nothing else. -/
def c3wdb : WordDatabase :=
  ⟨fun i => if i == 3 then c7db else emptySubDb⟩

/-- Concrete filled CAT slot for witnesses. -/
def c3clue : Clue :=
  ⟨kACROSS, ⟨0, 0⟩, 3, [⟨0, 0⟩, ⟨0, 1⟩, ⟨0, 2⟩], [3, 1, 20], kNO_NUMBER, false⟩

/-- Witness for C3: one filled CAT slot and one unfilled slot against the CAT
database at score_min 1, with flushed (hence consistent) caches. -/
theorem C3_oracle_classification_witness :
    (IsInvalidPartial [c3clue, c7clue] c3wdb 1).1 = specClassify c3wdb 1 [c3clue, c7clue] :=
  C3_oracle_classification [c3clue, c7clue] c3wdb 1 (by decide)
    (by
      intro i w b hmem
      exfalso
      revert hmem
      show (w, b) ∈ (if (i == 3) = true then c7db else emptySubDb).partial_word_cache_.map → False
      by_cases hi : (i == 3) = true
      · rw [if_pos hi]
        intro h
        simp [c7db] at h
      · rw [if_neg hi]
        intro h
        simp [emptySubDb] at h)


/-! ## Claim C2: the branching-factor limit of GetWordFills (solver.cpp) -/

/-- The comparator of the std::sort in Crossword::GetWordFills (solver.cpp):
distance to the upper left as row + col, with the lambda's tie rules. -/
def clueLess (clue_a clue_b : Clue) : Bool :=
  let a := clue_a.start
  let b := clue_b.start
  if a == b then clue_a.direction == kACROSS
  else
    let da := a.row + a.col
    let db := b.row + b.col
    if da == db then
      if a.row == b.row then clue_a.direction == kACROSS
      else decide (a.row < b.row)
    else decide (da < db)

/-- Insertion step of the sort below. -/
def sortInsert (le : Clue → Clue → Bool) (x : Clue) : List Clue → List Clue
  | [] => [x]
  | y :: ys => if le x y then x :: y :: ys else y :: sortInsert le x ys

/-- The std::sort of Crossword::GetWordFills, modelled as an insertion sort:
std::sort promises only an ordering under the comparator, and its tie order is
implementation-defined, so the model determinizes it; the count claims depend
only on its being a permutation. -/
def sortClues (le : Clue → Clue → Bool) : List Clue → List Clue
  | [] => []
  | x :: xs => sortInsert le x (sortClues le xs)

/-- The emission loop of Crossword::GetWordFills (solver.cpp): for each
solution in order, push the group, then `if (limit != kNO_NUMBER && i >= limit)
break; i++;` - the check comes after the push, and the counter increments only
when the loop does not break. -/
def emitFillGroups (cw : Crossword) (cl : Clue) (limit : Int) :
    List Word → Int → List CwAction
  | [], _ => []
  | w :: rest, i =>
    let g := mkFillGroup cw cl w
    if limit ≠ kNO_NUMBER ∧ limit ≤ i then [g]
    else g :: emitFillGroups cw cl limit rest (i + 1)

/-- Crossword::GetWordFills (solver.cpp): sort the clues with the comparator,
walk them in order skipping filled ones, and for the first open clue (the final
`break` ends the walk there) query GetSolutions, shuffle, and emit action
groups under the push-then-check limit loop. The RNG-seeded std::shuffle of the
entropy-determined prefix is modelled by the opaque-to-the-count `shuffle`
parameter; any instantiation permutes a prefix, and the theorems hold for every
function. -/
def GetWordFills (cw : Crossword) (all_clues : List Clue) (db : WordDatabase)
    (limit score_min : Int) (shuffle : List Word → List Word) : List CwAction :=
  let clues := sortClues (fun a b => clueLess a b) all_clues
  match clues.find? (fun cl => !cl.IsFilled) with
  | none => []
  | some cl =>
    emitFillGroups cw cl limit (shuffle (db.GetSolutions cl kNO_NUMBER score_min)) 0

theorem emitFillGroups_length_le (cw : Crossword) (cl : Clue) (limit : Int)
    (hlim : limit ≠ kNO_NUMBER) :
    ∀ (sols : List Word) (i : Int),
      (emitFillGroups cw cl limit sols i).length ≤ (limit - i).toNat + 1 := by
  intro sols
  induction sols with
  | nil => intro i; simp [emitFillGroups]
  | cons w rest ih =>
    intro i
    unfold emitFillGroups
    by_cases hbrk : limit ≠ kNO_NUMBER ∧ limit ≤ i
    · rw [if_pos hbrk]
      simp
    · rw [if_neg hbrk]
      have hlt : i < limit := by
        rcases not_and_or.mp hbrk with h | h
        · exact absurd hlim h
        · omega
      have := ih (i + 1)
      simp only [List.length_cons]
      omega

/-- Concrete sub-database with the two words CAT and CAR. -/
def c2db : FixedSizeWordDatabase :=
  { word_set_ := [([3, 1, 20], 50), ([3, 1, 18], 50)]
    partial_word_cache_ := ⟨[], 0, 0, 10000⟩
    trie_ := trieOfWords [[3, 1, 20], [3, 1, 18]]
    entries_ := [⟨[3, 1, 20], 50, 123⟩, ⟨[3, 1, 18], 50, 99⟩]
    size_ := 3 }

/-- Concrete word database for C2: CAT and CAR at length 3, nothing else. -/
def c2wdb : WordDatabase :=
  ⟨fun i => if i == 3 then c2db else emptySubDb⟩

/-- Counterexample to C2 as stated: with branching_factor_limit 1 and an open
slot that has two solutions (CAT and CAR), GetWordFills returns 2 action
groups - the push-then-check loop emits one group past the limit. -/
theorem C2_word_fills_cex :
    ¬ ((GetWordFills witnessCw [c7clue] c2wdb 1 1 id).length ≤ (1 : Int).toNat) := by
  decide

/-- C2 (amended): when branching_factor_limit is not kNO_NUMBER, GetWordFills
returns at most branching_factor_limit + 1 candidate action groups (not at most
branching_factor_limit: the loop pushes before checking the limit), for every
crossword, clue list, database, score_min and shuffle function. -/
theorem C2_word_fills_branching_limit (cw : Crossword) (all_clues : List Clue)
    (db : WordDatabase) (limit score_min : Int) (shuffle : List Word → List Word)
    (hlim : limit ≠ kNO_NUMBER) :
    (GetWordFills cw all_clues db limit score_min shuffle).length ≤ limit.toNat + 1 := by
  have hrw : GetWordFills cw all_clues db limit score_min shuffle
      = match (sortClues (fun a b => clueLess a b) all_clues).find?
          (fun cl => !cl.IsFilled) with
        | none => []
        | some cl =>
          emitFillGroups cw cl limit (shuffle (db.GetSolutions cl kNO_NUMBER score_min)) 0 :=
    rfl
  rw [hrw]
  cases hfind : (sortClues (fun a b => clueLess a b) all_clues).find?
      (fun cl => !cl.IsFilled) with
  | none => simp
  | some cl =>
    have := emitFillGroups_length_le cw cl limit hlim
      (shuffle (db.GetSolutions cl kNO_NUMBER score_min)) 0
    simpa using this

/-- Witness for the amended C2 at the counterexample's own input: 2 groups,
and 2 is within limit + 1 = 2. -/
theorem C2_word_fills_branching_limit_witness :
    (GetWordFills witnessCw [c7clue] c2wdb 1 1 id).length ≤ (1 : Int).toNat + 1 :=
  C2_word_fills_branching_limit witnessCw [c7clue] c2wdb 1 1 id (by decide)

/-! ## Claim C6: GetSolutions returns all trie matches, unfiltered by score -/

theorem fitsKey_eq_decide_spec (pat w : Word) (hw : pat.length = w.length) :
    fitsKey pat w = decide (specMatches pat w) := by
  have hiff : fitsKey pat w = true ↔ specMatches pat w := by
    unfold fitsKey specMatches
    rw [List.all_eq_true]
    constructor
    · intro h
      refine ⟨hw, ?_⟩
      intro i hi
      have hb := h i (List.mem_range.mpr hi)
      rcases Bool.or_eq_true _ _ |>.mp hb with h1 | h1
      · left; simpa [Atom.IsEmpty] using h1
      · right; simpa using h1
    · rintro ⟨-, h⟩
      intro i hmem
      rw [Bool.or_eq_true]
      rcases h i (List.mem_range.mp hmem) with h1 | h1
      · left; simpa [Atom.IsEmpty] using h1
      · right; simpa using h1
  by_cases h : specMatches pat w
  · rw [hiff.mpr h]; simp [h]
  · rw [Bool.eq_false_iff.mpr (fun hc => h (hiff.mp hc))]
    simp [h]

/-- C6: for every per-length database whose trie stores a list `L` of distinct
complete words of one length `n`, and every slot of constraint length `n`,
GetSolutions ignores both its `limit` and its `score_min` argument (the score
filter is the short-circuited `true || score_min <= ...`), and returns exactly
(as a multiset) the stored words that fit the slot's current constraints. -/
theorem C6_get_solutions_unfiltered (db : FixedSizeWordDatabase) (cl : Clue)
    (L : List Word) (n : Nat) (limit m : Int)
    (htrie : db.trie_ = trieOfWords L) (hn : 1 ≤ n)
    (hlen : ∀ w ∈ L, w.length = n) (hcomp : ∀ w ∈ L, ∀ a ∈ w, a ≠ 0)
    (hnd : L.Nodup) (hsz : cl.size = cl.constraints.length)
    (hpat : cl.ToWord.length = n) :
    (∀ limit2 m2 : Int, db.GetSolutions cl limit2 m2 = db.GetSolutions cl limit m) ∧
    List.Perm (db.GetSolutions cl limit m) (L.filter (fun w => cl.FitsWord w)) := by
  have hid : ∀ (l2 m2 : Int), db.GetSolutions cl l2 m2 = db.trie_.Find cl.ToWord := by
    intro l2 m2
    unfold FixedSizeWordDatabase.GetSolutions
    simp
  refine ⟨fun limit2 m2 => by rw [hid, hid], ?_⟩
  rw [hid, htrie]
  have hperm := trieOfWords_find_perm L n cl.ToWord hn hlen hcomp hnd hpat
  have hfilters : L.filter (fun w => decide (specMatches cl.ToWord w))
      = L.filter (fun w => cl.FitsWord w) := by
    apply List.filter_congr
    intro w hw
    rw [FitsWord_eq_fitsKey cl hsz w,
      fitsKey_eq_decide_spec cl.ToWord w (by rw [hpat, hlen w hw])]
  rw [hfilters] at hperm
  exact hperm

/-- Concrete partially filled 3-slot C_T for the C6 witness. -/
def c6clue : Clue :=
  ⟨kACROSS, ⟨0, 0⟩, 3, [⟨0, 0⟩, ⟨0, 1⟩, ⟨0, 2⟩], [3, 0, 20], kNO_NUMBER, false⟩

/-- Witness for C6 on the CAT/CAR database with the partial slot C_T: every
limit and score_min give the same list, a permutation of the fitting words. -/
theorem C6_get_solutions_unfiltered_witness :
    (∀ limit2 m2 : Int, c2db.GetSolutions c6clue limit2 m2 = c2db.GetSolutions c6clue 7 50) ∧
    List.Perm (c2db.GetSolutions c6clue 7 50)
      ([[3, 1, 20], [3, 1, 18]].filter (fun w => c6clue.FitsWord w)) :=
  C6_get_solutions_unfiltered c2db c6clue [[3, 1, 20], [3, 1, 18]] 3 7 50
    rfl (by decide) (by decide) (by decide) (by decide) (by decide) (by decide)

/-! ## Claim C5: frequency-score normalization (database.cpp) -/

/-- Mean of the raw scores as NormalizeFrequencyScores computes it
(`total_raw / N`), IEEE doubles idealized as reals. -/
noncomputable def meanOf (raws : List Int) : ℝ :=
  (raws.map (fun r => (r : ℝ))).sum / (raws.length : ℝ)

/-- Standard deviation as computed: `sqrt(total_sq_dev / N)`. -/
noncomputable def sdOf (raws : List Int) : ℝ :=
  Real.sqrt ((raws.map (fun r => ((r : ℝ) - meanOf raws) ^ 2)).sum / (raws.length : ℝ))

/-- Per-entry body of the normalization loop: sigma, the asymmetric squish
(divide by max_sigma = 1 when positive, by min_sigma = 2 otherwise), the clamp
to [-1, 1], the recentering at 50 and the truncation into [1, 100]. -/
noncomputable def normScoreR (mean sd : ℝ) (raw : Int) : ℝ :=
  let sigma := ((raw : ℝ) - mean) / sd
  let sigma := if sigma > 0 then sigma / 1 else sigma / 2
  let sigma := min 1 (max (-1) sigma)
  let new_score := 50 + 50 * sigma
  min 100 (max 1 new_score)

/-- The final `static_cast<int>(new_score)`: truncation toward zero, which on
the positive values produced here is the floor. -/
noncomputable def normScoreI (raws : List Int) (raw : Int) : Int :=
  ⌊normScoreR (meanOf raws) (sdOf raws) raw⌋

/-- FixedSizeWordDatabase::NormalizeFrequencyScores on the raw frequency
scores of its entry list: an empty list is returned untouched, otherwise every
score goes through the loop body. -/
noncomputable def normalizeRaws (raws : List Int) : List Int :=
  if raws.isEmpty then raws else raws.map (normScoreI raws)

/-- The claim's per-entry formula, written from the spec's words for the
comparison: clamp(round(50 + 50 * sigma), 1, 100) with the same sigma. -/
noncomputable def specNormScoreI (raws : List Int) (raw : Int) : Int :=
  min 100 (max 1 (round (50 + 50 * (min 1 (max (-1)
    (let sigma := ((raw : ℝ) - meanOf raws) / sdOf raws
     if sigma > 0 then sigma / 1 else sigma / 2))))))

/-- The claim's normalization, from the spec's words. -/
noncomputable def specNormalizeRaws (raws : List Int) : List Int :=
  if raws.isEmpty then raws else raws.map (specNormScoreI raws)

/-- The spec's own scenario input: raw scores 10, 20, 30, 40, 50. -/
def raws5 : List Int := [10, 20, 30, 40, 50]

theorem mean5 : meanOf raws5 = 30 := by
  simp [meanOf, raws5]
  norm_num

theorem sd5 : sdOf raws5 = 10 * Real.sqrt 2 := by
  have harg : ((raws5.map (fun r => ((r : ℝ) - meanOf raws5) ^ 2)).sum
      / (raws5.length : ℝ)) = 200 := by
    rw [mean5]
    norm_num [raws5]
  have h1 : sdOf raws5 = Real.sqrt 200 := by
    unfold sdOf
    rw [harg]
  rw [h1, show (200 : ℝ) = 10 ^ 2 * 2 by norm_num,
    Real.sqrt_mul (by positivity) 2, Real.sqrt_sq (by norm_num)]

theorem sqrt2_lt : Real.sqrt 2 < 1.42 := by
  nlinarith [Real.mul_self_sqrt (show (0:ℝ) ≤ 2 by norm_num), Real.sqrt_nonneg 2]

theorem lt_sqrt2 : (1.4 : ℝ) < Real.sqrt 2 := by
  nlinarith [Real.mul_self_sqrt (show (0:ℝ) ≤ 2 by norm_num), Real.sqrt_nonneg 2]

theorem sig5 : (((10 : Int) : ℝ) - meanOf raws5) / sdOf raws5 = -Real.sqrt 2 := by
  rw [mean5, sd5, div_eq_iff (by positivity)]
  have hsq2 : Real.sqrt 2 * Real.sqrt 2 = 2 := Real.mul_self_sqrt (by norm_num)
  push_cast
  nlinarith [hsq2]

theorem norm5_head : normScoreI raws5 10 = 14 := by
  have hlow := lt_sqrt2
  have hhigh := sqrt2_lt
  simp only [normScoreI, normScoreR, sig5]
  rw [if_neg (by push_neg; exact neg_nonpos.mpr (Real.sqrt_nonneg 2))]
  rw [show max (-1:ℝ) (-Real.sqrt 2 / 2) = -Real.sqrt 2 / 2 from
      max_eq_right (by nlinarith),
    show min (1:ℝ) (-Real.sqrt 2 / 2) = -Real.sqrt 2 / 2 from
      min_eq_right (by nlinarith),
    show max (1:ℝ) (50 + 50 * (-Real.sqrt 2 / 2)) = 50 + 50 * (-Real.sqrt 2 / 2) from
      max_eq_right (by nlinarith),
    show min (100:ℝ) (50 + 50 * (-Real.sqrt 2 / 2)) = 50 + 50 * (-Real.sqrt 2 / 2) from
      min_eq_right (by nlinarith)]
  refine Int.floor_eq_iff.mpr ⟨?_, ?_⟩
  · push_cast; nlinarith
  · push_cast; nlinarith

theorem spec5_head : specNormScoreI raws5 10 = 15 := by
  have hlow := lt_sqrt2
  have hhigh := sqrt2_lt
  simp only [specNormScoreI, sig5]
  rw [if_neg (by push_neg; exact neg_nonpos.mpr (Real.sqrt_nonneg 2))]
  rw [show max (-1:ℝ) (-Real.sqrt 2 / 2) = -Real.sqrt 2 / 2 from
      max_eq_right (by nlinarith),
    show min (1:ℝ) (-Real.sqrt 2 / 2) = -Real.sqrt 2 / 2 from
      min_eq_right (by nlinarith)]
  rw [round_eq]
  rw [show (⌊50 + 50 * (-Real.sqrt 2 / 2) + 1 / 2⌋ : ℤ) = 15 from
    Int.floor_eq_iff.mpr ⟨by push_cast; nlinarith, by push_cast; nlinarith⟩]
  decide

/-- Counterexample to C5 as stated: on the spec's own raw scores
{10, 20, 30, 40, 50}, the code's `static_cast<int>` truncates
50 - 25 * sqrt 2 = 14.64... to 14 where the claim's round gives 15, so the
entry with raw score 10 comes out one lower than the claimed formula. -/
theorem C5_normalize_cex : normalizeRaws raws5 ≠ specNormalizeRaws raws5 := by
  intro h
  have h0 : (normalizeRaws raws5).getD 0 0 = (specNormalizeRaws raws5).getD 0 0 := by
    rw [h]
  rw [normalizeRaws, specNormalizeRaws, if_neg (by decide), if_neg (by decide)] at h0
  rw [show raws5 = 10 :: [20, 30, 40, 50] from rfl] at h0
  simp only [List.map_cons, List.getD_cons_zero] at h0
  rw [show (10 :: [20, 30, 40, 50] : List Int) = raws5 from rfl] at h0
  rw [norm5_head, spec5_head] at h0
  exact absurd h0 (by decide)

/-- C5 (amended): for every non-empty raw-score list whose standard deviation
is not zero (zero would divide by zero), every normalized score lies in
[1, 100] and normalization is monotone in the raw score - so the highest raw
score receives the highest normalized score and the lowest the lowest; the
per-entry value is the floor (the C++ truncates), not the round, of the
clamped recentered sigma. -/
theorem C5_normalize_scores (raws : List Int) (hne : raws ≠ [])
    (hsd : sdOf raws ≠ 0) :
    (∀ s ∈ normalizeRaws raws, 1 ≤ s ∧ s ≤ 100) ∧
    (∀ r s : Int, r ∈ raws → s ∈ raws → r ≤ s →
      normScoreI raws r ≤ normScoreI raws s) := by
  have hsdpos : 0 < sdOf raws :=
    lt_of_le_of_ne (Real.sqrt_nonneg _) (Ne.symm hsd)
  constructor
  · intro s hs
    rw [normalizeRaws, if_neg (by simpa using hne)] at hs
    obtain ⟨r, hr, rfl⟩ := List.mem_map.mp hs
    simp only [normScoreI, normScoreR]
    constructor
    · refine Int.le_floor.mpr ?_
      push_cast
      exact le_min (by norm_num) (le_max_left _ _)
    · calc ⌊min (100:ℝ) (max 1 (50 + 50 * min 1 (max (-1)
            (if ((r:ℝ) - meanOf raws) / sdOf raws > 0
             then ((r:ℝ) - meanOf raws) / sdOf raws / 1
             else ((r:ℝ) - meanOf raws) / sdOf raws / 2))))⌋
          ≤ ⌊(100:ℝ)⌋ := Int.floor_le_floor (min_le_left _ _)
        _ = 100 := by norm_num
  · intro r s hr hs hrs
    simp only [normScoreI, normScoreR]
    apply Int.floor_le_floor
    have hdiv : ((r:ℝ) - meanOf raws) / sdOf raws ≤ ((s:ℝ) - meanOf raws) / sdOf raws := by
      apply div_le_div_of_nonneg_right ?_ hsdpos.le
      have : (r : ℝ) ≤ (s : ℝ) := Int.cast_le.mpr hrs
      linarith
    set x := ((r:ℝ) - meanOf raws) / sdOf raws with hx
    set y := ((s:ℝ) - meanOf raws) / sdOf raws with hy
    have hsq : (if x > 0 then x / 1 else x / 2) ≤ (if y > 0 then y / 1 else y / 2) := by
      by_cases hxp : x > 0
      · have hyp : y > 0 := lt_of_lt_of_le hxp hdiv
        rw [if_pos hxp, if_pos hyp]
        simpa using hdiv
      · by_cases hyp : y > 0
        · rw [if_neg hxp, if_pos hyp]
          push_neg at hxp
          simp only [div_one]
          linarith
        · rw [if_neg hxp, if_neg hyp]
          linarith
    have hclamp : min (1:ℝ) (max (-1) (if x > 0 then x / 1 else x / 2))
        ≤ min 1 (max (-1) (if y > 0 then y / 1 else y / 2)) :=
      min_le_min (le_refl _) (max_le_max (le_refl _) hsq)
    have hcenter : (50:ℝ) + 50 * min 1 (max (-1) (if x > 0 then x / 1 else x / 2))
        ≤ 50 + 50 * min 1 (max (-1) (if y > 0 then y / 1 else y / 2)) := by
      nlinarith [hclamp]
    exact min_le_min (le_refl _) (max_le_max (le_refl _) hcenter)

/-- Witness for the amended C5 at the spec's own raw scores: every normalized
score is in [1, 100] and the map is monotone in the raw score. -/
theorem C5_normalize_scores_witness :
    (∀ s ∈ normalizeRaws raws5, 1 ≤ s ∧ s ≤ 100) ∧
    (∀ r s : Int, r ∈ raws5 → s ∈ raws5 → r ≤ s →
      normScoreI raws5 r ≤ normScoreI raws5 s) :=
  C5_normalize_scores raws5 (by decide)
    (by rw [sd5]; positivity)

/-! ## Claim C9: serialization round trip (crossword_serialization.cpp) -/

/-- A character of a serialized line, as its code point: the delimiter `,` is
44, the barrier mark `-` is 45, the blank ` ` is 32, a digit d is 48 + d and
the letter of atom code a (1..26) is 64 + a. -/
abbrev Ch := Nat

/-- One serialized cell: BARRIER for a barrier, BLANK when `ToString()` is
empty (code 0), else the atom's letter. -/
def cellChar (cell : Cell) : Ch :=
  if cell.is_barrier then 45
  else if cell.contents == 0 then 32
  else 64 + cell.contents

/-- One serialized row: each cell of the row followed by the delimiter. -/
def rowChars (g : Coord → Cell) (width : Nat) (i : Nat) : List Ch :=
  (List.range width).flatMap (fun j => [cellChar (g ⟨i, j⟩), 44])

/-- std::to_string of a dimension: its decimal digits. -/
def natChars (n : Nat) : List Ch :=
  if n = 0 then [48] else ((Nat.digits 10 n).map (fun d => 48 + d)).reverse

/-- std::stoi on an all-digit line. -/
def stoiChars (s : List Ch) : Nat :=
  Nat.ofDigits 10 ((s.map (fun c => c - 48)).reverse)

/-- Crossword::Serialize (crossword_serialization.cpp): width, height, then
each live row. -/
def Crossword.Serialize (cw : Crossword) : List (List Ch) :=
  [natChars cw.width, natChars cw.height] ++
    (List.range cw.height).map (fun i => rowChars cw.grid cw.width i)

/-- Character loop of Crossword::Unserialize: a delimiter is skipped, a
barrier mark sets a barrier (no symmetry) and advances the column, any other
character advances the column and, unless blank, sets the atom of code
`char - 64` through the logged Set. -/
def parseRowGo (row : Nat) : List Ch → Nat → Crossword → Crossword
  | [], _, cw => cw
  | ch :: rest, col, cw =>
    if ch == 44 then parseRowGo row rest col cw
    else if ch == 45 then parseRowGo row rest (col + 1) (cw.SetBarrier true ⟨row, col⟩ false)
    else if ch != 32 then parseRowGo row rest (col + 1) (cw.Set (ch - 64) ⟨row, col⟩)
    else parseRowGo row rest (col + 1) cw

/-- Crossword::Unserialize (crossword_serialization.cpp): clear every live
barrier (no symmetry), clear the atoms, read width and height from the first
two lines, set the dimensions, then parse the `h` row lines. -/
def Crossword.Unserialize (lines : List (List Ch)) (cw : Crossword) : Crossword :=
  let cw1 := (rowMajorCoords cw.height cw.width).foldl
    (fun c coord => c.SetBarrier false coord false) cw
  let cw2 := cw1.ClearAtoms
  let w := stoiChars (lines.getD 0 [])
  let h := stoiChars (lines.getD 1 [])
  let cw3 := cw2.SetDimensions h w
  (List.range h).foldl (fun c i => parseRowGo i (lines.getD (2 + i) []) 0 c) cw3

theorem stoiChars_natChars (n : Nat) : stoiChars (natChars n) = n := by
  unfold stoiChars natChars
  by_cases h : n = 0
  · subst h; rfl
  · rw [if_neg h, List.map_reverse, List.reverse_reverse, List.map_map]
    rw [show ((fun c => c - 48) ∘ fun d => 48 + d) = id from funext (fun d => by simp)]
    rw [List.map_id]
    exact Nat.ofDigits_digits 10 n

theorem SetBarrierNS_grid (val : Bool) (coord : Coord) (cw : Crossword) :
    (cw.SetBarrier val coord false).grid
      = fun c => if c == coord then { cw.grid coord with is_barrier := val }
        else cw.grid c := rfl

theorem SetBarrierNS_height (val : Bool) (coord : Coord) (cw : Crossword) :
    (cw.SetBarrier val coord false).height = cw.height := rfl

theorem SetBarrierNS_width (val : Bool) (coord : Coord) (cw : Crossword) :
    (cw.SetBarrier val coord false).width = cw.width := rfl

theorem mem_rowMajorCoords (h w : Nat) (c : Coord) :
    c ∈ rowMajorCoords h w ↔ c.row < h ∧ c.col < w := by
  unfold rowMajorCoords
  simp only [List.mem_flatMap, List.mem_map, List.mem_range]
  constructor
  · rintro ⟨i, hi, j, hj, rfl⟩
    exact ⟨hi, hj⟩
  · rintro ⟨h1, h2⟩
    exact ⟨c.row, h1, c.col, h2, rfl⟩

theorem clearBarriers_grid (L : List Coord) : ∀ (cw : Crossword),
    ((L.foldl (fun c coord => c.SetBarrier false coord false) cw)).grid
      = fun c => if c ∈ L then { cw.grid c with is_barrier := false } else cw.grid c := by
  induction L with
  | nil =>
    intro cw
    funext c
    simp
  | cons a L ih =>
    intro cw
    rw [List.foldl_cons, ih]
    funext c
    simp only [SetBarrierNS_grid]
    by_cases h1 : c = a
    · subst h1
      by_cases h2 : c ∈ L <;> simp [h2]
    · have hne : (c == a) = false := by simpa using h1
      by_cases h2 : c ∈ L <;> simp [h1, hne, h2]

theorem clearBarriers_height (L : List Coord) : ∀ (cw : Crossword),
    ((L.foldl (fun c coord => c.SetBarrier false coord false) cw)).height = cw.height := by
  induction L with
  | nil => intro cw; rfl
  | cons a L ih => intro cw; rw [List.foldl_cons, ih, SetBarrierNS_height]

theorem clearBarriers_width (L : List Coord) : ∀ (cw : Crossword),
    ((L.foldl (fun c coord => c.SetBarrier false coord false) cw)).width = cw.width := by
  induction L with
  | nil => intro cw; rfl
  | cons a L ih => intro cw; rw [List.foldl_cons, ih, SetBarrierNS_width]

theorem applyL_cons (s : SetAction) (l : List SetAction) (cw : Crossword) :
    applyL (s :: l) cw = applyL l (s.Apply cw) := rfl

theorem Set__contents_at (v : Atom) (co : Coord) (cw : Crossword) (c : Coord) :
    ((cw.Set_ v co).grid c).contents = v ∨ (cw.Set_ v co).grid c = cw.grid c := by
  unfold Crossword.Set_
  split
  · simp only
    split
    · left; rfl
    · right; rfl
  · right; rfl

theorem applyL_grid_ne (l : List SetAction) (c : Coord) :
    ∀ (cw : Crossword), (∀ s ∈ l, s.coord ≠ c) → (applyL l cw).grid c = cw.grid c := by
  induction l with
  | nil => intro cw _; rfl
  | cons s l ih =>
    intro cw hs
    rw [applyL_cons, ih _ (fun x hx => hs x (by simp [hx]))]
    exact Set__grid_ne _ _ _ _ (fun hc => hs s (by simp) (hc ▸ rfl))

theorem applyZero_preserve (acts : List SetAction) (c : Coord)
    (hz : ∀ s ∈ acts, s.new_value = 0) :
    ∀ (cw : Crossword), ((cw.grid c).contents = 0) →
    (((applyL acts cw).grid c).contents = 0) := by
  induction acts with
  | nil => intro cw h; exact h
  | cons s l ih =>
    intro cw h
    rw [applyL_cons]
    refine ih (fun x hx => hz x (by simp [hx])) (s.Apply cw) ?_
    rcases Set__contents_at s.new_value s.coord cw c with h1 | h1
    · rw [show SetAction.Apply s cw = cw.Set_ s.new_value s.coord from rfl, h1,
        hz s (by simp)]
    · rw [show SetAction.Apply s cw = cw.Set_ s.new_value s.coord from rfl, h1, h]

theorem applyZero_mem (g0 : Coord → Cell) (L : List Coord) (c : Coord)
    (hbc : (g0 c).is_barrier = false) :
    ∀ (cw : Crossword),
    (∀ x, ((cw.grid x).is_barrier) = (g0 x).is_barrier) →
    (cw.InBounds c = true) → c ∈ L →
    (((applyL (L.filterMap (fun x =>
        if !(g0 x).is_barrier then some (⟨0, (g0 x).contents, x⟩ : SetAction) else none)) cw).grid c).contents = 0) := by
  induction L with
  | nil => intro cw _ _ hmem; simp at hmem
  | cons a L ih =>
    intro cw hbar hin hmem
    rw [List.filterMap_cons]
    by_cases hba : (g0 a).is_barrier = true
    · rw [if_neg (by simp [hba])]
      rcases List.mem_cons.mp hmem with h1 | h1
      · subst h1; rw [hba] at hbc; exact absurd hbc (by simp)
      · exact ih cw hbar hin h1
    · have hbaf : (g0 a).is_barrier = false := by simpa using hba
      rw [if_pos (by simp [hbaf])]
      rw [applyL_cons]
      have hbar' : ∀ x, (((⟨0, (g0 a).contents, a⟩ : SetAction).Apply cw).grid x).is_barrier
          = (g0 x).is_barrier := fun x => by
        rw [show SetAction.Apply (⟨0, (g0 a).contents, a⟩ : SetAction) cw
          = cw.Set_ 0 a from rfl, Set__barrier, hbar]
      have hin' : ((⟨0, (g0 a).contents, a⟩ : SetAction).Apply cw).InBounds c = true := by
        rw [show SetAction.Apply (⟨0, (g0 a).contents, a⟩ : SetAction) cw
          = cw.Set_ 0 a from rfl]
        unfold Crossword.InBounds at hin ⊢
        rw [Set__height, Set__width]
        exact hin
      rcases List.mem_cons.mp hmem with h1 | h1
      · subst h1
        refine applyZero_preserve _ c ?_ _ ?_
        · intro s hs
          rcases List.mem_filterMap.mp hs with ⟨x, _, hx2⟩
          by_cases hb2 : (!(g0 x).is_barrier) = true
          · rw [if_pos hb2] at hx2
            cases hx2; rfl
          · rw [if_neg hb2] at hx2; cases hx2
        · rw [show SetAction.Apply (⟨0, (g0 c).contents, c⟩ : SetAction) cw
            = cw.Set_ 0 c from rfl]
          refine Set__contents_self 0 c cw ?_
          rw [hbar c, hbc]
          simp only [Bool.not_false, Bool.and_true]
          exact hin
      · exact ih _ hbar' hin' h1

theorem clearAtoms_contents (cw : Crossword) (c : Coord)
    (hbc : (cw.grid c).is_barrier = false) (hin : cw.InBounds c = true) :
    (cw.ClearAtoms.grid c).contents = 0 := by
  unfold Crossword.ClearAtoms
  refine applyZero_mem cw.grid _ c hbc cw (fun _ => rfl) hin ?_
  rw [mem_rowMajorCoords]
  unfold Crossword.InBounds at hin
  simpa using hin

theorem clearAtoms_grid_ne (cw : Crossword) (c : Coord)
    (hout : ¬ (c.row < cw.height ∧ c.col < cw.width)) :
    cw.ClearAtoms.grid c = cw.grid c := by
  unfold Crossword.ClearAtoms
  refine applyL_grid_ne _ c cw ?_
  intro s hs
  rcases List.mem_filterMap.mp hs with ⟨x, hx1, hx2⟩
  by_cases hb2 : (!(cw.grid x).is_barrier) = true
  · rw [if_pos hb2] at hx2
    cases hx2
    intro hc
    subst hc
    exact hout ((mem_rowMajorCoords _ _ _).mp hx1)
  · rw [if_neg hb2] at hx2; cases hx2

theorem clearAtoms_height (cw : Crossword) : cw.ClearAtoms.height = cw.height :=
  applyL_height _ _

theorem clearAtoms_width (cw : Crossword) : cw.ClearAtoms.width = cw.width :=
  applyL_width _ _

theorem clearAtoms_barrier (cw : Crossword) (c : Coord) :
    (cw.ClearAtoms.grid c).is_barrier = (cw.grid c).is_barrier :=
  applyL_barrier _ _ _

/-- Effect of parsing one serialized cell character onto the current cell: a
barrier mark sets the barrier bit, a blank leaves the cell, a letter writes its
atom code. -/
def upd (src cur : Cell) : Cell :=
  if src.is_barrier then { cur with is_barrier := true }
  else if src.contents = 0 then cur
  else { cur with contents := src.contents }

theorem Set_height (v : Atom) (q : Coord) (cw : Crossword) :
    (cw.Set v q).height = cw.height := by
  unfold Crossword.Set
  split
  · exact Set__height _ _ _
  · rfl

theorem Set_width (v : Atom) (q : Coord) (cw : Crossword) :
    (cw.Set v q).width = cw.width := by
  unfold Crossword.Set
  split
  · exact Set__width _ _ _
  · rfl

theorem Set_grid_ne (v : Atom) (q : Coord) (cw : Crossword) (c : Coord) (h : c ≠ q) :
    (cw.Set v q).grid c = cw.grid c := by
  unfold Crossword.Set
  split
  · exact Set__grid_ne _ _ _ _ h
  · rfl

theorem Set_grid_self (v : Atom) (q : Coord) (cw : Crossword)
    (hg : (cw.InBounds q && !(cw.grid q).is_barrier) = true) :
    (cw.Set v q).grid q = { cw.grid q with contents := v } := by
  unfold Crossword.Set
  rw [if_pos hg]
  exact Set__grid_self _ _ _ hg

theorem parseRowGo_height (row : Nat) :
    ∀ (chars : List Ch) (col : Nat) (cw : Crossword),
    (parseRowGo row chars col cw).height = cw.height := by
  intro chars
  induction chars with
  | nil => intro col cw; rfl
  | cons ch rest ih =>
    intro col cw
    unfold parseRowGo
    split
    · exact ih col cw
    · split
      · rw [ih, SetBarrierNS_height]
      · split
        · rw [ih, Set_height]
        · exact ih _ cw

theorem parseRowGo_width (row : Nat) :
    ∀ (chars : List Ch) (col : Nat) (cw : Crossword),
    (parseRowGo row chars col cw).width = cw.width := by
  intro chars
  induction chars with
  | nil => intro col cw; rfl
  | cons ch rest ih =>
    intro col cw
    unfold parseRowGo
    split
    · exact ih col cw
    · split
      · rw [ih, SetBarrierNS_width]
      · split
        · rw [ih, Set_width]
        · exact ih _ cw

theorem parseRowGo_untouched (row : Nat) (c : Coord) :
    ∀ (chars : List Ch) (col : Nat) (cw : Crossword),
    (c.row ≠ row ∨ c.col < col) →
    (parseRowGo row chars col cw).grid c = cw.grid c := by
  intro chars
  induction chars with
  | nil => intro col cw _; rfl
  | cons ch rest ih =>
    intro col cw hc
    have hcc : c ≠ (⟨row, col⟩ : Coord) := by
      intro h
      rcases hc with h1 | h1
      · exact h1 (by rw [h])
      · rw [h] at h1; exact absurd h1 (by simp)
    have hc' : c.row ≠ row ∨ c.col < col + 1 := by
      rcases hc with h1 | h1
      · exact Or.inl h1
      · exact Or.inr (Nat.lt_succ_of_lt h1)
    unfold parseRowGo
    split
    · exact ih col cw hc
    · split
      · rw [ih _ _ hc', SetBarrierNS_grid]
        simp only [show (c == (⟨row, col⟩ : Coord)) = false from by simpa using hcc]
        simp
      · split
        · rw [ih _ _ hc', Set_grid_ne _ _ _ _ hcc]
        · exact ih _ cw hc'

theorem parseRowGo_delim (row : Nat) (rest : List Ch) (col : Nat) (cw : Crossword) :
    parseRowGo row (44 :: rest) col cw = parseRowGo row rest col cw := rfl

theorem parseRowGo_barrier_ch (row : Nat) (rest : List Ch) (col : Nat) (cw : Crossword) :
    parseRowGo row (45 :: rest) col cw
      = parseRowGo row rest (col + 1) (cw.SetBarrier true ⟨row, col⟩ false) := rfl

theorem parseRowGo_blank (row : Nat) (rest : List Ch) (col : Nat) (cw : Crossword) :
    parseRowGo row (32 :: rest) col cw = parseRowGo row rest (col + 1) cw := rfl

theorem parseRowGo_letter (row a : Nat) (rest : List Ch) (col : Nat) (cw : Crossword) :
    parseRowGo row ((64 + a) :: rest) col cw
      = parseRowGo row rest (col + 1) (cw.Set a ⟨row, col⟩) := by
  have h44 : ((64 + a == 44) = true) → False := by simp; omega
  have h45 : ((64 + a == 45) = true) → False := by simp; omega
  have h32 : ((64 + a != 32) = true) := by simp; omega
  conv_lhs => unfold parseRowGo
  rw [if_neg h44, if_neg h45, if_pos h32,
    show 64 + a - 64 = a from by omega]

theorem parseRow_step (g0 : Coord → Cell) (row j : Nat) (rest : List Ch) (cw : Crossword)
    (hrow : row < cw.height) (hj : j < cw.width)
    (hbar : (cw.grid ⟨row, j⟩).is_barrier = false) :
    ∃ cw', parseRowGo row (cellChar (g0 ⟨row, j⟩) :: 44 :: rest) j cw
        = parseRowGo row rest (j + 1) cw'
      ∧ cw'.height = cw.height ∧ cw'.width = cw.width
      ∧ cw'.grid = fun c => if c = (⟨row, j⟩ : Coord)
          then upd (g0 ⟨row, j⟩) (cw.grid c) else cw.grid c := by
  by_cases hb : (g0 ⟨row, j⟩).is_barrier = true
  · refine ⟨cw.SetBarrier true ⟨row, j⟩ false, ?_, rfl, rfl, ?_⟩
    · rw [show cellChar (g0 ⟨row, j⟩) = 45 from by simp [cellChar, hb],
        parseRowGo_barrier_ch, parseRowGo_delim]
    · rw [SetBarrierNS_grid]
      funext c
      by_cases hc : c = (⟨row, j⟩ : Coord)
      · subst hc
        rw [if_pos rfl]
        simp only [beq_self_eq_true, if_true]
        unfold upd
        rw [if_pos hb]
      · rw [if_neg hc]
        simp only [show (c == (⟨row, j⟩ : Coord)) = false from by simpa using hc]
        simp
  · have hbf : (g0 ⟨row, j⟩).is_barrier = false := by simpa using hb
    by_cases h0 : (g0 ⟨row, j⟩).contents = 0
    · refine ⟨cw, ?_, rfl, rfl, ?_⟩
      · rw [show cellChar (g0 ⟨row, j⟩) = 32 from by simp [cellChar, hbf, h0],
          parseRowGo_blank, parseRowGo_delim]
      · funext c
        by_cases hc : c = (⟨row, j⟩ : Coord)
        · subst hc
          rw [if_pos rfl]
          unfold upd
          rw [if_neg (by simp [hbf]), if_pos h0]
        · rw [if_neg hc]
    · refine ⟨cw.Set ((g0 ⟨row, j⟩).contents) ⟨row, j⟩, ?_, Set_height _ _ _,
        Set_width _ _ _, ?_⟩
      · rw [show cellChar (g0 ⟨row, j⟩) = 64 + (g0 ⟨row, j⟩).contents from by
          simp [cellChar, hbf, h0],
          parseRowGo_letter _ _ _ _ _, parseRowGo_delim]
      · funext c
        by_cases hc : c = (⟨row, j⟩ : Coord)
        · subst hc
          rw [if_pos rfl]
          have hg : (cw.InBounds ⟨row, j⟩ && !(cw.grid ⟨row, j⟩).is_barrier) = true := by
            unfold Crossword.InBounds
            simp [hrow, hj, hbar]
          rw [Set_grid_self _ _ _ hg]
          unfold upd
          rw [if_neg (by simp [hbf]), if_neg h0]
        · rw [if_neg hc, Set_grid_ne _ _ _ _ hc]

theorem parseRowGo_full (g0 : Coord → Cell) (row : Nat) :
    ∀ (n j : Nat) (cw : Crossword),
    row < cw.height → j + n ≤ cw.width →
    (∀ k, j ≤ k → k < j + n → (cw.grid ⟨row, k⟩).is_barrier = false) →
    (parseRowGo row ((List.range' j n).flatMap
        (fun k => [cellChar (g0 ⟨row, k⟩), 44])) j cw).grid
      = fun c => if c.row = row ∧ j ≤ c.col ∧ c.col < j + n
          then upd (g0 c) (cw.grid c) else cw.grid c := by
  intro n
  induction n with
  | zero =>
    intro j cw _ _ _
    funext c
    rw [show List.range' j 0 = [] from rfl]
    rw [if_neg (by rintro ⟨_, h1, h2⟩; omega)]
    rfl
  | succ n ih =>
    intro j cw hrow hwidth hbar
    rw [show List.range' j (n + 1) = j :: List.range' (j + 1) n from rfl,
      List.flatMap_cons]
    obtain ⟨cw', heq, hh, hw, hg⟩ := parseRow_step g0 row j
      ((List.range' (j + 1) n).flatMap (fun k => [cellChar (g0 ⟨row, k⟩), 44])) cw
      hrow (by omega) (hbar j (by omega) (by omega))
    rw [show ([cellChar (g0 ⟨row, j⟩), 44] ++
        (List.range' (j + 1) n).flatMap (fun k => [cellChar (g0 ⟨row, k⟩), 44]))
      = cellChar (g0 ⟨row, j⟩) :: 44 ::
        (List.range' (j + 1) n).flatMap (fun k => [cellChar (g0 ⟨row, k⟩), 44]) from rfl,
      heq]
    rw [ih (j + 1) cw' (by omega) (by omega) (by
      intro k hk1 hk2
      rw [hg]
      simp only
      rw [if_neg (by intro hcon; rw [Coord.mk.injEq] at hcon; omega)]
      exact hbar k (by omega) (by omega))]
    funext c
    by_cases hc : c = (⟨row, j⟩ : Coord)
    · subst hc
      simp only
      rw [if_neg (by rintro ⟨_, h1, _⟩; omega)]
      rw [hg]
      simp only [if_pos rfl]
      simp only [true_and]
      rw [if_pos (show j ≤ j ∧ j < j + (n + 1) from ⟨le_refl j, by omega⟩)]
      simp
    · have hgc : cw'.grid c = cw.grid c := by rw [hg]; simp only; rw [if_neg hc]
      by_cases hin : c.row = row ∧ j + 1 ≤ c.col ∧ c.col < j + 1 + n
      · rw [if_pos hin, hgc, if_pos ⟨hin.1, by omega, by omega⟩]
      · rw [if_neg hin, hgc]
        rw [if_neg (by
          rintro ⟨h1, h2, h3⟩
          apply hin
          have hcol : c.col ≠ j := by
            intro hcj
            apply hc
            cases c
            simp only [Coord.mk.injEq]
            exact ⟨h1, hcj⟩
          exact ⟨h1, by omega, by omega⟩)]

theorem parseRows_full (g0 : Coord → Cell) (W : Nat) (lines : List (List Ch)) :
    ∀ (m i : Nat) (cw : Crossword),
    i + m ≤ cw.height → W = cw.width →
    (∀ r, i ≤ r → r < i + m → lines.getD (2 + r) [] = rowChars g0 W r) →
    (∀ r k, i ≤ r → r < i + m → k < W → (cw.grid ⟨r, k⟩).is_barrier = false) →
    (((List.range' i m).foldl
        (fun c r => parseRowGo r (lines.getD (2 + r) []) 0 c) cw).grid
      = fun c => if i ≤ c.row ∧ c.row < i + m ∧ c.col < W
          then upd (g0 c) (cw.grid c) else cw.grid c)
    ∧ ((List.range' i m).foldl
        (fun c r => parseRowGo r (lines.getD (2 + r) []) 0 c) cw).height = cw.height
    ∧ ((List.range' i m).foldl
        (fun c r => parseRowGo r (lines.getD (2 + r) []) 0 c) cw).width = cw.width := by
  intro m
  induction m with
  | zero =>
    intro i cw _ _ _ _
    refine ⟨?_, rfl, rfl⟩
    funext c
    rw [show List.range' i 0 = [] from rfl]
    rw [if_neg (by rintro ⟨h1, h2, _⟩; omega)]
    rfl
  | succ m ih =>
    intro i cw hht hwd hlines hbar
    rw [show List.range' i (m + 1) = i :: List.range' (i + 1) m from rfl,
      List.foldl_cons]
    have hline := hlines i (le_refl i) (by omega)
    have hrowfull := parseRowGo_full g0 i W 0 cw (by omega) (by omega)
      (fun k _ hk2 => hbar i k (le_refl i) (by omega) (by omega))
    have hrc : rowChars g0 W i = (List.range' 0 W).flatMap
        (fun k => [cellChar (g0 ⟨i, k⟩), 44]) := by
      unfold rowChars
      rw [List.range_eq_range']
    have hgR : (parseRowGo i (lines.getD (2 + i) []) 0 cw).grid
        = fun c => if c.row = i ∧ 0 ≤ c.col ∧ c.col < 0 + W
            then upd (g0 c) (cw.grid c) else cw.grid c := by
      rw [hline, hrc]
      exact hrowfull
    have hhR : (parseRowGo i (lines.getD (2 + i) []) 0 cw).height = cw.height :=
      parseRowGo_height _ _ _ _
    have hwR : (parseRowGo i (lines.getD (2 + i) []) 0 cw).width = cw.width :=
      parseRowGo_width _ _ _ _
    obtain ⟨hgrid, hh2, hw2⟩ := ih (i + 1) (parseRowGo i (lines.getD (2 + i) []) 0 cw)
      (by omega) (by rw [hwR]; exact hwd)
      (fun r hr1 hr2 => hlines r (by omega) (by omega))
      (by
        intro r k hr1 hr2 hk
        rw [hgR]
        simp only
        rw [if_neg (by rintro ⟨h1, _, _⟩; omega)]
        exact hbar r k (by omega) (by omega) hk)
    refine ⟨?_, by rw [hh2, hhR], by rw [hw2, hwR]⟩
    rw [hgrid]
    funext c
    by_cases hcrow : c.row = i
    · rw [if_neg (by rintro ⟨h1, _, _⟩; omega)]
      rw [hgR]
      simp only
      by_cases hcol : c.col < W
      · rw [if_pos ⟨hcrow, by omega, by omega⟩, if_pos ⟨by omega, by omega, hcol⟩]
      · rw [if_neg (by rintro ⟨_, _, h3⟩; omega),
          if_neg (by rintro ⟨_, _, h3⟩; omega)]
    · have hgRc : (parseRowGo i (lines.getD (2 + i) []) 0 cw).grid c = cw.grid c := by
        rw [hgR]
        simp only
        rw [if_neg (by rintro ⟨h1, _, _⟩; omega)]
      by_cases hin : i + 1 ≤ c.row ∧ c.row < i + 1 + m ∧ c.col < W
      · rw [if_pos hin, hgRc, if_pos ⟨by omega, by omega, hin.2.2⟩]
      · rw [if_neg hin, hgRc, if_neg (by rintro ⟨h1, h2, h3⟩; exact hin ⟨by omega, by omega, h3⟩)]

theorem SetDimensions_pos (h w : Nat) (cw : Crossword) (h1 : 2 < h) (h2 : h ≤ kMAX_DIM)
    (h3 : 2 < w) (h4 : w ≤ kMAX_DIM) :
    cw.SetDimensions h w = Crossword.PopulateClueStructure
      { cw.DirtyClueStructure with height := h, width := w } := by
  unfold Crossword.SetDimensions
  rw [if_pos (by simp [h1, h2, h3, h4])]

/-- C9: for every crossword whose dimensions are in the legal range and whose
cells hold representable atoms (codes at most 26 - true of every reachable
state), Unserialize applied to the lines of Serialize restores the height, the
width, every live cell's barrier flag, and the contents of every live open
cell (hints and locks are outside the format). -/
theorem C9_serialize_roundtrip (cw : Crossword)
    (hh1 : 2 < cw.height) (hh2 : cw.height ≤ kMAX_DIM)
    (hw1 : 2 < cw.width) (hw2 : cw.width ≤ kMAX_DIM)
    (hatoms : ∀ c, (cw.grid c).contents ≤ 26) :
    ((cw.Unserialize cw.Serialize).height = cw.height) ∧
    ((cw.Unserialize cw.Serialize).width = cw.width) ∧
    (∀ c : Coord, c.row < cw.height → c.col < cw.width →
      ((cw.Unserialize cw.Serialize).grid c).is_barrier = (cw.grid c).is_barrier ∧
      ((cw.grid c).is_barrier = false →
        ((cw.Unserialize cw.Serialize).grid c).contents = (cw.grid c).contents)) := by
  have hrw : cw.Unserialize cw.Serialize
      = (List.range (stoiChars (cw.Serialize.getD 1 []))).foldl
          (fun c i => parseRowGo i (cw.Serialize.getD (2 + i) []) 0 c)
          ((((rowMajorCoords cw.height cw.width).foldl
              (fun c coord => c.SetBarrier false coord false) cw).ClearAtoms).SetDimensions
            (stoiChars (cw.Serialize.getD 1 []))
            (stoiChars (cw.Serialize.getD 0 []))) := rfl
  have hget0 : cw.Serialize.getD 0 [] = natChars cw.width := rfl
  have hget1 : cw.Serialize.getD 1 [] = natChars cw.height := rfl
  rw [hget0, hget1, stoiChars_natChars, stoiChars_natChars] at hrw
  have hA_grid := clearBarriers_grid (rowMajorCoords cw.height cw.width) cw
  have hA_h := clearBarriers_height (rowMajorCoords cw.height cw.width) cw
  have hA_w := clearBarriers_width (rowMajorCoords cw.height cw.width) cw
  set cwA := (rowMajorCoords cw.height cw.width).foldl
    (fun c coord => c.SetBarrier false coord false) cw with hcwA
  have hA_bar : ∀ c : Coord, c.row < cw.height → c.col < cw.width →
      (cwA.grid c).is_barrier = false := by
    intro c h1 h2
    rw [hA_grid]
    simp only
    rw [if_pos ((mem_rowMajorCoords _ _ _).mpr ⟨h1, h2⟩)]
  have hA_cont : ∀ c : Coord, (cwA.grid c).contents = (cw.grid c).contents := by
    intro c
    rw [hA_grid]
    simp only
    by_cases hm : c ∈ rowMajorCoords cw.height cw.width
    · rw [if_pos hm]
    · rw [if_neg hm]
  set cwB := cwA.ClearAtoms with hcwB
  have hB_h : cwB.height = cw.height := by rw [hcwB, clearAtoms_height, hA_h]
  have hB_w : cwB.width = cw.width := by rw [hcwB, clearAtoms_width, hA_w]
  have hB_bar : ∀ c : Coord, c.row < cw.height → c.col < cw.width →
      (cwB.grid c).is_barrier = false := by
    intro c h1 h2
    rw [hcwB, clearAtoms_barrier]
    exact hA_bar c h1 h2
  have hB_cont : ∀ c : Coord, c.row < cw.height → c.col < cw.width →
      (cwB.grid c).contents = 0 := by
    intro c h1 h2
    rw [hcwB]
    refine clearAtoms_contents cwA c (hA_bar c h1 h2) ?_
    unfold Crossword.InBounds
    rw [hA_h, hA_w]
    simp [h1, h2]
  have hdimeq := SetDimensions_pos cw.height cw.width cwB hh1 hh2 hw1 hw2
  have hC_g : (cwB.SetDimensions cw.height cw.width).grid = cwB.grid := by
    rw [hdimeq]; rfl
  have hC_h : (cwB.SetDimensions cw.height cw.width).height = cw.height := by
    rw [hdimeq]; rfl
  have hC_w : (cwB.SetDimensions cw.height cw.width).width = cw.width := by
    rw [hdimeq]; rfl
  set cwC := cwB.SetDimensions cw.height cw.width with hcwC
  have hlines : ∀ r, 0 ≤ r → r < 0 + cw.height →
      cw.Serialize.getD (2 + r) [] = rowChars cw.grid cw.width r := by
    intro r _ hr2
    have hr : r < cw.height := by omega
    show ((natChars cw.width :: natChars cw.height ::
      (List.range cw.height).map (fun i => rowChars cw.grid cw.width i))).getD (2 + r) []
      = rowChars cw.grid cw.width r
    rw [show 2 + r = (r + 1) + 1 from by omega, List.getD_cons_succ, List.getD_cons_succ]
    rw [List.getD_eq_getElem?_getD, List.getElem?_map, List.getElem?_range hr]
    rfl
  obtain ⟨hD_grid, hD_h, hD_w⟩ := parseRows_full cw.grid cw.width cw.Serialize
    cw.height 0 cwC (by omega) (by rw [hC_w])
    hlines
    (by
      intro r k hr1 hr2 hk
      rw [hcwC, hC_g]
      exact hB_bar ⟨r, k⟩ (by simpa using hr2) hk)
  rw [hrw]
  rw [List.range_eq_range']
  refine ⟨by rw [hD_h, hC_h], by rw [hD_w, hC_w], ?_⟩
  intro c hr hc
  rw [hD_grid]
  simp only
  rw [if_pos ⟨Nat.zero_le _, by omega, hc⟩]
  rw [hC_g]
  have hbB := hB_bar c hr hc
  have hcB := hB_cont c hr hc
  unfold upd
  by_cases hsrc : (cw.grid c).is_barrier = true
  · rw [if_pos hsrc]
    constructor
    · rw [hsrc]
    · intro hcon
      rw [hsrc] at hcon
      exact absurd hcon (by simp)
  · have hsrcf : (cw.grid c).is_barrier = false := by simpa using hsrc
    rw [if_neg hsrc]
    by_cases h0 : (cw.grid c).contents = 0
    · rw [if_pos h0]
      exact ⟨by rw [hbB, hsrcf], fun _ => by rw [hcB, h0]⟩
    · rw [if_neg h0]
      exact ⟨by rw [hbB, hsrcf], fun _ => rfl⟩

/-- Concrete crossword for the C9 witness: 3 by 3 with one barrier at (0,0)
and the letter C at (1,1). -/
def c9cw : Crossword :=
  { grid := fun c => if c = ⟨0, 0⟩ then ⟨true, false, 0⟩
      else if c = ⟨1, 1⟩ then ⟨false, false, 3⟩ else Cell.init
    height := 3
    width := 3
    clue_cache := ⟨[], fun _ => kNO_NUMBER, fun _ => [], false⟩
    stack := []
    stack_index := 0 }

/-- Witness for C9 on the concrete 3 by 3 crossword. -/
theorem C9_serialize_roundtrip_witness :
    ((c9cw.Unserialize c9cw.Serialize).height = c9cw.height) ∧
    ((c9cw.Unserialize c9cw.Serialize).width = c9cw.width) ∧
    (∀ c : Coord, c.row < c9cw.height → c.col < c9cw.width →
      ((c9cw.Unserialize c9cw.Serialize).grid c).is_barrier = (c9cw.grid c).is_barrier ∧
      ((c9cw.grid c).is_barrier = false →
        ((c9cw.Unserialize c9cw.Serialize).grid c).contents = (c9cw.grid c).contents)) :=
  C9_serialize_roundtrip c9cw (by decide) (by decide) (by decide) (by decide)
    (by
      intro c
      show (c9cw.grid c).contents ≤ 26
      unfold c9cw
      by_cases h1 : c = (⟨0, 0⟩ : Coord)
      · simp [h1]
      · by_cases h2 : c = (⟨1, 1⟩ : Coord) <;> simp [h1, h2, Cell.init])

/-! ## Claim C10: the clue cache is always clean and fresh (crossword.cpp) -/

/-- Crossword::Clues (crossword.cpp): a plain read of the cache (the C++
asserts `dirty == false` and never rebuilds here). -/
def Crossword.Clues (cw : Crossword) : List Clue :=
  cw.clue_cache.clues

/-- Crossword::CluesStartingAt (crossword.cpp): copies of the clues listed in
`cell_mapping` at the coordinate; again a plain guarded read. -/
def Crossword.CluesStartingAt (cw : Crossword) (coord : Coord) : List Clue :=
  (cw.clue_cache.cell_mapping coord).filterMap (fun i => cw.clue_cache.clues.get? i)

/-- Crossword::GetClueNumber (crossword.cpp): a plain guarded read of the
numbering. -/
def Crossword.GetClueNumber (cw : Crossword) (coord : Coord) : Int :=
  cw.clue_cache.numberings coord

/-- Constraint refresh of one clue against a grid: what the cached clue must
equal if its mirrored constraints are up to date. -/
def updCl (g : Coord → Cell) (cl : Clue) : Clue :=
  { cl with constraints := cl.coord_list.map (fun c => (g c).contents) }

/-- The public operations the claim ranges over: cell edits (single and
grouped), undo/redo, barrier toggles and writes, and dimension changes. -/
inductive CwOp where
  | setCell (val : Atom) (coord : Coord)
  | setClue (clue : Clue) (word : Word)
  | clearClue (clue : Clue)
  | clearAtoms
  | undo
  | redo
  | toggleBarrier (coord : Coord) (sym : Bool)
  | setBarrier (val : Bool) (coord : Coord) (sym : Bool)
  | setDims (h w : Nat)

/-- Dispatch of one public operation. -/
def CwOp.run (op : CwOp) (cw : Crossword) : Crossword :=
  match op with
  | .setCell v q => cw.Set v q
  | .setClue cl wd => cw.SetClue cl wd
  | .clearClue cl => cw.ClearClue cl
  | .clearAtoms => cw.ClearAtoms
  | .undo => cw.Undo
  | .redo => cw.Redo
  | .toggleBarrier q sym => cw.ToggleBarrier q sym
  | .setBarrier v q sym => cw.SetBarrier v q sym
  | .setDims h w => cw.SetDimensions h w

/-- A reachable state: any sequence of public operations from construction. -/
def runOps (ops : List CwOp) : Crossword :=
  ops.foldl (fun cw op => op.run cw) initialCrossword

/-- The cache invariant: clean flag, clue list equal to a fresh recomputation,
numberings and cell mapping fresh on the live region, and (for the operations
considered, which never lock) every cell unlocked. -/
def CwInv (cw : Crossword) : Prop :=
  cw.clue_cache.dirty = false ∧
  cw.clue_cache.clues = Clues_ cw.grid cw.height cw.width ∧
  (∀ c : Coord, c.row < cw.height → c.col < cw.width →
    cw.clue_cache.numberings c = GetClueNumber_ (Clues_ cw.grid cw.height cw.width) c) ∧
  (∀ c : Coord, c.row < cw.height → c.col < cw.width →
    cw.clue_cache.cell_mapping c = CluesStartingAt_ (Clues_ cw.grid cw.height cw.width) c) ∧
  (∀ c : Coord, (cw.grid c).locked = false)

theorem runsSplitGo_map (isBar : Coord → Cell → Bool) (τ : Coord × Cell → Coord × Cell) :
    ∀ (l buf : List (Coord × Cell)),
    (∀ x ∈ l, isBar (τ x).1 (τ x).2 = isBar x.1 x.2) →
    runsSplitGo isBar (l.map τ) (buf.map τ)
      = (runsSplitGo isBar l buf).map (List.map τ) := by
  intro l
  induction l with
  | nil =>
    intro buf _
    unfold runsSplitGo
    by_cases hb : buf.isEmpty
    · have hbe : buf = [] := List.isEmpty_iff.mp hb
      subst hbe
      simp
    · have hbe : buf ≠ [] := fun h => hb (by simp [h])
      simp [hb, hbe]
  | cons x rest ih =>
    intro buf hbar
    rw [List.map_cons]
    unfold runsSplitGo
    rw [hbar x (by simp)]
    have hrest : ∀ y ∈ rest, isBar (τ y).1 (τ y).2 = isBar y.1 y.2 :=
      fun y hy => hbar y (by simp [hy])
    by_cases hx : isBar x.1 x.2 = true
    · rw [if_pos hx, if_pos hx]
      by_cases hb : buf.isEmpty
      · rw [if_pos (by simpa using hb), if_pos hb]
        exact ih [] hrest
      · rw [if_neg (by simpa using hb), if_neg hb]
        have hmap : runsSplitGo isBar (rest.map τ) (([] : List (Coord × Cell)).map τ)
            = (runsSplitGo isBar rest []).map (List.map τ) := ih [] hrest
        simp only [List.map_nil] at hmap
        rw [List.map_cons, ← List.map_reverse, hmap]
    · rw [if_neg hx, if_neg hx]
      rw [show (τ x :: buf.map τ) = (x :: buf).map τ from rfl]
      exact ih (x :: buf) hrest

theorem lineCells_map (g g' : Coord → Cell) (h w : Nat) (dir : WordDirection) (i : Nat) :
    lineCells g' h w dir i = (lineCells g h w dir i).map (fun x => (x.1, g' x.1)) := by
  unfold lineCells
  rw [List.map_map]
  rfl

theorem clueOfRun_map (dir : WordDirection) (g' : Coord → Cell)
    (run : List (Coord × Cell)) :
    clueOfRun dir (run.map (fun x => (x.1, g' x.1))) = updCl g' (clueOfRun dir run) := by
  unfold clueOfRun updCl
  cases run with
  | nil => rfl
  | cons hd tl =>
    simp [List.map_map]

theorem UnfilteredClues_map (g g' : Coord → Cell) (h w : Nat) (dir : WordDirection)
    (hbar : ∀ c, (g' c).is_barrier = (g c).is_barrier) :
    UnfilteredClues g' h w dir = (UnfilteredClues g h w dir).map (updCl g') := by
  unfold UnfilteredClues
  rw [List.map_flatMap]
  have hfun : (fun i => (runsSplit (fun _ cell => cell.is_barrier)
        (lineCells g' h w dir i)).map (clueOfRun dir))
      = (fun i => ((runsSplit (fun _ cell => cell.is_barrier)
        (lineCells g h w dir i)).map (clueOfRun dir)).map (updCl g')) := by
    funext i
    have hmem : ∀ x ∈ lineCells g h w dir i, x.2 = g x.1 := by
      intro x hx
      unfold lineCells at hx
      rcases List.mem_map.mp hx with ⟨k, _, rfl⟩
      rfl
    rw [lineCells_map g g' h w dir i]
    unfold runsSplit
    rw [show ([] : List (Coord × Cell))
        = ([] : List (Coord × Cell)).map (fun x => (x.1, g' x.1)) from rfl]
    rw [runsSplitGo_map (fun _ cell => cell.is_barrier) (fun x => (x.1, g' x.1))
      (lineCells g h w dir i) [] (by
        intro x hx
        simp only
        rw [hmem x hx, hbar])]
    rw [List.map_map, List.map_map]
    apply List.map_congr_left
    intro run _
    show clueOfRun dir (run.map (fun x => (x.1, g' x.1))) = updCl g' (clueOfRun dir run)
    exact clueOfRun_map dir g' run
  rw [hfun]

theorem all_congr_mem {α : Type} (l : List α) (f f' : α → Bool)
    (h : ∀ x ∈ l, f x = f' x) : l.all f = l.all f' := by
  induction l with
  | nil => rfl
  | cons a l ih =>
    rw [List.all_cons, List.all_cons, h a (by simp),
      ih (fun x hx => h x (by simp [hx]))]

theorem any_congr_mem {α : Type} (l : List α) (f f' : α → Bool)
    (h : ∀ x ∈ l, f x = f' x) : l.any f = l.any f' := by
  induction l with
  | nil => rfl
  | cons a l ih =>
    rw [List.any_cons, List.any_cons, h a (by simp),
      ih (fun x hx => h x (by simp [hx]))]

theorem setLockedFlag_comm (g g' : Coord → Cell) (cl : Clue)
    (hlkg : ∀ c, (g c).locked = false) (hlkg' : ∀ c, (g' c).locked = false) :
    setLockedFlag g' (updCl g' cl) = updCl g' (setLockedFlag g cl) := by
  unfold setLockedFlag updCl
  simp only
  rw [all_congr_mem cl.coord_list
    (fun c => (g' c).locked && !((g' c).contents == 0))
    (fun c => (g c).locked && !((g c).contents == 0))
    (fun c _ => by simp [hlkg c, hlkg' c])]

theorem assignNumbersGo_map (F : Clue → Clue)
    (hstart : ∀ cl, (F cl).start = cl.start)
    (hcomm : ∀ cl n, F { cl with clue_number := n } = { F cl with clue_number := n }) :
    ∀ (coords : List Coord) (cls : List Clue) (cn : Int),
    assignNumbersGo (cls.map F) cn coords = (assignNumbersGo cls cn coords).map F := by
  intro coords
  induction coords with
  | nil => intro cls cn; rfl
  | cons c rest ih =>
    intro cls cn
    unfold assignNumbersGo
    have hany : (cls.map F).any (fun cl => cl.start == c)
        = cls.any (fun cl => cl.start == c) := by
      rw [List.any_map]
      exact any_congr_mem cls _ _ (fun cl _ => by simp [hstart])
    rw [hany]
    by_cases ha : cls.any (fun cl => cl.start == c) = true
    · rw [if_pos ha, if_pos ha]
      have hmaps : (cls.map F).map (fun cl => if cl.start == c
            then { cl with clue_number := cn } else cl)
          = (cls.map (fun cl => if cl.start == c
            then { cl with clue_number := cn } else cl)).map F := by
        rw [List.map_map, List.map_map]
        apply List.map_congr_left
        intro cl _
        show (if (F cl).start == c then { F cl with clue_number := cn } else F cl)
          = F (if cl.start == c then { cl with clue_number := cn } else cl)
        rw [show ((F cl).start == c) = (cl.start == c) from by rw [hstart]]
        by_cases hc : (cl.start == c) = true
        · rw [if_pos hc, if_pos hc]
          exact (hcomm cl cn).symm
        · rw [if_neg hc, if_neg hc]
      rw [hmaps]
      exact ih _ (cn + 1)
    · rw [if_neg ha, if_neg ha]
      exact ih cls cn

theorem Clues_congr_update (g g' : Coord → Cell) (h w : Nat)
    (hbar : ∀ c, (g' c).is_barrier = (g c).is_barrier)
    (hlkg : ∀ c, (g c).locked = false) (hlkg' : ∀ c, (g' c).locked = false) :
    Clues_ g' h w = (Clues_ g h w).map (updCl g') := by
  have hAcr : (UnfilteredClues g' h w kACROSS).filter (fun cl => 3 ≤ cl.size)
      = ((UnfilteredClues g h w kACROSS).filter (fun cl => 3 ≤ cl.size)).map (updCl g') := by
    rw [UnfilteredClues_map g g' h w kACROSS hbar, List.filter_map]
    rfl
  have hDwn : (UnfilteredClues g' h w kDOWN).filter (fun cl => 3 ≤ cl.size)
      = ((UnfilteredClues g h w kDOWN).filter (fun cl => 3 ≤ cl.size)).map (updCl g') := by
    rw [UnfilteredClues_map g g' h w kDOWN hbar, List.filter_map]
    rfl
  show assignNumbersGo
      (((UnfilteredClues g' h w kACROSS).filter (fun cl => 3 ≤ cl.size)
        ++ (UnfilteredClues g' h w kDOWN).filter (fun cl => 3 ≤ cl.size)).map
        (setLockedFlag g')) 1 (rowMajorCoords h w)
    = (assignNumbersGo
      (((UnfilteredClues g h w kACROSS).filter (fun cl => 3 ≤ cl.size)
        ++ (UnfilteredClues g h w kDOWN).filter (fun cl => 3 ≤ cl.size)).map
        (setLockedFlag g)) 1 (rowMajorCoords h w)).map (updCl g')
  rw [hAcr, hDwn, ← List.map_append]
  rw [show (((UnfilteredClues g h w kACROSS).filter (fun cl => 3 ≤ cl.size) ++
        (UnfilteredClues g h w kDOWN).filter (fun cl => 3 ≤ cl.size)).map (updCl g')).map
        (setLockedFlag g')
      = (((UnfilteredClues g h w kACROSS).filter (fun cl => 3 ≤ cl.size) ++
        (UnfilteredClues g h w kDOWN).filter (fun cl => 3 ≤ cl.size)).map
        (setLockedFlag g)).map (updCl g') from by
    rw [List.map_map, List.map_map]
    apply List.map_congr_left
    intro cl _
    exact setLockedFlag_comm g g' cl hlkg hlkg']
  exact assignNumbersGo_map (updCl g') (fun _ => rfl) (fun _ _ => rfl) _ _ 1

theorem runsSplitGo_sublist (isBar : Coord → Cell → Bool) :
    ∀ (l buf : List (Coord × Cell)) (run : List (Coord × Cell)),
    run ∈ runsSplitGo isBar l buf → run.Sublist (buf.reverse ++ l) := by
  intro l
  induction l with
  | nil =>
    intro buf run hrun
    unfold runsSplitGo at hrun
    by_cases hb : buf.isEmpty
    · rw [if_pos hb] at hrun
      simp at hrun
    · rw [if_neg hb] at hrun
      have : run = buf.reverse := by simpa using hrun
      subst this
      simp
  | cons x rest ih =>
    intro buf run hrun
    unfold runsSplitGo at hrun
    by_cases hx : isBar x.1 x.2 = true
    · rw [if_pos hx] at hrun
      have hrest : run ∈ runsSplitGo isBar rest [] → run.Sublist (buf.reverse ++ x :: rest) := by
        intro hmem
        have h1 := ih [] run hmem
        simp only [List.reverse_nil, List.nil_append] at h1
        have h2 : run.Sublist (x :: rest) := h1.trans (List.sublist_cons_self x rest)
        exact h2.trans (List.sublist_append_right buf.reverse (x :: rest))
      by_cases hb : buf.isEmpty
      · rw [if_pos hb] at hrun
        exact hrest hrun
      · rw [if_neg hb] at hrun
        rcases List.mem_cons.mp hrun with h1 | h1
        · subst h1
          exact List.sublist_append_left _ _
        · exact hrest h1
    · rw [if_neg hx] at hrun
      have h1 := ih (x :: buf) run hrun
      rw [List.reverse_cons, List.append_assoc, List.singleton_append] at h1
      exact h1

theorem lineCells_snd (g : Coord → Cell) (h w : Nat) (dir : WordDirection) (i : Nat) :
    ∀ x ∈ lineCells g h w dir i, x.2 = g x.1 := by
  intro x hx
  unfold lineCells at hx
  rcases List.mem_map.mp hx with ⟨k, _, rfl⟩
  rfl

theorem lineCells_nodup (g : Coord → Cell) (h w : Nat) (dir : WordDirection) (i : Nat) :
    ((lineCells g h w dir i).map Prod.fst).Nodup := by
  unfold lineCells
  rw [List.map_map]
  by_cases hd : (dir == kDOWN) = true
  · simp only [hd, if_true]
    refine List.Nodup.map ?_ (List.nodup_range _)
    intro a b hab
    simpa [Coord.mk.injEq] using hab
  · simp only [hd]
    refine List.Nodup.map ?_ (List.nodup_range _)
    intro a b hab
    simpa [Coord.mk.injEq] using hab

theorem assignNumbersGo_forall (P : Clue → Prop)
    (hP : ∀ cl n, P cl → P { cl with clue_number := n }) :
    ∀ (coords : List Coord) (cls : List Clue) (cn : Int),
    (∀ cl ∈ cls, P cl) → ∀ cl ∈ assignNumbersGo cls cn coords, P cl := by
  intro coords
  induction coords with
  | nil => intro cls cn hcls; exact hcls
  | cons c rest ih =>
    intro cls cn hcls
    unfold assignNumbersGo
    by_cases ha : cls.any (fun cl => cl.start == c) = true
    · rw [if_pos ha]
      refine ih _ (cn + 1) ?_
      intro cl hcl
      rcases List.mem_map.mp hcl with ⟨cl0, hcl0, rfl⟩
      by_cases hc : (cl0.start == c) = true
      · rw [if_pos hc]
        exact hP cl0 cn (hcls cl0 hcl0)
      · rw [if_neg hc]
        exact hcls cl0 hcl0
    · rw [if_neg ha]
      exact ih cls cn hcls

theorem Clues_struct (g : Coord → Cell) (h w : Nat) :
    ∀ cl ∈ Clues_ g h w,
    cl.constraints = cl.coord_list.map (fun c => (g c).contents) ∧ cl.coord_list.Nodup := by
  have hUnf : ∀ (dir : WordDirection), ∀ cl ∈ UnfilteredClues g h w dir,
      cl.constraints = cl.coord_list.map (fun c => (g c).contents) ∧ cl.coord_list.Nodup := by
    intro dir cl hcl
    unfold UnfilteredClues at hcl
    rcases List.mem_flatMap.mp hcl with ⟨i, _, hin⟩
    rcases List.mem_map.mp hin with ⟨run, hrun, rfl⟩
    have hsub : run.Sublist (lineCells g h w dir i) := by
      have := runsSplitGo_sublist (fun _ cell => cell.is_barrier)
        (lineCells g h w dir i) [] run hrun
      simpa using this
    constructor
    · show run.map (fun x => x.2.contents)
        = (run.map (fun x => x.1)).map (fun c => (g c).contents)
      rw [List.map_map]
      apply List.map_congr_left
      intro x hx
      have := lineCells_snd g h w dir i x (hsub.subset hx)
      show x.2.contents = (g x.1).contents
      rw [this]
    · show (run.map (fun x => x.1)).Nodup
      exact ((hsub.map Prod.fst).nodup (lineCells_nodup g h w dir i))
  unfold Clues_
  refine assignNumbersGo_forall _ ?_ _ _ 1 ?_
  · intro cl n hcl
    exact hcl
  · intro cl hcl
    rcases List.mem_map.mp hcl with ⟨cl0, hcl0, rfl⟩
    rcases List.mem_append.mp hcl0 with h1 | h1
    · have := hUnf kACROSS cl0 (List.mem_of_mem_filter h1)
      exact this
    · have := hUnf kDOWN cl0 (List.mem_of_mem_filter h1)
      exact this

theorem get?_set' {α : Type} : ∀ (l : List α) (i : Nat) (a : α) (n : Nat),
    (l.set i a).get? n = if i = n ∧ i < l.length then some a else l.get? n := by
  intro l
  induction l with
  | nil => intro i a n; simp
  | cons x xs ih =>
    intro i a n
    cases i with
    | zero =>
      cases n with
      | zero => simp
      | succ n => simp
    | succ i =>
      cases n with
      | zero => simp
      | succ n =>
        rw [List.set_cons_succ, List.get?_cons_succ, List.get?_cons_succ, ih i a n]
        by_cases hc : i = n ∧ i < xs.length
        · rw [if_pos hc, if_pos (by simp only [List.length_cons]; omega)]
        · rw [if_neg hc, if_neg (by
            simp only [List.length_cons]
            rintro ⟨h1, h2⟩
            exact hc ⟨by omega, by omega⟩)]

theorem foldl_setIdx (F : Clue → Clue) (hFF : ∀ cl, F (F cl) = F cl) :
    ∀ (idxs : List Nat) (cls : List Clue) (n : Nat),
    ((idxs.foldl (fun acc i => match acc.get? i with
      | some cl => acc.set i (F cl)
      | none => acc) cls).get? n)
    = if n ∈ idxs then (cls.get? n).map F else cls.get? n := by
  intro idxs
  induction idxs with
  | nil => intro cls n; simp
  | cons i rest ih =>
    intro cls n
    rw [List.foldl_cons]
    cases hi : cls.get? i with
    | none =>
      simp only [hi]
      rw [ih cls n]
      by_cases hni : i = n
      · subst hni
        by_cases hn : i ∈ rest
        · rw [if_pos hn, if_pos (by simp [hn])]
        · rw [if_neg hn, if_pos (by simp), hi]
          rfl
      · by_cases hn : n ∈ rest
        · rw [if_pos hn, if_pos (by simp [hn])]
        · rw [if_neg hn, if_neg (by
            simp only [List.mem_cons, not_or]
            exact ⟨fun hcon => hni hcon.symm, hn⟩)]
    | some cl =>
      simp only [hi]
      rw [ih _ n, get?_set']
      have hilen : i < cls.length := by
        by_contra hcon
        rw [List.get?_eq_none.mpr (by omega)] at hi
        cases hi
      by_cases hn : n ∈ rest
      · rw [if_pos hn]
        by_cases hni : i = n
        · subst hni
          rw [if_pos ⟨rfl, hilen⟩, if_pos (by simp [hn]), hi]
          show some (F (F cl)) = some (F cl)
          rw [hFF]
        · rw [if_neg (by rintro ⟨h1, _⟩; exact hni h1), if_pos (by simp [hn])]
      · rw [if_neg hn]
        by_cases hni : i = n
        · subst hni
          rw [if_pos ⟨rfl, hilen⟩, if_pos (by simp), hi]
          rfl
        · rw [if_neg (by rintro ⟨h1, _⟩; exact hni h1),
            if_neg (by
              simp only [List.mem_cons, not_or]
              exact ⟨fun hcon => hni hcon.symm, hn⟩)]

theorem mem_CluesStartingAt_iff (cls : List Clue) (q : Coord) (n : Nat) :
    n ∈ CluesStartingAt_ cls q ↔ ∃ cl, cls.get? n = some cl ∧ q ∈ cl.coord_list := by
  unfold CluesStartingAt_
  rw [List.mem_flatMap]
  constructor
  · rintro ⟨p, hp, hin⟩
    rcases List.mem_map.mp hin with ⟨c0, hc0, rfl⟩
    refine ⟨p.2, ?_, ?_⟩
    · cases p
      exact List.mk_mem_enum_iff_get?.mp hp
    · have := List.mem_filter.mp hc0
      rcases this with ⟨hmem, heq⟩
      rw [show c0 = q from by simpa using heq] at hmem
      exact hmem
  · rintro ⟨cl, hget, hq⟩
    refine ⟨(n, cl), List.mk_mem_enum_iff_get?.mpr hget, ?_⟩
    rw [List.mem_map]
    exact ⟨q, List.mem_filter.mpr ⟨hq, by simp⟩, rfl⟩

theorem findIdx_set_map (q : Coord) (v : Atom) (f : Coord → Atom) :
    ∀ (coords : List Coord), coords.Nodup → q ∈ coords →
    ∃ i, coords.findIdx? (fun c => c == q) = some i ∧
    (coords.map f).set i v = coords.map (fun c => if c == q then v else f c) := by
  intro coords
  induction coords with
  | nil => intro _ h; simp at h
  | cons hd tl ih =>
    intro hnd hq
    by_cases hhd : (hd == q) = true
    · refine ⟨0, ?_, ?_⟩
      · rw [List.findIdx?_cons, if_pos hhd]
      · rw [List.map_cons, List.map_cons, List.set_cons_zero, if_pos hhd]
        have hnotin : q ∉ tl := by
          have h1 := (List.nodup_cons.mp hnd).1
          rw [show hd = q from by simpa using hhd] at h1
          exact h1
        congr 1
        apply List.map_congr_left
        intro c hc
        rw [if_neg (by
          intro hcon
          exact hnotin ((by simpa using hcon : c = q) ▸ hc))]
    · have hqtl : q ∈ tl := by
        rcases List.mem_cons.mp hq with h1 | h1
        · exact absurd (by simp [h1]) hhd
        · exact h1
      obtain ⟨i, hfind, hset⟩ := ih (List.nodup_cons.mp hnd).2 hqtl
      refine ⟨i + 1, ?_, ?_⟩
      · rw [List.findIdx?_cons, if_neg hhd, List.findIdx?_succ, hfind]
        rfl
      · rw [List.map_cons, List.map_cons, List.set_cons_succ, hset, if_neg hhd]

/-- The pointwise grid update Set_ performs. -/
def gUpd (g : Coord → Cell) (q : Coord) (v : Atom) : Coord → Cell :=
  fun c => if c == q then { g q with contents := v } else g c

theorem gUpd_contents (g : Coord → Cell) (q : Coord) (v : Atom) (c : Coord) :
    (gUpd g q v c).contents = if c == q then v else (g c).contents := by
  unfold gUpd
  by_cases h : (c == q) = true
  · rw [if_pos h, if_pos h]
  · rw [if_neg h, if_neg h]

theorem gUpd_barrier (g : Coord → Cell) (q : Coord) (v : Atom) (c : Coord) :
    (gUpd g q v c).is_barrier = (g c).is_barrier := by
  unfold gUpd
  by_cases h : (c == q) = true
  · rw [if_pos h, show c = q from by simpa using h]
  · rw [if_neg h]

theorem gUpd_locked (g : Coord → Cell) (q : Coord) (v : Atom) (c : Coord) :
    (gUpd g q v c).locked = (g c).locked := by
  unfold gUpd
  by_cases h : (c == q) = true
  · rw [if_pos h, show c = q from by simpa using h]
  · rw [if_neg h]

theorem SetConstraintIdx_coords (cl : Clue) (idx : Int) (v : Atom) :
    (cl.SetConstraintIdx idx v).coord_list = cl.coord_list := by
  unfold Clue.SetConstraintIdx
  split <;> rfl

theorem setIdx_idem (q : Coord) (v : Atom) (cl : Clue) :
    (cl.SetConstraintIdx (cl.IndexOfCoord q) v).SetConstraintIdx
      ((cl.SetConstraintIdx (cl.IndexOfCoord q) v).IndexOfCoord q) v
    = cl.SetConstraintIdx (cl.IndexOfCoord q) v := by
  have hco : (cl.SetConstraintIdx (cl.IndexOfCoord q) v).IndexOfCoord q
      = cl.IndexOfCoord q := by
    unfold Clue.IndexOfCoord
    rw [SetConstraintIdx_coords]
  rw [hco]
  unfold Clue.IndexOfCoord
  cases hfind : cl.coord_list.findIdx? (fun c => c == q) with
  | none =>
    unfold Clue.SetConstraintIdx
    rw [if_pos (by norm_num [kNO_NUMBER]), if_pos (by norm_num [kNO_NUMBER])]
  | some i =>
    unfold Clue.SetConstraintIdx
    rw [if_neg (by simp), if_neg (by simp)]
    simp only
    rw [List.set_set]

theorem F_eq_updCl_mem (g : Coord → Cell) (q : Coord) (v : Atom) (cl : Clue)
    (hc : cl.constraints = cl.coord_list.map (fun c => (g c).contents))
    (hnd : cl.coord_list.Nodup) (hq : q ∈ cl.coord_list) :
    cl.SetConstraintIdx (cl.IndexOfCoord q) v = updCl (gUpd g q v) cl := by
  obtain ⟨i, hfind, hset⟩ := findIdx_set_map q v (fun c => (g c).contents)
    cl.coord_list hnd hq
  unfold Clue.IndexOfCoord
  rw [hfind]
  unfold Clue.SetConstraintIdx
  rw [if_neg (by simp)]
  unfold updCl
  have hcon : cl.constraints.set ((i : Int)).toNat v
      = cl.coord_list.map (fun c => (gUpd g q v c).contents) := by
    rw [Int.toNat_natCast, hc, hset]
    apply List.map_congr_left
    intro c _
    rw [gUpd_contents]
  rw [hcon]

theorem F_id_not_mem (q : Coord) (v : Atom) (cl : Clue)
    (hq : q ∉ cl.coord_list) :
    cl.SetConstraintIdx (cl.IndexOfCoord q) v = cl := by
  unfold Clue.IndexOfCoord
  have hfind : cl.coord_list.findIdx? (fun c => c == q) = none := by
    rw [List.findIdx?_eq_none_iff]
    intro c hcm
    simp only [beq_eq_false_iff_ne, ne_eq]
    intro hcon
    exact hq (hcon ▸ hcm)
  rw [hfind]
  unfold Clue.SetConstraintIdx
  rw [if_pos (by norm_num [kNO_NUMBER])]

theorem updCl_id_not_mem (g : Coord → Cell) (q : Coord) (v : Atom) (cl : Clue)
    (hc : cl.constraints = cl.coord_list.map (fun c => (g c).contents))
    (hq : q ∉ cl.coord_list) :
    updCl (gUpd g q v) cl = cl := by
  unfold updCl
  have hcon : cl.coord_list.map (fun c => (gUpd g q v c).contents) = cl.constraints := by
    rw [hc]
    apply List.map_congr_left
    intro c hcm
    rw [gUpd_contents, if_neg (by
      intro hcon
      exact hq ((by simpa using hcon : c = q) ▸ hcm))]
  rw [hcon]

theorem clueFold_eq_map (g : Coord → Cell) (q : Coord) (v : Atom) (cls : List Clue)
    (hstruct : ∀ cl ∈ cls, cl.constraints = cl.coord_list.map (fun c => (g c).contents)
      ∧ cl.coord_list.Nodup) :
    (CluesStartingAt_ cls q).foldl (fun acc i => match acc.get? i with
      | some cl => acc.set i (cl.SetConstraintIdx (cl.IndexOfCoord q) v)
      | none => acc) cls
    = cls.map (updCl (gUpd g q v)) := by
  apply List.ext_get?
  intro n
  rw [foldl_setIdx (fun cl => cl.SetConstraintIdx (cl.IndexOfCoord q) v)
    (setIdx_idem q v) (CluesStartingAt_ cls q) cls n]
  rw [List.get?_map]
  by_cases hn : n ∈ CluesStartingAt_ cls q
  · rw [if_pos hn]
    obtain ⟨cl, hget, hq⟩ := (mem_CluesStartingAt_iff cls q n).mp hn
    rw [hget]
    obtain ⟨hc, hnd⟩ := hstruct cl (List.get?_mem hget)
    show some (cl.SetConstraintIdx (cl.IndexOfCoord q) v) = some (updCl (gUpd g q v) cl)
    rw [F_eq_updCl_mem g q v cl hc hnd hq]
  · rw [if_neg hn]
    cases hget : cls.get? n with
    | none => rfl
    | some cl =>
      have hq : q ∉ cl.coord_list := fun hqm =>
        hn ((mem_CluesStartingAt_iff cls q n).mpr ⟨cl, hget, hqm⟩)
      obtain ⟨hc, hnd⟩ := hstruct cl (List.get?_mem hget)
      show some cl = some (updCl (gUpd g q v) cl)
      rw [updCl_id_not_mem g q v cl hc hq]

theorem CluesStartingAt_map (cls : List Clue) (F : Clue → Clue)
    (hcoords : ∀ cl, (F cl).coord_list = cl.coord_list) (c : Coord) :
    CluesStartingAt_ (cls.map F) c = CluesStartingAt_ cls c := by
  unfold CluesStartingAt_
  rw [List.enum_map, List.flatMap_map]
  have hfun : (fun a => ((Prod.map id F a).2.coord_list.filter (fun x => x == c)).map
        (fun _ => (Prod.map id F a).1))
      = (fun p : Nat × Clue => (p.2.coord_list.filter (fun x => x == c)).map
        (fun _ => p.1)) := by
    funext p
    cases p with
    | mk i cl =>
      show ((F cl).coord_list.filter (fun x => x == c)).map (fun _ => i)
        = (cl.coord_list.filter (fun x => x == c)).map (fun _ => i)
      rw [hcoords]
  rw [hfun]

theorem getD_map_proj (cls : List Clue) (F : Clue → Clue)
    (hstart : ∀ cl, (F cl).start = cl.start)
    (hnum : ∀ cl, (F cl).clue_number = cl.clue_number)
    (hdef : F default = default) :
    ∀ i : Nat, ((cls.map F).getD i default).start = (cls.getD i default).start ∧
      ((cls.map F).getD i default).clue_number = (cls.getD i default).clue_number := by
  intro i
  rw [List.getD_eq_getElem?_getD, List.getD_eq_getElem?_getD, List.getElem?_map]
  cases h : cls[i]? with
  | none => simp
  | some cl => simp [hstart, hnum]

theorem GetClueNumber_map (cls : List Clue) (F : Clue → Clue)
    (hcoords : ∀ cl, (F cl).coord_list = cl.coord_list)
    (hstart : ∀ cl, (F cl).start = cl.start)
    (hnum : ∀ cl, (F cl).clue_number = cl.clue_number)
    (hdef : F default = default) (c : Coord) :
    GetClueNumber_ (cls.map F) c = GetClueNumber_ cls c := by
  have hS : ∀ i : Nat, ((cls.map F).getD i default).start = (cls.getD i default).start :=
    fun i => (getD_map_proj cls F hstart hnum hdef i).1
  have hN : ∀ i : Nat, ((cls.map F).getD i default).clue_number
      = (cls.getD i default).clue_number :=
    fun i => (getD_map_proj cls F hstart hnum hdef i).2
  unfold GetClueNumber_
  rw [CluesStartingAt_map cls F hcoords c]
  simp only [hS, hN]

theorem Set__inv (v : Atom) (q : Coord) (cw : Crossword) (hinv : CwInv cw) :
    CwInv (cw.Set_ v q) := by
  obtain ⟨hdirty, hclues, hnum, hmap, hlk⟩ := hinv
  unfold Crossword.Set_
  by_cases hg : (cw.InBounds q && !(cw.grid q).is_barrier) = true
  · rw [if_pos hg]
    have hq_live : q.row < cw.height ∧ q.col < cw.width := by
      unfold Crossword.InBounds at hg
      simp only [Bool.and_eq_true, decide_eq_true_eq] at hg
      exact ⟨hg.1.1, hg.1.2⟩
    have hgrid : (fun c => if c == q then { cw.grid q with contents := v }
        else cw.grid c) = gUpd cw.grid q v := rfl
    have hfold : (cw.clue_cache.cell_mapping q).foldl (fun cls i =>
          match cls.get? i with
          | some cl => cls.set i (cl.SetConstraintIdx (cl.IndexOfCoord q) v)
          | none => cls) cw.clue_cache.clues
        = (Clues_ cw.grid cw.height cw.width).map (updCl (gUpd cw.grid q v)) := by
      rw [hmap q hq_live.1 hq_live.2, hclues]
      exact clueFold_eq_map cw.grid q v (Clues_ cw.grid cw.height cw.width)
        (Clues_struct cw.grid cw.height cw.width)
    have hcluesEq : Clues_ (gUpd cw.grid q v) cw.height cw.width
        = (Clues_ cw.grid cw.height cw.width).map (updCl (gUpd cw.grid q v)) :=
      Clues_congr_update cw.grid (gUpd cw.grid q v) cw.height cw.width
        (gUpd_barrier cw.grid q v) hlk
        (fun c => by rw [gUpd_locked]; exact hlk c)
    refine ⟨hdirty, ?_, ?_, ?_, ?_⟩
    · show (cw.clue_cache.cell_mapping q).foldl _ cw.clue_cache.clues
        = Clues_ (gUpd cw.grid q v) cw.height cw.width
      rw [hfold, hcluesEq]
    · intro c h1 h2
      show cw.clue_cache.numberings c
        = GetClueNumber_ (Clues_ (gUpd cw.grid q v) cw.height cw.width) c
      rw [hcluesEq, GetClueNumber_map (Clues_ cw.grid cw.height cw.width)
        (updCl (gUpd cw.grid q v)) (fun _ => rfl) (fun _ => rfl) (fun _ => rfl) rfl]
      exact hnum c h1 h2
    · intro c h1 h2
      show cw.clue_cache.cell_mapping c
        = CluesStartingAt_ (Clues_ (gUpd cw.grid q v) cw.height cw.width) c
      rw [hcluesEq, CluesStartingAt_map (Clues_ cw.grid cw.height cw.width)
        (updCl (gUpd cw.grid q v)) (fun _ => rfl)]
      exact hmap c h1 h2
    · intro c
      show (gUpd cw.grid q v c).locked = false
      rw [gUpd_locked]
      exact hlk c
  · rw [if_neg hg]
    exact ⟨hdirty, hclues, hnum, hmap, hlk⟩

theorem applyL_inv (l : List SetAction) : ∀ (cw : Crossword), CwInv cw →
    CwInv (applyL l cw) := by
  induction l with
  | nil => intro cw h; exact h
  | cons s rest ih =>
    intro cw h
    rw [applyL_cons]
    exact ih _ (Set__inv s.new_value s.coord cw h)

theorem invertR_inv (l : List SetAction) : ∀ (cw : Crossword), CwInv cw →
    CwInv (invertR l cw) := by
  induction l with
  | nil => intro cw h; exact h
  | cons s rest ih =>
    intro cw h
    show CwInv ((invertR rest cw).Set_ s.old_value s.coord)
    exact Set__inv s.old_value s.coord _ (ih cw h)

theorem CwAction_apply_inv (a : CwAction) (cw : Crossword) (h : CwInv cw) :
    CwInv (a.Apply cw) := by
  cases a with
  | set s => exact Set__inv s.new_value s.coord cw h
  | group l => exact applyL_inv l cw h

theorem CwAction_invert_inv (a : CwAction) (cw : Crossword) (h : CwInv cw) :
    CwInv (a.Invert cw) := by
  cases a with
  | set s => exact Set__inv s.old_value s.coord cw h
  | group l => exact invertR_inv l cw h

theorem PushAction_inv (a : CwAction) (cw : Crossword) (h : CwInv cw) :
    CwInv (cw.PushAction a) := h

theorem ApplyAction_inv (a : CwAction) (cw : Crossword) (h : CwInv cw) :
    CwInv (cw.ApplyAction a) :=
  PushAction_inv a _ (CwAction_apply_inv a cw h)

theorem Undo_inv (cw : Crossword) (h : CwInv cw) : CwInv cw.Undo := by
  show CwInv (if cw.stack_index == 0 then cw
    else { (match cw.stack.get? (cw.stack_index - 1) with
        | some a => a.Invert cw
        | none => cw : Crossword) with stack_index := cw.stack_index - 1 })
  by_cases h0 : (cw.stack_index == 0) = true
  · rw [if_pos h0]
    exact h
  · rw [if_neg h0]
    cases hs : cw.stack.get? (cw.stack_index - 1) with
    | none => exact h
    | some a => exact CwAction_invert_inv a cw h

theorem Redo_inv (cw : Crossword) (h : CwInv cw) : CwInv cw.Redo := by
  show CwInv (if cw.stack_index < cw.stack.length then
    { (match cw.stack.get? cw.stack_index with
        | some a => a.Apply cw
        | none => cw : Crossword) with stack_index := cw.stack_index + 1 }
    else cw)
  by_cases h0 : cw.stack_index < cw.stack.length
  · rw [if_pos h0]
    cases hs : cw.stack.get? cw.stack_index with
    | none => exact h
    | some a => exact CwAction_apply_inv a cw h
  · rw [if_neg h0]
    exact h

theorem Populate_inv (cw : Crossword) (hlk : ∀ c, (cw.grid c).locked = false) :
    CwInv cw.PopulateClueStructure := by
  refine ⟨rfl, rfl, ?_, ?_, hlk⟩
  · intro c h1 h2
    have h1' : c.row < cw.height := h1
    have h2' : c.col < cw.width := h2
    show (if c.row < cw.height && c.col < cw.width
        then GetClueNumber_ (Clues_ cw.grid cw.height cw.width) c
        else cw.clue_cache.numberings c)
      = GetClueNumber_ (Clues_ cw.grid cw.height cw.width) c
    rw [if_pos (by simp [h1', h2'])]
  · intro c h1 h2
    have h1' : c.row < cw.height := h1
    have h2' : c.col < cw.width := h2
    show (if c.row < cw.height && c.col < cw.width
        then CluesStartingAt_ (Clues_ cw.grid cw.height cw.width) c
        else cw.clue_cache.cell_mapping c)
      = CluesStartingAt_ (Clues_ cw.grid cw.height cw.width) c
    rw [if_pos (by simp [h1', h2'])]

theorem SetBarrier_inv (val : Bool) (q : Coord) (sym : Bool) (cw : Crossword)
    (hlk : ∀ c, (cw.grid c).locked = false) :
    CwInv (cw.SetBarrier val q sym) := by
  unfold Crossword.SetBarrier
  refine Populate_inv _ ?_
  intro c
  simp only
  by_cases hsym : (sym && !((cw.DirtyClueStructure.GetRotationalPair q) == q)) = true
  · rw [if_pos hsym]
    by_cases hc1 : (c == cw.DirtyClueStructure.GetRotationalPair q) = true
    · rw [if_pos hc1]
      simp only
      by_cases hc2 : ((cw.DirtyClueStructure.GetRotationalPair q) == q) = true
      · rw [if_pos hc2]
        exact hlk q
      · rw [if_neg hc2]
        exact hlk _
    · rw [if_neg hc1]
      by_cases hc2 : (c == q) = true
      · rw [if_pos hc2]
        exact hlk q
      · rw [if_neg hc2]
        exact hlk c
  · rw [if_neg hsym]
    by_cases hc2 : (c == q) = true
    · rw [if_pos hc2]
      exact hlk q
    · rw [if_neg hc2]
      exact hlk c

theorem ToggleBarrier_inv (q : Coord) (sym : Bool) (cw : Crossword)
    (hlk : ∀ c, (cw.grid c).locked = false) :
    CwInv (cw.ToggleBarrier q sym) :=
  SetBarrier_inv _ q sym cw hlk

theorem SetDimensions_inv (h w : Nat) (cw : Crossword) (hinv : CwInv cw) :
    CwInv (cw.SetDimensions h w) := by
  unfold Crossword.SetDimensions
  by_cases hg : (2 < h && h ≤ kMAX_DIM && 2 < w && w ≤ kMAX_DIM) = true
  · rw [if_pos hg]
    exact Populate_inv _ hinv.2.2.2.2
  · rw [if_neg hg]
    exact hinv

theorem Set_inv (v : Atom) (q : Coord) (cw : Crossword) (hinv : CwInv cw) :
    CwInv (cw.Set v q) := by
  unfold Crossword.Set
  by_cases hg : (cw.InBounds q && !(cw.grid q).is_barrier) = true
  · rw [if_pos hg]
    exact ApplyAction_inv _ cw hinv
  · rw [if_neg hg]
    exact hinv

theorem SetClue_inv (cl : Clue) (wd : Word) (cw : Crossword) (hinv : CwInv cw) :
    CwInv (cw.SetClue cl wd) := by
  unfold Crossword.SetClue
  by_cases hg : cl.FitsWord wd = true
  · rw [if_pos hg]
    exact ApplyAction_inv _ cw hinv
  · rw [if_neg hg]
    exact hinv

theorem ClearClue_inv (cl : Clue) (cw : Crossword) (hinv : CwInv cw) :
    CwInv (cw.ClearClue cl) :=
  ApplyAction_inv _ cw hinv

theorem ClearAtoms_inv (cw : Crossword) (hinv : CwInv cw) :
    CwInv cw.ClearAtoms :=
  ApplyAction_inv _ cw hinv

theorem initial_inv : CwInv initialCrossword :=
  Populate_inv _ (fun _ => rfl)

theorem run_inv (op : CwOp) (cw : Crossword) (hinv : CwInv cw) : CwInv (op.run cw) := by
  cases op with
  | setCell v q => exact Set_inv v q cw hinv
  | setClue cl wd => exact SetClue_inv cl wd cw hinv
  | clearClue cl => exact ClearClue_inv cl cw hinv
  | clearAtoms => exact ClearAtoms_inv cw hinv
  | undo => exact Undo_inv cw hinv
  | redo => exact Redo_inv cw hinv
  | toggleBarrier q sym => exact ToggleBarrier_inv q sym cw hinv.2.2.2.2
  | setBarrier v q sym => exact SetBarrier_inv v q sym cw hinv.2.2.2.2
  | setDims h w => exact SetDimensions_inv h w cw hinv

theorem runOps_inv (ops : List CwOp) : CwInv (runOps ops) := by
  unfold runOps
  have main : ∀ (l : List CwOp) (cw : Crossword), CwInv cw →
      CwInv (l.foldl (fun c op => op.run c) cw) := by
    intro l
    induction l with
    | nil => intro cw h; exact h
    | cons op rest ih =>
      intro cw h
      rw [List.foldl_cons]
      exact ih _ (run_inv op cw h)
  exact main ops initialCrossword initial_inv

/-- C10: after every sequence of public operations from construction - cell
edits (single, clue fills, clue and grid clears), undo and redo, barrier
toggles and writes, and dimension changes - the clue cache's dirty flag is
false, the cached clue list returned by the reader Clues equals a fresh
recomputation from the current grid, and on every live coordinate the cached
numbering returned by GetClueNumber and the cached cell mapping equal their
fresh recomputations: the barrier and dimension mutators rebuild eagerly, the
cell edits patch the mirrored constraint atoms in place, and the readers only
assert cleanliness. -/
theorem C10_clue_cache_invariant (ops : List CwOp) :
    (runOps ops).clue_cache.dirty = false ∧
    (runOps ops).Clues
      = Clues_ (runOps ops).grid (runOps ops).height (runOps ops).width ∧
    (∀ c : Coord, c.row < (runOps ops).height → c.col < (runOps ops).width →
      (runOps ops).GetClueNumber c
        = GetClueNumber_ (Clues_ (runOps ops).grid (runOps ops).height
            (runOps ops).width) c ∧
      (runOps ops).clue_cache.cell_mapping c
        = CluesStartingAt_ (Clues_ (runOps ops).grid (runOps ops).height
            (runOps ops).width) c) := by
  obtain ⟨hd, hc, hn, hm, _⟩ := runOps_inv ops
  exact ⟨hd, hc, fun c h1 h2 => ⟨hn c h1 h2, hm c h1 h2⟩⟩
